import Mathlib

/-!
# stampdalf: timestamp snapshot / restore engine

A shallow embedding of `main.go` (functions `registerDir`, `executeCommand`,
`resetTimestamps`, `main`) together with the parts of the Go standard library
the program calls (`time.Unix`, `filepath.Walk`, `filepath.Join`,
`strconv.ParseInt`) and of the kernel interface it uses (`lstat`, `readdir`,
`utimensat`).

The filesystem below the target directory is a finite tree.  Every entry
carries its two timestamps and the failures the kernel would report for it, so
that the error paths of both walks are part of the model.

What the kernel does, as the model has it:
* `lstat` leaves timestamps alone;
* reading the entry names of a directory may move the access time of the
  directory (as under `relatime` or `strictatime`), after `lstat` has returned
  and before the walk function is called: every directory carries the access
  time the read gives it, if any;
* `utimensat` stores the two timestamps it is given after `timestamp_truncate`:
  the seconds clamped to the range of the filesystem the entry is on, the
  nanoseconds cut to its granularity;
* a `utimensat` call on a path changes the entry at that path and nothing else.

The walk functions of `main.go` return nil or an errno, never
`filepath.SkipDir` or `filepath.SkipAll`, and the command `main` runs is an
arbitrary function on the tree.
-/

namespace Stampdalf

/-! ## Errors and log lines -/

/-- Error values (`syscall.Errno`); `none : Option Errno` is Go's `nil` error. -/
abbrev Errno := Nat

/-- The errno of an invalid argument. -/
def EINVAL : Errno := 22

/-- The lines the program hands to package `log`. -/
inductive LogLine where
  | warnAccess (path : String) (err : Errno)
  | foundNewFile (path : String)
  | fixingTimestamp (path : String)
  | scanning
  | found (n : Nat)
  | executing (command : List String)
  | resetting
  | fatalUsage
  | fatalNotDirectory (dir : String)
  | fatalScan (err : Errno)
  | fatalCommand (err : Errno)
  | fatalReset (err : Errno)
deriving DecidableEq, Repr

/-! ## `time.Time` -/

/-- An instant as `time.Time` holds it when built by `time.Unix`: seconds since
the Unix epoch (an `int64`) and a nanosecond offset. -/
structure Time where
  sec : Int
  nsec : Int
deriving DecidableEq, Repr

/-- Two's complement reduction to the range of `int64`. -/
def wrapInt64 (x : Int) : Int :=
  (x + 9223372036854775808) % 18446744073709551616 - 9223372036854775808

/-- The function `time.Unix(sec, nsec)`: a nanosecond count outside
`[0, 999999999]` is carried into the seconds. -/
def timeUnix (sec nsec : Int) : Time :=
  if nsec < 0 ∨ nsec ≥ 1000000000 then
    let n := Int.tdiv nsec 1000000000
    let sec1 := wrapInt64 (sec + n)
    let nsec1 := nsec - n * 1000000000
    if nsec1 < 0 then ⟨wrapInt64 (sec1 - 1), nsec1 + 1000000000⟩ else ⟨sec1, nsec1⟩
  else ⟨sec, nsec⟩

/-- The method `Time.Unix()`. -/
def Time.Unix (t : Time) : Int := t.sec

/-- The method `Time.Nanosecond()`. -/
def Time.Nanosecond (t : Time) : Int := t.nsec

/-- The method `Time.Equal(u)`: the same instant. -/
def Time.Equal (t u : Time) : Bool := t.sec == u.sec && t.nsec == u.nsec

/-- The representation invariant of `time.Time`: nanoseconds in `[0, 999999999]`. -/
def Time.WF (t : Time) : Prop := 0 ≤ t.nsec ∧ t.nsec < 1000000000

instance (t : Time) : Decidable t.WF := by unfold Time.WF; infer_instance

/-! ## Paths: `filepath.Clean`, `filepath.Join`, `filepath.IsAbs` (Unix) -/

/-- Split at every slash (`strings.Split(s, "/")`). -/
def splitSlash : List Char → List (List Char)
  | [] => [[]]
  | c :: cs =>
    if c = '/' then [] :: splitSlash cs
    else match splitSlash cs with
      | [] => [[c]]
      | w :: ws => (c :: w) :: ws

/-- One step of the element loop of `filepath.Clean`.  The state is the stack of
elements written so far (last element first), and the number of leading `..`
elements that may not be removed (Go's `dotdot` mark). -/
def cleanStep (rooted : Bool) (st : List (List Char) × Nat) (el : List Char) :
    List (List Char) × Nat :=
  if el = [] ∨ el = ['.'] then st
  else if el = ['.', '.'] then
    if st.1.length > st.2 then (st.1.tail, st.2)
    else if rooted then st
    else (el :: st.1, st.1.length + 1)
  else (el :: st.1, st.2)

/-- Elements joined by slashes. -/
def joinSlash : List (List Char) → List Char
  | [] => []
  | [w] => w
  | w :: ws => w ++ '/' :: joinSlash ws

/-- The function `filepath.Clean` on Unix, over the characters of the path. -/
def cleanChars (path : List Char) : List Char :=
  match path with
  | [] => ['.']
  | c :: cs =>
    if c = '/' then
      '/' :: joinSlash ((splitSlash cs).foldl (cleanStep true) ([], 0)).1.reverse
    else
      match ((splitSlash (c :: cs)).foldl (cleanStep false) ([], 0)).1.reverse with
      | [] => ['.']
      | w :: ws => joinSlash (w :: ws)

/-- The function `filepath.Clean`. -/
def Clean (path : String) : String := ⟨cleanChars path.data⟩

/-- The call `filepath.Join(dir, name)`: empty elements are dropped, the rest
is joined by slashes and cleaned. -/
def Join (dir name : String) : String :=
  if dir ≠ "" then Clean (dir ++ "/" ++ name)
  else if name ≠ "" then Clean name
  else ""

/-- The function `filepath.IsAbs` on Unix: the path starts with a slash. -/
def IsAbs (path : String) : Bool :=
  match path.data with
  | c :: _ => c == '/'
  | [] => false

/-! ## The filesystem -/

/-- A `syscall.Timespec` / `unix.Timespec`. -/
structure Timespec where
  Sec : Int
  Nsec : Int
deriving DecidableEq, Repr

/-- The fields of `syscall.Stat_t` that the program reads. -/
structure Stat_t where
  Atim : Timespec
  Mtim : Timespec
deriving DecidableEq, Repr

/-- The timestamp limits of a filesystem: `s_time_min`, `s_time_max` and
`s_time_gran` of its super block. -/
structure SuperBlock where
  timeMin : Int
  timeMax : Int
  timeGran : Int
deriving DecidableEq, Repr

/-- The kernel function `timestamp_truncate`: the seconds clamped to the range
of the filesystem, the nanoseconds zero at either end of the range and cut to
the granularity. -/
def SuperBlock.truncate (sb : SuperBlock) (t : Timespec) : Timespec :=
  let sec := min (max t.Sec sb.timeMin) sb.timeMax
  let nsec := if sec = sb.timeMax ∨ sec = sb.timeMin then 0 else t.Nsec
  if sb.timeGran = 1 then ⟨sec, nsec⟩
  else if sb.timeGran = 1000000000 then ⟨sec, 0⟩
  else if 1 < sb.timeGran ∧ sb.timeGran < 1000000000 then ⟨sec, nsec - nsec % sb.timeGran⟩
  else ⟨sec, nsec⟩

/-- What the kernel holds for one filesystem entry: its timestamps, the error
`lstat` respectively `utimensat` reports for it (`none`: the call succeeds),
and the limits of the filesystem it is on. -/
structure Inode where
  stat : Stat_t
  lstatErr : Option Errno
  utimesErr : Option Errno
  sb : SuperBlock
deriving DecidableEq, Repr

/-- The entry after the kernel has moved its access time to `atime`, if it
has. -/
def Inode.touch (i : Inode) (atime : Option Timespec) : Inode :=
  match atime with
  | none => i
  | some t => { i with stat := ⟨t, i.stat.Mtim⟩ }

/-- What a non-directory is.  For a symbolic link, `followIsDir` is what a
`stat` that follows the link finds: `none` when the link dangles, otherwise
whether the target is a directory. -/
inductive LeafKind where
  | regular (content : String)
  | symlink (target : String) (followIsDir : Option Bool)
deriving DecidableEq, Repr

mutual
/-- A filesystem entry.  A directory carries the error of reading its entry
names (`none`: the read succeeds), the access time a successful read gives it
(`none`: the read leaves the access time alone) and its entries. -/
inductive Node where
  | leaf (i : Inode) (kind : LeafKind)
  | dir (i : Inode) (readErr : Option Errno) (readAtime : Option Timespec)
      (entries : Entries)
/-- The entries of a directory, in the order `readDirNames` returns the names
(sorted). -/
inductive Entries where
  | nil
  | cons (name : String) (n : Node) (rest : Entries)
end

/-- The inode of an entry. -/
def Node.inode : Node → Inode
  | .leaf i _ => i
  | .dir i _ _ _ => i

/-- Replace the inode of an entry. -/
def Node.setInode : Node → Inode → Node
  | .leaf _ k, j => .leaf j k
  | .dir _ e a es, j => .dir j e a es

/-- An `os.FileInfo` as returned by `os.Lstat`: its `Sys()` value. -/
structure FileInfo where
  sys : Stat_t
  isDir : Bool
deriving DecidableEq, Repr

/-- The method `FileInfo.ModTime()` (Linux): `time.Unix` of `Mtim`. -/
def FileInfo.ModTime (info : FileInfo) : Time :=
  timeUnix info.sys.Mtim.Sec info.sys.Mtim.Nsec

/-- The system call `utimensat(AT_FDCWD, path, [atime, mtime],
AT_SYMLINK_NOFOLLOW)` on the entry at `path`: it fails with the entry's error,
or with `EINVAL` on a nanosecond field outside `[0, 999999999]`; otherwise it
replaces both timestamps of the entry itself (of the link, for a symbolic
link) by the given ones as `timestamp_truncate` leaves them.  The two special
nanosecond values `UTIME_NOW` and `UTIME_OMIT` lie above 999999999 and
`Time.Nanosecond()` never returns them. -/
def utimesNanoAt (i : Inode) (atime mtime : Timespec) : Option Errno × Inode :=
  match i.utimesErr with
  | some e => (some e, i)
  | none =>
    if 0 ≤ atime.Nsec ∧ atime.Nsec < 1000000000 ∧ 0 ≤ mtime.Nsec ∧ mtime.Nsec < 1000000000 then
      (none, { i with stat := ⟨i.sb.truncate atime, i.sb.truncate mtime⟩ })
    else (some EINVAL, i)

/-! ## `filepath.Walk` -/

/-- The arguments `(info, err)` of a `filepath.WalkFunc` call: Walk passes a
`FileInfo` whenever `err` is nil. -/
inductive WalkArg where
  | ok (info : FileInfo)
  | failed (info : Option FileInfo) (err : Errno)
deriving DecidableEq, Repr

/-- What the `return` statement of a walk function evaluates: an error value,
or the result of `unix.UtimesNanoAt` on the function's own `path` argument. -/
inductive Ret where
  | value (err : Option Errno)
  | utimes (atime mtime : Timespec)
deriving DecidableEq, Repr

/-- A `filepath.WalkFunc` closing over a state of type `σ`. -/
abbrev WalkFunc (σ : Type) := String → WalkArg → σ → σ × Ret

/-- One `utimensat` call made during a walk, with the error it returned. -/
structure UtimesCall where
  path : String
  atime : Timespec
  mtime : Timespec
  result : Option Errno
deriving DecidableEq, Repr

/-- The state a walk threads: the closure's variables and the `utimensat` calls
made so far. -/
structure WalkState (σ : Type) where
  user : σ
  calls : List UtimesCall

/-- The result of a walk over `α` (an entry or the entries of a directory). -/
structure WalkOut (σ : Type) (α : Type) where
  err : Option Errno
  fs : α
  state : WalkState σ

/-- Call the walk function for the entry with inode `i` at `path`, and carry
out the `utimensat` call it returns. -/
def invoke {σ : Type} (fn : WalkFunc σ) (path : String) (i : Inode) (arg : WalkArg)
    (s : WalkState σ) : WalkOut σ Inode :=
  match fn path arg s.user with
  | (u, .value e) => ⟨e, i, ⟨u, s.calls⟩⟩
  | (u, .utimes a m) =>
    ⟨(utimesNanoAt i a m).1, (utimesNanoAt i a m).2,
      ⟨u, s.calls ++ [⟨path, a, m, (utimesNanoAt i a m).1⟩]⟩⟩

mutual
/-- The function `walk` of `path/filepath`, for a walk function that returns
`nil` or an error other than `SkipDir`/`SkipAll`. -/
def walk {σ : Type} (fn : WalkFunc σ) (path : String) (n : Node) (s : WalkState σ) :
    WalkOut σ Node :=
  match n with
  | .leaf i k =>
    -- if !info.IsDir() { return walkFn(path, info, nil) }
    let r := invoke fn path i (.ok ⟨i.stat, false⟩) s
    ⟨r.err, .leaf r.fs k, r.state⟩
  | .dir i readErr readAtime es =>
    -- names, err := readDirNames(path); err1 := walkFn(path, info, err)
    match readErr with
    | some e =>
      -- if err != nil || err1 != nil { return err1 }
      let r := invoke fn path i (.failed (some ⟨i.stat, true⟩) e) s
      ⟨r.err, .dir r.fs (some e) readAtime es, r.state⟩
    | none =>
      -- the read has moved the access time; `info` is what `lstat` returned before
      let r := invoke fn path (i.touch readAtime) (.ok ⟨i.stat, true⟩) s
      match r.err with
      | some e1 => ⟨some e1, .dir r.fs none readAtime es, r.state⟩
      | none =>
        let r2 := walkNames fn path es r.state
        ⟨r2.err, .dir r.fs none readAtime r2.fs, r2.state⟩
/-- The loop `for _, name := range names` of `walk`. -/
def walkNames {σ : Type} (fn : WalkFunc σ) (path : String) (es : Entries)
    (s : WalkState σ) : WalkOut σ Entries :=
  match es with
  | .nil => ⟨none, .nil, s⟩
  | .cons name n rest =>
    -- filename := Join(path, name); fileInfo, err := lstat(filename)
    match n.inode.lstatErr with
    | some e =>
      -- if err := walkFn(filename, fileInfo, err); err != nil && err != SkipDir { return err }
      let r := invoke fn (Join path name) n.inode (.failed none e) s
      match r.err with
      | some e1 => ⟨some e1, .cons name (n.setInode r.fs) rest, r.state⟩
      | none =>
        let r2 := walkNames fn path rest r.state
        ⟨r2.err, .cons name (n.setInode r.fs) r2.fs, r2.state⟩
    | none =>
      -- err = walk(filename, fileInfo, walkFn); if err != nil { return err }
      let r := walk fn (Join path name) n s
      match r.err with
      | some e1 => ⟨some e1, .cons name r.fs rest, r.state⟩
      | none =>
        let r2 := walkNames fn path rest r.state
        ⟨r2.err, .cons name r.fs r2.fs, r2.state⟩
end

/-- The function `filepath.Walk(root, fn)` on the filesystem whose entry at
`root` is `n`. -/
def Walk {σ : Type} (root : String) (fn : WalkFunc σ) (n : Node) (s : WalkState σ) :
    WalkOut σ Node :=
  -- info, err := os.Lstat(root)
  match n.inode.lstatErr with
  | some e =>
    -- err = fn(root, nil, err)
    let r := invoke fn root n.inode (.failed none e) s
    ⟨r.err, n.setInode r.fs, r.state⟩
  | none => walk fn root n s

/-! ## `registerDir` -/

/-- The type `FileTimestamps`. -/
structure FileTimestamps where
  Atime : Time
  Mtime : Time
deriving DecidableEq, Repr

/-- The Go type `map[string]FileTimestamps`, as the list of its key/value
pairs; every key occurs once. -/
abbrev Snapshot := List (String × FileTimestamps)

/-- The map read `timestamps[path]` with its `exist` flag. -/
def Snapshot.get : Snapshot → String → Option FileTimestamps
  | [], _ => none
  | (k, v) :: m, path => if k = path then some v else Snapshot.get m path

/-- The map write `timestamps[path] = ts`. -/
def Snapshot.set : Snapshot → String → FileTimestamps → Snapshot
  | [], path, ts => [(path, ts)]
  | (k, v) :: m, path, ts =>
    if k = path then (k, ts) :: m else (k, v) :: Snapshot.set m path ts

/-- The variables the walk function of `registerDir` updates. -/
structure ScanState where
  timestamps : Snapshot
  log : List LogLine
deriving DecidableEq, Repr

/-- What `registerDir` reads from `info`: `Atime` through `info.Sys()`, `Mtime`
through `info.ModTime()`. -/
def readTimestamps (info : FileInfo) : FileTimestamps :=
  { Atime := timeUnix info.sys.Atim.Sec info.sys.Atim.Nsec
    Mtime := info.ModTime }

/-- The walk function of `registerDir` (main.go, lines 24 to 37). -/
def registerDirFn : WalkFunc ScanState := fun path arg s =>
  match arg with
  | .failed _ err =>
    ({ s with log := s.log ++ [.warnAccess path err] }, .value none)
  | .ok info =>
    ({ s with timestamps := s.timestamps.set path (readTimestamps info) }, .value none)

/-- The result of `registerDir`, with the log lines it printed and the
filesystem as the walk leaves it. -/
structure ScanResult where
  timestamps : Snapshot
  err : Option Errno
  log : List LogLine
  fs : Node

/-- The function `registerDir(dir)` on the filesystem whose entry at `dir` is
`fs` (main.go, lines 21 to 40). -/
def registerDir (dir : String) (fs : Node) : ScanResult :=
  let r := Walk dir registerDirFn fs ⟨⟨[], []⟩, []⟩
  ⟨r.state.user.timestamps, r.err, r.state.user.log, r.fs⟩

/-! ## `resetTimestamps` -/

/-- The `unix.Timespec{Sec: t.Unix(), Nsec: int64(t.Nanosecond())}` of a time. -/
def toTimespec (t : Time) : Timespec := ⟨t.Unix, t.Nanosecond⟩

/-- The walk function of `resetTimestamps` (main.go, lines 55 to 82); its state
is the log. -/
def resetTimestampsFn (defaultStamp : Time) (timestamps : Snapshot) :
    WalkFunc (List LogLine) := fun path arg log =>
  match arg with
  | .failed _ err => (log ++ [.warnAccess path err], .value none)
  | .ok info =>
    let curAtime := timeUnix info.sys.Atim.Sec info.sys.Atim.Nsec
    let curMtime := info.ModTime
    match timestamps.get path with
    | none =>
      -- new file. let's set to 0 or SOURCE_DATE_EPOCH
      (log ++ [.foundNewFile path], .utimes (toTimespec defaultStamp) (toTimespec defaultStamp))
    | some originalTs =>
      if curAtime.Equal originalTs.Atime && curMtime.Equal originalTs.Mtime then
        (log, .value none)
      else
        (log ++ [.fixingTimestamp path],
          .utimes (toTimespec originalTs.Atime) (toTimespec originalTs.Mtime))

/-- The result of `resetTimestamps`: its error, the filesystem it leaves, the
log lines it printed and the `utimensat` calls it made. -/
structure ResetResult where
  err : Option Errno
  fs : Node
  log : List LogLine
  calls : List UtimesCall

/-- The function `resetTimestamps(dir, defaultStamp, timestamps)` on the
filesystem whose entry at `dir` is `fs` (main.go, lines 54 to 85). -/
def resetTimestamps (dir : String) (defaultStamp : Time) (timestamps : Snapshot)
    (fs : Node) : ResetResult :=
  let r := Walk dir (resetTimestampsFn defaultStamp timestamps) fs ⟨[], []⟩
  ⟨r.err, r.fs, r.state.user, r.state.calls⟩

/-! ## `main` -/

/-- The errors of `strconv.ParseInt`: `ErrSyntax` and `ErrRange`. -/
inductive NumError where
  | invalid
  | outOfRange
deriving DecidableEq, Repr

/-- The digit loop of `strconv.ParseUint(s, 10, 64)` with `n` the value read so
far: `cutoff` is `maxUint64/10 + 1`, and a sum that wraps around is out of
range. -/
def parseUintLoop : List Char → Nat → Except NumError Nat
  | [], n => .ok n
  | c :: cs, n =>
    if 48 ≤ c.toNat ∧ c.toNat ≤ 57 then
      let d := c.toNat - 48
      if n ≥ 1844674407370955162 then .error .outOfRange
      else
        let n10 := n * 10 % 18446744073709551616
        let n1 := (n10 + d) % 18446744073709551616
        if n1 < n10 ∨ n1 > 18446744073709551615 then .error .outOfRange
        else parseUintLoop cs n1
    else .error .invalid

/-- The call `strconv.ParseUint(s, 10, 64)`. -/
def ParseUint (s : List Char) : Except NumError Nat :=
  match s with
  | [] => .error .invalid
  | _ => parseUintLoop s 0

/-- The call `strconv.ParseInt(s, 10, 64)`: an optional sign, then
`ParseUint`, then the range check against `1 << 63`. -/
def ParseInt (s : String) : Except NumError Int :=
  match s.data with
  | [] => .error .invalid
  | c :: cs =>
    let neg := c = '-'
    let digits := if c = '+' ∨ c = '-' then cs else c :: cs
    match ParseUint digits with
    | .error .invalid => .error .invalid
    | .error .outOfRange => .error .outOfRange
    | .ok un =>
      if ¬ neg ∧ un ≥ 9223372036854775808 then .error .outOfRange
      else if neg ∧ un > 9223372036854775808 then .error .outOfRange
      else .ok (if neg then -(un : Int) else (un : Int))

/-- The call `os.Getenv`: the empty string when the variable is unset. -/
def Getenv (value : Option String) : String := value.getD ""

/-- The fallback timestamp of `main` (main.go, lines 122 to 130), from the
value of `os.Getenv("SOURCE_DATE_EPOCH")`. -/
def defaultTimestamp (sourceDateEpoch : String) : Time :=
  if sourceDateEpoch ≠ "" then
    match ParseInt sourceDateEpoch with
    | .ok timestamp => timeUnix timestamp 0
    | .error _ => timeUnix 0 0
  else timeUnix 0 0

/-- The errno of a missing file. -/
def ENOENT : Errno := 2

/-- The call `os.Stat(dir)` of `main`, which follows a symbolic link: its
error, or `info.IsDir()`. -/
def osStat (n : Node) : Except Errno Bool :=
  match n.inode.lstatErr with
  | some e => .error e
  | none =>
    match n with
    | .dir _ _ _ _ => .ok true
    | .leaf _ (.regular _) => .ok false
    | .leaf _ (.symlink _ (some b)) => .ok b
    | .leaf _ (.symlink _ none) => .error ENOENT

/-- The world `main` runs in: the filesystem at the target directory, the
value of the environment variable `SOURCE_DATE_EPOCH` if it is set, and what
running a child process (program, arguments, working directory if overridden)
does to the filesystem together with the error `cmd.Run()` returns. -/
structure World where
  fs : Node
  sourceDateEpoch : Option String
  run : String → List String → Option String → Node → Node × Option Errno

/-- The function `executeCommand(command, workDir)` (main.go, lines 42 to 52).
Go panics on `command[0]` of an empty vector; `main` passes at least one
element. -/
def executeCommand (w : World) (command : List String) (workDir : String) (fs : Node) :
    Node × Option Errno :=
  w.run (command.headD "") command.tail (if workDir ≠ "" then some workDir else none) fs

/-- The three stages `main` calls, `executeCommand` with the error it returned. -/
inductive StageCall where
  | registerDir
  | executeCommand (err : Option Errno)
  | resetTimestamps
deriving DecidableEq, Repr

/-- What a run of `main` leaves: the filesystem, the log, the stages called in
order, the `utimensat` calls made, and the exit status. -/
structure Outcome where
  fs : Node
  log : List LogLine
  stages : List StageCall
  calls : List UtimesCall
  exit : Nat

/-- The function `main` (main.go, lines 87 to 135), from the parsed flag `-cd`
and the positional arguments; `log.Fatalf` ends the process with status 1. -/
def main (changeDir : Bool) (args : List String) (w : World) : Outcome :=
  match args with
  | dir :: c0 :: cs =>
    let command := c0 :: cs
    let workDir := if changeDir then dir else ""
    match osStat w.fs with
    | .error _ => ⟨w.fs, [.fatalNotDirectory dir], [], [], 1⟩
    | .ok false => ⟨w.fs, [.fatalNotDirectory dir], [], [], 1⟩
    | .ok true =>
      -- Step 1: Scan original timestamps
      let scan := registerDir dir w.fs
      let log1 := .scanning :: scan.log
      match scan.err with
      | some e => ⟨scan.fs, log1 ++ [.fatalScan e], [.registerDir], [], 1⟩
      | none =>
        let log2 := log1 ++ [.found scan.timestamps.length, .executing command]
        -- Step 2: Execute command
        let ran := executeCommand w command workDir scan.fs
        match ran.2 with
        | some e =>
          ⟨ran.1, log2 ++ [.fatalCommand e], [.registerDir, .executeCommand (some e)], [], 1⟩
        | none =>
          -- Step 3: Reset timestamps
          let r := resetTimestamps dir (defaultTimestamp (Getenv w.sourceDateEpoch))
            scan.timestamps ran.1
          let log3 := log2 ++ [.resetting] ++ r.log
          let stages := [.registerDir, .executeCommand none, .resetTimestamps]
          match r.err with
          | some e => ⟨r.fs, log3 ++ [.fatalReset e], stages, r.calls, 1⟩
          | none => ⟨r.fs, log3, stages, r.calls, 0⟩
  | _ => ⟨w.fs, [.fatalUsage], [], [], 1⟩

/-! ## Views of a filesystem tree used to state the properties -/

mutual
/-- Every entry of the tree at `path`, the entry at `path` itself first, each
with its path as the walk forms it. -/
def Node.listing (path : String) : Node → List (String × Inode)
  | .leaf i _ => [(path, i)]
  | .dir i _ _ es => (path, i) :: es.listing path
/-- Every entry below the directory at `path`. -/
def Entries.listing (path : String) : Entries → List (String × Inode)
  | .nil => []
  | .cons name n rest => n.listing (Join path name) ++ rest.listing path
end

mutual
/-- The entries for which `walk` calls the walk function with a nil error, the
entry at `path` itself having been read by `lstat`. -/
def Node.visited (path : String) : Node → List (String × Inode)
  | .leaf i _ => [(path, i)]
  | .dir _ (some _) _ _ => []
  | .dir i none _ es => (path, i) :: es.visited path
/-- The entries below the directory at `path` for which `walk` calls the walk
function with a nil error. -/
def Entries.visited (path : String) : Entries → List (String × Inode)
  | .nil => []
  | .cons name n rest =>
    (match n.inode.lstatErr with
      | some _ => []
      | none => n.visited (Join path name)) ++ rest.visited path
end

/-- The entries for which `filepath.Walk(root, fn)` calls `fn` with a nil
error. -/
def Node.visitedFrom (root : String) (n : Node) : List (String × Inode) :=
  match n.inode.lstatErr with
  | some _ => []
  | none => n.visited root

/-- An entry as a walk meets it: its path, what `lstat` finds, and the access
time the walk's own read of the entry gives it (`none` for an entry that is not
a directory, for a directory the walk does not read, and for a read that
leaves the access time alone). -/
structure Visit where
  path : String
  inode : Inode
  moved : Option Timespec
deriving DecidableEq, Repr

/-- An entry the walk does not read. -/
def still (q : String × Inode) : Visit := ⟨q.1, q.2, none⟩

mutual
/-- The entries of `Node.visited`, each with the effect of the walk's read. -/
def Node.visits (path : String) : Node → List Visit
  | .leaf i _ => [⟨path, i, none⟩]
  | .dir _ (some _) _ _ => []
  | .dir i none a es => ⟨path, i, a⟩ :: es.visits path
/-- The entries of `Entries.visited`, each with the effect of the walk's
read. -/
def Entries.visits (path : String) : Entries → List Visit
  | .nil => []
  | .cons name n rest =>
    (match n.inode.lstatErr with
      | some _ => []
      | none => n.visits (Join path name)) ++ rest.visits path
end

/-- The entries of `Node.visitedFrom`, each with the effect of the walk's
read. -/
def Node.visitsFrom (root : String) (n : Node) : List Visit :=
  match n.inode.lstatErr with
  | some _ => []
  | none => n.visits root

mutual
/-- The entries of `Node.listing`, each with the effect of the walk's read. -/
def Node.census (path : String) : Node → List Visit
  | .leaf i _ => [⟨path, i, none⟩]
  | .dir i (some _) _ es => ⟨path, i, none⟩ :: (es.listing path).map still
  | .dir i none a es => ⟨path, i, a⟩ :: es.census path
/-- The entries of `Entries.listing`, each with the effect of the walk's
read. -/
def Entries.census (path : String) : Entries → List Visit
  | .nil => []
  | .cons name n rest =>
    (match n.inode.lstatErr with
      | some _ => (n.listing (Join path name)).map still
      | none => n.census (Join path name)) ++ rest.census path
end

/-- Every entry of the tree at `root`, each with the effect of the read of
`filepath.Walk(root, fn)`. -/
def Node.censusFrom (root : String) (n : Node) : List Visit :=
  match n.inode.lstatErr with
  | some _ => (n.listing root).map still
  | none => n.census root

/-- The entry after the walk's read of it, when nothing is written. -/
def Visit.afterRead (v : Visit) : String × Inode := (v.path, v.inode.touch v.moved)

mutual
/-- No entry of the tree fails `lstat`, no directory fails to be read. -/
def Node.accessible : Node → Bool
  | .leaf i _ => i.lstatErr.isNone
  | .dir i readErr _ es => i.lstatErr.isNone && readErr.isNone && es.accessible
/-- No entry below the directory fails `lstat` or fails to be read. -/
def Entries.accessible : Entries → Bool
  | .nil => true
  | .cons _ n rest => n.accessible && rest.accessible
end

/-- The timestamps a reader of the entry's metadata sees, read the way
`registerDir` reads them. -/
def Inode.timestamps (i : Inode) : FileTimestamps := readTimestamps ⟨i.stat, false⟩

/-- The filesystem of the entry stores both times of the pair as given. -/
def Inode.holds (i : Inode) (ts : FileTimestamps) : Prop :=
  i.sb.truncate (toTimespec ts.Atime) = toTimespec ts.Atime ∧
  i.sb.truncate (toTimespec ts.Mtime) = toTimespec ts.Mtime

instance (i : Inode) (ts : FileTimestamps) : Decidable (i.holds ts) := by
  unfold Inode.holds; infer_instance

/-- The keys of a snapshot. -/
def Snapshot.keys (m : Snapshot) : List String := m.map Prod.fst

/-- Every time of the snapshot satisfies the invariant of `time.Time`. -/
def Snapshot.WF (m : Snapshot) : Prop :=
  ∀ p ts, m.get p = some ts → ts.Atime.WF ∧ ts.Mtime.WF

/-- The log line is an access warning. -/
def LogLine.isWarning : LogLine → Bool
  | .warnAccess _ _ => true
  | _ => false

/-- The log line is one of `log.Fatalf`. -/
def LogLine.isFatal : LogLine → Bool
  | .fatalUsage => true
  | .fatalNotDirectory _ => true
  | .fatalScan _ => true
  | .fatalCommand _ => true
  | .fatalReset _ => true
  | _ => false

/-- The timestamps `resetTimestamps` aims at for a path: the snapshot's pair,
or the fallback twice for a path the snapshot does not have. -/
def target (defaultStamp : Time) (timestamps : Snapshot) (path : String) : FileTimestamps :=
  match timestamps.get path with
  | some ts => ts
  | none => ⟨defaultStamp, defaultStamp⟩

/-- The walk function of `resetTimestamps` skips the write for the entry: the
snapshot has, for its path, the pair `lstat` finds. -/
def Visit.judgedUnchanged (snap : Snapshot) (v : Visit) : Prop :=
  snap.get v.path = some v.inode.timestamps

instance (snap : Snapshot) (v : Visit) : Decidable (v.judgedUnchanged snap) := by
  unfold Visit.judgedUnchanged; infer_instance

/-- What the entry holds after the walk function of `resetTimestamps` has
returned nil for it: what the walk's read left when the write is skipped, the
timestamps aimed at, as the filesystem stores them, when they are written. -/
def settle (defaultStamp : Time) (timestamps : Snapshot) (v : Visit) : Stat_t :=
  if v.judgedUnchanged timestamps then (v.inode.touch v.moved).stat
  else
    ⟨v.inode.sb.truncate (toTimespec (target defaultStamp timestamps v.path).Atime),
      v.inode.sb.truncate (toTimespec (target defaultStamp timestamps v.path).Mtime)⟩

/-- The error the walk function of `resetTimestamps` returns for the entry: nil
when it skips the write, otherwise the error of its `utimensat` call on the
entry as the walk's read left it. -/
def Visit.writeErr (defaultStamp : Time) (timestamps : Snapshot) (v : Visit) : Option Errno :=
  if v.judgedUnchanged timestamps then none
  else
    (utimesNanoAt (v.inode.touch v.moved)
      (toTimespec (target defaultStamp timestamps v.path).Atime)
      (toTimespec (target defaultStamp timestamps v.path).Mtime)).1

/-- The first error the walk function of `resetTimestamps` returns for the
entries, taken in order. -/
def firstWriteErr (defaultStamp : Time) (timestamps : Snapshot) : List Visit → Option Errno
  | [] => none
  | v :: vs =>
    match v.writeErr defaultStamp timestamps with
    | none => firstWriteErr defaultStamp timestamps vs
    | some e => some e

/-- An entry the walk has not come to, with what it holds. -/
def Visit.untouched (v : Visit) : String × Stat_t := (v.path, v.inode.stat)

/-- What the entries hold after the walk function of `resetTimestamps` has been
called for them in order, up to the first error: `settle` where it returned
nil, what the walk's read left for the entry of the error, and what they had
for the entries after it. -/
def restored (defaultStamp : Time) (timestamps : Snapshot) : List Visit → List (String × Stat_t)
  | [] => []
  | v :: vs =>
    match v.writeErr defaultStamp timestamps with
    | none => (v.path, settle defaultStamp timestamps v) :: restored defaultStamp timestamps vs
    | some _ => (v.path, (v.inode.touch v.moved).stat) :: vs.map Visit.untouched

/-- The calls of a walk that ends with `err`: every call succeeded, except that
the last call returned `err` when `err` is an error. -/
def GoodTrace (calls : List UtimesCall) (err : Option Errno) : Prop :=
  match err with
  | none => ∀ c ∈ calls, c.result = none
  | some e => ∃ cs c, calls = cs ++ [c] ∧ c.result = some e ∧ ∀ c0 ∈ cs, c0.result = none

/-- A walk function whose only possible error is that of its `utimensat` call. -/
def Tolerant {σ : Type} (fn : WalkFunc σ) : Prop :=
  ∀ path arg u e, (fn path arg u).2 = .value e → e = none

/-- The entry `q` was written by a successful call among `calls`: it holds the
two times of the call as its filesystem stores them. -/
def WrittenBy (calls : List UtimesCall) (q : String × Inode) : Prop :=
  ∃ c ∈ calls, c.path = q.1 ∧ c.result = none ∧
    q.2.stat = ⟨q.2.sb.truncate c.atime, q.2.sb.truncate c.mtime⟩

/-- What a walk can have done to the entry `v` when it ends as `q`: nothing,
or moved its access time by reading it, or written it by a successful call. -/
def Kept (calls : List UtimesCall) (v : Visit) (q : String × Inode) : Prop :=
  q.1 = v.path ∧ (q.2 = v.inode ∨ q.2 = v.inode.touch v.moved ∨ WrittenBy calls q)

/-- A walk function that always returns nil and makes no call. -/
def Quiet {σ : Type} (fn : WalkFunc σ) : Prop :=
  ∀ path arg u, (fn path arg u).2 = .value none

/-- The snapshot after recording the given entries in order. -/
def record (m : Snapshot) (l : List (String × Inode)) : Snapshot :=
  l.foldl (fun acc q => acc.set q.1 q.2.timestamps) m

mutual
/-- The entries of the tree at `path` for which `walk` does not call the walk
function with a nil error: directories that cannot be read, with everything
below them, and entries `lstat` fails on, with everything below them. -/
def Node.skipped (path : String) : Node → List (String × Inode)
  | .leaf _ _ => []
  | .dir i (some _) _ es => (path, i) :: es.listing path
  | .dir _ none _ es => es.skipped path
/-- The entries below the directory at `path` that the walk skips. -/
def Entries.skipped (path : String) : Entries → List (String × Inode)
  | .nil => []
  | .cons name n rest =>
    (match n.inode.lstatErr with
      | some _ => n.listing (Join path name)
      | none => n.skipped (Join path name)) ++ rest.skipped path
end

/-- The entries that `filepath.Walk(root, fn)` does not hand to `fn` with a nil
error. -/
def Node.skippedFrom (root : String) (n : Node) : List (String × Inode) :=
  match n.inode.lstatErr with
  | some _ => n.listing root
  | none => n.skipped root

mutual
/-- The access failures `walk` meets in the tree at `path`, each with the path
it is reported for: directories that cannot be read and entries `lstat` fails
on. -/
def Node.failures (path : String) : Node → List (String × Errno)
  | .leaf _ _ => []
  | .dir _ (some e) _ _ => [(path, e)]
  | .dir _ none _ es => es.failures path
/-- The access failures `walk` meets below the directory at `path`. -/
def Entries.failures (path : String) : Entries → List (String × Errno)
  | .nil => []
  | .cons name n rest =>
    (match n.inode.lstatErr with
      | some e => [(Join path name, e)]
      | none => n.failures (Join path name)) ++ rest.failures path
end

/-- The access failures `filepath.Walk(root, fn)` meets. -/
def Node.failuresFrom (root : String) (n : Node) : List (String × Errno) :=
  match n.inode.lstatErr with
  | some e => [(root, e)]
  | none => n.failures root

/-! ## Decimal integers, as the specification words them -/

/-- The number written by decimal digits that follow digits of value `n`. -/
def digitsValue : List Char → Nat → Nat
  | [], n => n
  | c :: cs, n => digitsValue cs (n * 10 + (c.toNat - 48))

/-- Every character is one of `0` to `9`. -/
def allDigits : List Char → Bool
  | [] => true
  | c :: cs => decide (48 ≤ c.toNat ∧ c.toNat ≤ 57) && allDigits cs

/-- What "parseable as a base-10 signed 64-bit integer" means: an optional
sign, then at least one decimal digit and nothing else, denoting a value in
`[-2^63, 2^63 - 1]`. -/
def decimalInt64 (s : String) : Option Int :=
  match s.data with
  | [] => none
  | c :: cs =>
    let digits := if c = '+' ∨ c = '-' then cs else c :: cs
    if digits ≠ [] ∧ allDigits digits = true then
      let v : Int := if c = '-' then -(digitsValue digits 0 : Int) else (digitsValue digits 0 : Int)
      if -9223372036854775808 ≤ v ∧ v ≤ 9223372036854775807 then some v else none
    else none

/-! ## Well-formed names -/

/-- The elements `filepath.Clean` keeps of a path, first element first. -/
def pathElements (path : List Char) : List (List Char) :=
  match path with
  | [] => []
  | c :: cs =>
    if c = '/' then ((splitSlash cs).foldl (cleanStep true) ([], 0)).1.reverse
    else ((splitSlash (c :: cs)).foldl (cleanStep false) ([], 0)).1.reverse

/-- A name a directory entry can have: not empty, no slash, not `.` or `..`. -/
def validName (name : String) : Bool :=
  decide (name.data ≠ [] ∧ '/' ∉ name.data ∧ name.data ≠ ['.'] ∧ name.data ≠ ['.', '.'])

/-- The names of the entries of a directory. -/
def Entries.names : Entries → List String
  | .nil => []
  | .cons name _ rest => name :: rest.names

mutual
/-- Every name in the tree is valid and no directory holds a name twice. -/
def Node.wellNamed : Node → Bool
  | .leaf _ _ => true
  | .dir _ _ _ es => es.wellNamed
/-- Every name below the directory is valid and no directory holds a name
twice. -/
def Entries.wellNamed : Entries → Bool
  | .nil => true
  | .cons name n rest =>
    validName name && decide (name ∉ rest.names) && n.wellNamed && rest.wellNamed
end

/-- The entry can be brought to the timestamps aimed at: its filesystem stores
them as given, and when the walk function skips the write, the walk's own read
does not move the access time. -/
def Visit.pinnable (defaultStamp : Time) (timestamps : Snapshot) (v : Visit) : Prop :=
  v.inode.holds (target defaultStamp timestamps v.path) ∧
  (v.judgedUnchanged timestamps → v.moved = none)

instance (defaultStamp : Time) (timestamps : Snapshot) (v : Visit) :
    Decidable (v.pinnable defaultStamp timestamps) := by
  unfold Visit.pinnable; infer_instance

/-! ## Concrete filesystems -/

/-- The timestamp limits of ext4 with 256-byte inodes: 34-bit seconds,
nanosecond granularity. -/
def ext4 : SuperBlock := ⟨-2147483648, 15032385535, 1⟩

/-- The timestamp limits of ext3: 32-bit seconds, granularity of one second. -/
def ext3 : SuperBlock := ⟨-2147483648, 2147483647, 1000000000⟩

/-- The timestamp limits of btrfs: 64-bit seconds, nanosecond granularity. -/
def btrfs : SuperBlock := ⟨-9223372036854775808, 9223372036854775807, 1⟩

/-- The access time a directory read gives on a `strictatime` mount in these
examples: the time of the walk. -/
def exNow : Timespec := ⟨900, 0⟩

/-- An entry on ext4 with the given access and modification seconds, on which
every call succeeds. -/
def exInode (atime mtime : Int) : Inode := ⟨⟨⟨atime, 0⟩, ⟨mtime, 500⟩⟩, none, none, ext4⟩

/-- The tree of `TestRegisterDir`: a directory holding `subdir` and `test.txt`. -/
def exBefore : Node :=
  .dir (exInode 100 100) none (some exNow)
    (.cons "subdir" (.dir (exInode 101 101) none (some exNow) .nil)
      (.cons "test.txt" (.leaf (exInode 102 102) (.regular "test")) .nil))

/-- The tree after a command that rewrote `test.txt`, read `subdir` (only its
access time moved) and created `new.txt`. -/
def exAfter : Node :=
  .dir (exInode 100 200) none (some exNow)
    (.cons "new.txt" (.leaf (exInode 200 200) (.regular "new"))
      (.cons "subdir" (.dir (exInode 150 101) none (some exNow) .nil)
        (.cons "test.txt" (.leaf (exInode 102 200) (.regular "modified")) .nil)))

/-- The same paths as `exAfter`, other timestamps and other content. -/
def exAfter2 : Node :=
  .dir (exInode 300 301) none (some exNow)
    (.cons "new.txt" (.leaf (exInode 302 303) (.regular "new, later"))
      (.cons "subdir" (.dir (exInode 180 101) none (some exNow) .nil)
        (.cons "test.txt" (.leaf (exInode 304 305) (.regular "modified again")) .nil)))

/-- The same paths as `exAfter`, with `subdir` as the scan of `exBefore` found
it. -/
def exAfter3 : Node :=
  .dir (exInode 300 301) none (some exNow)
    (.cons "new.txt" (.leaf (exInode 302 303) (.regular "new, later"))
      (.cons "subdir" (.dir (exInode 101 101) none (some exNow) .nil)
        (.cons "test.txt" (.leaf (exInode 304 305) (.regular "modified again")) .nil)))

/-- The same paths as `exAfter`, with `new.txt` on btrfs. -/
def exAfter4 : Node :=
  .dir (exInode 100 200) none (some exNow)
    (.cons "new.txt" (.leaf ⟨⟨⟨200, 0⟩, ⟨200, 500⟩⟩, none, none, btrfs⟩ (.regular "new"))
      (.cons "subdir" (.dir (exInode 150 101) none (some exNow) .nil)
        (.cons "test.txt" (.leaf (exInode 102 200) (.regular "modified")) .nil)))

/-- The tree of `exBefore` after a command that touched `subdir` and made it
unreadable (`EACCES`), and rewrote `test.txt`. -/
def exUnreadable : Node :=
  .dir (exInode 100 100) none (some exNow)
    (.cons "subdir" (.dir (exInode 400 400) (some 13) (some exNow) .nil)
      (.cons "test.txt" (.leaf (exInode 102 200) (.regular "modified")) .nil))

/-- The tree of `exBefore` after a command that read `subdir`, whose timestamps
cannot be written (`EPERM`), and rewrote `test.txt`. -/
def exDenied : Node :=
  .dir (exInode 100 100) none (some exNow)
    (.cons "subdir" (.dir ⟨⟨⟨150, 0⟩, ⟨101, 500⟩⟩, none, some 1, ext4⟩ none (some exNow) .nil)
      (.cons "test.txt" (.leaf (exInode 102 200) (.regular "modified")) .nil))

/-- The tree of `exDenied` with `subdir` as the scan of `exBefore` found it
(same paths, same permissions). -/
def exDenied2 : Node :=
  .dir (exInode 100 100) none (some exNow)
    (.cons "subdir" (.dir ⟨⟨⟨101, 0⟩, ⟨101, 500⟩⟩, none, some 1, ext4⟩ none none .nil)
      (.cons "test.txt" (.leaf (exInode 102 200) (.regular "modified")) .nil))

/-- The tree of `exBefore` after a command that read `subdir` and rewrote
`test.txt`. -/
def exRewritten : Node :=
  .dir (exInode 100 100) none (some exNow)
    (.cons "subdir" (.dir (exInode 150 101) none (some exNow) .nil)
      (.cons "test.txt" (.leaf (exInode 102 200) (.regular "modified")) .nil))

/-- The tree of `exBefore` after a command that replaced `test.txt` by a file
on ext3. -/
def exCoarse : Node :=
  .dir (exInode 100 100) none (some exNow)
    (.cons "subdir" (.dir (exInode 101 101) none (some exNow) .nil)
      (.cons "test.txt" (.leaf ⟨⟨⟨102, 0⟩, ⟨200, 0⟩⟩, none, none, ext3⟩ (.regular "modified"))
        .nil))

/-- An empty directory (`TestResetTimestampsNewFile` before `new.txt` is
written). -/
def exEmpty : Node := .dir (exInode 100 100) none (some exNow) .nil

/-- The directory of `exEmpty` after `new.txt` was created in it. -/
def exNewFile : Node :=
  .dir (exInode 100 200) none (some exNow)
    (.cons "new.txt" (.leaf (exInode 200 200) (.regular "new")) .nil)

/-- The directory of `exEmpty` after a command created `a.txt`, whose timestamps
cannot be written (`EPERM`), and `b.txt`. -/
def exWriteFails : Node :=
  .dir (exInode 100 100) none (some exNow)
    (.cons "a.txt" (.leaf ⟨⟨⟨200, 0⟩, ⟨200, 0⟩⟩, none, some 1, ext4⟩ (.regular "a"))
      (.cons "b.txt" (.leaf (exInode 300 300) (.regular "b")) .nil))

/-- A tree with inaccessible entries: `gone` fails `lstat` (`ENOENT`), the
directory `locked` cannot be read (`EACCES`), `z.txt` comes after both. -/
def exBlocked : Node :=
  .dir (exInode 100 100) none (some exNow)
    (.cons "gone" (.leaf ⟨⟨⟨0, 0⟩, ⟨0, 0⟩⟩, some 2, none, ext4⟩ (.regular ""))
      (.cons "locked" (.dir (exInode 110 110) (some 13) (some exNow)
          (.cons "x" (.leaf (exInode 111 111) (.regular "x")) .nil))
        (.cons "z.txt" (.leaf (exInode 120 120) (.regular "z")) .nil)))

/-- The tree of `exBlocked` once everything in it is accessible. -/
def exBlockedLater : Node :=
  .dir (exInode 100 100) none (some exNow)
    (.cons "gone" (.leaf (exInode 130 130) (.regular "back"))
      (.cons "locked" (.dir (exInode 110 110) none (some exNow)
          (.cons "x" (.leaf (exInode 111 111) (.regular "x")) .nil))
        (.cons "z.txt" (.leaf (exInode 120 120) (.regular "z")) .nil)))

/-- The tree of `exBlockedLater` with `gone` a file whose timestamps cannot be
written (`EPERM`). -/
def exBlockedDenied : Node :=
  .dir (exInode 100 100) none (some exNow)
    (.cons "gone" (.leaf ⟨⟨⟨130, 0⟩, ⟨130, 500⟩⟩, none, some 1, ext4⟩ (.regular "back"))
      (.cons "locked" (.dir (exInode 110 110) none (some exNow)
          (.cons "x" (.leaf (exInode 111 111) (.regular "x")) .nil))
        (.cons "z.txt" (.leaf (exInode 120 120) (.regular "z")) .nil)))

/-- A root directory that does not exist: `lstat` on it fails with `ENOENT`. -/
def exMissing : Node := .leaf ⟨⟨⟨0, 0⟩, ⟨0, 0⟩⟩, some 2, none, ext4⟩ (.regular "")

/-- A world for `main`: the tree `exBefore`, no `SOURCE_DATE_EPOCH`, and a
command that rewrites the tree to `exAfter` and then exits with status 1. -/
def exFailingWorld : World :=
  { fs := exBefore
    sourceDateEpoch := none
    run := fun _ _ _ _ => (exAfter, some 1) }

/-- The world of `exFailingWorld` with a command that succeeds. -/
def exWorld : World :=
  { fs := exBefore
    sourceDateEpoch := some "1609459200"
    run := fun _ _ _ _ => (exAfter, none) }

/-- A world whose command removes the target directory and exits with
status 0. -/
def exVanishingWorld : World :=
  { fs := exBefore
    sourceDateEpoch := none
    run := fun _ _ _ _ => (exMissing, none) }

/-- A world whose command creates `a.txt`, whose timestamps cannot be written,
and `b.txt`, and exits with status 0. -/
def exDeniedWorld : World :=
  { fs := exEmpty
    sourceDateEpoch := none
    run := fun _ _ _ _ => (exWriteFails, none) }

/-- The snapshot `registerDir` takes of `exBefore` at `/tmp/t`. -/
def exSnapshot : Snapshot := (registerDir "/tmp/t" exBefore).timestamps


/-! ## Facts about `time.Time` -/

theorem tdiv_billion (x : Int) :
    Int.tdiv x 1000000000 = if 0 ≤ x then x / 1000000000 else -((-x) / 1000000000) := by
  split
  · exact Int.tdiv_eq_ediv (by assumption) (by norm_num)
  · have h := Int.neg_tdiv (-x) 1000000000
    rw [neg_neg] at h
    rw [h, Int.tdiv_eq_ediv (by omega) (by norm_num)]

theorem timeUnix_of_range (sec nsec : Int) (h0 : 0 ≤ nsec) (h1 : nsec < 1000000000) :
    timeUnix sec nsec = ⟨sec, nsec⟩ := by
  unfold timeUnix
  rw [if_neg (by omega)]

theorem timeUnix_WF (sec nsec : Int) : (timeUnix sec nsec).WF := by
  unfold timeUnix Time.WF
  rw [tdiv_billion]
  by_cases h : nsec < 0 ∨ nsec ≥ 1000000000
  · rw [if_pos h]
    simp only []
    split <;> split <;> constructor <;> simp only [] <;> omega
  · rw [if_neg h]
    simp only []
    omega

theorem Time.Equal_iff (t u : Time) : t.Equal u = true ↔ t = u := by
  cases t; cases u
  simp [Time.Equal]

theorem timeUnix_toTimespec (t : Time) (h0 : 0 ≤ (toTimespec t).Nsec)
    (h1 : (toTimespec t).Nsec < 1000000000) :
    timeUnix (toTimespec t).Sec (toTimespec t).Nsec = t := by
  rw [timeUnix_of_range _ _ h0 h1]
  rfl


/-! ## Facts about one call of the walk function -/

theorem utimesNanoAt_lstatErr (i : Inode) (a m : Timespec) :
    (utimesNanoAt i a m).2.lstatErr = i.lstatErr := by
  unfold utimesNanoAt
  split
  · rfl
  · split <;> rfl

theorem utimesNanoAt_sb (i : Inode) (a m : Timespec) :
    (utimesNanoAt i a m).2.sb = i.sb := by
  unfold utimesNanoAt
  split
  · rfl
  · split <;> rfl

theorem utimesNanoAt_ok (i : Inode) (a m : Timespec) (h : (utimesNanoAt i a m).1 = none) :
    (utimesNanoAt i a m).2.stat = ⟨i.sb.truncate a, i.sb.truncate m⟩ ∧
      0 ≤ a.Nsec ∧ a.Nsec < 1000000000 ∧ 0 ≤ m.Nsec ∧ m.Nsec < 1000000000 := by
  unfold utimesNanoAt at h ⊢
  split at h
  · simp at h
  · rename_i hu
    rw [hu]
    split at h
    · rename_i hr
      refine ⟨?_, hr⟩
      rw [if_pos hr]
    · simp at h

theorem utimesNanoAt_failed (i : Inode) (a m : Timespec) (e : Errno)
    (h : (utimesNanoAt i a m).1 = some e) : (utimesNanoAt i a m).2 = i := by
  unfold utimesNanoAt at h ⊢
  split
  · rfl
  · rename_i hu
    rw [hu] at h
    split
    · rename_i hr
      simp [hr] at h
    · rfl

theorem touch_lstatErr (i : Inode) (a : Option Timespec) : (i.touch a).lstatErr = i.lstatErr := by
  cases a <;> rfl

theorem touch_utimesErr (i : Inode) (a : Option Timespec) :
    (i.touch a).utimesErr = i.utimesErr := by
  cases a <;> rfl

theorem touch_sb (i : Inode) (a : Option Timespec) : (i.touch a).sb = i.sb := by
  cases a <;> rfl

theorem touch_Mtim (i : Inode) (a : Option Timespec) : (i.touch a).stat.Mtim = i.stat.Mtim := by
  cases a <;> rfl

theorem touch_Mtime (i : Inode) (a : Option Timespec) :
    (i.touch a).timestamps.Mtime = i.timestamps.Mtime := by
  cases a <;> rfl

theorem invoke_lstatErr {σ : Type} (fn : WalkFunc σ) (path : String) (i : Inode)
    (arg : WalkArg) (s : WalkState σ) :
    (invoke fn path i arg s).fs.lstatErr = i.lstatErr := by
  unfold invoke
  split
  · rfl
  · exact utimesNanoAt_lstatErr _ _ _

theorem invoke_reset_failed (d : Time) (snap : Snapshot) (path : String) (i : Inode)
    (info : Option FileInfo) (e : Errno) (s : WalkState (List LogLine)) :
    invoke (resetTimestampsFn d snap) path i (.failed info e) s
      = ⟨none, i, ⟨s.user ++ [.warnAccess path e], s.calls⟩⟩ := rfl

/-- The test of `resetTimestamps` for skipping the write (main.go, line 72)
holds exactly when the pair read from `info` is the snapshot's pair. -/
theorem equal_iff (st : Stat_t) (b : Bool) (ts : FileTimestamps) :
    ((timeUnix st.Atim.Sec st.Atim.Nsec).Equal ts.Atime
        && (FileInfo.ModTime ⟨st, b⟩).Equal ts.Mtime) = true
      ↔ readTimestamps ⟨st, false⟩ = ts := by
  cases ts
  simp only [Bool.and_eq_true, Time.Equal_iff, readTimestamps, FileInfo.ModTime,
    FileTimestamps.mk.injEq]

/-- The walk function of `resetTimestamps`, called for an entry the snapshot
has with the pair `lstat` found, returns nil and makes no call. -/
theorem invoke_reset_unchanged (d : Time) (snap : Snapshot) (path : String) (i j : Inode)
    (b : Bool) (s : WalkState (List LogLine)) (h : snap.get path = some i.timestamps) :
    invoke (resetTimestampsFn d snap) path j (.ok ⟨i.stat, b⟩) s = ⟨none, j, s⟩ := by
  have h1 := (equal_iff i.stat b i.timestamps).2 rfl
  simp only [invoke, resetTimestampsFn, h, h1, if_true]

/-- The walk function of `resetTimestamps`, called for an entry whose pair is
not the snapshot's, calls `utimensat` with the timestamps aimed at. -/
theorem invoke_reset_changed (d : Time) (snap : Snapshot) (path : String) (i j : Inode)
    (b : Bool) (s : WalkState (List LogLine)) (h : snap.get path ≠ some i.timestamps) :
    (invoke (resetTimestampsFn d snap) path j (.ok ⟨i.stat, b⟩) s).err
        = (utimesNanoAt j (toTimespec (target d snap path).Atime)
            (toTimespec (target d snap path).Mtime)).1 ∧
    (invoke (resetTimestampsFn d snap) path j (.ok ⟨i.stat, b⟩) s).fs
        = (utimesNanoAt j (toTimespec (target d snap path).Atime)
            (toTimespec (target d snap path).Mtime)).2 := by
  unfold invoke resetTimestampsFn target
  cases hg : snap.get path with
  | none => exact ⟨rfl, rfl⟩
  | some ts =>
    have hne : ¬ readTimestamps ⟨i.stat, false⟩ = ts := by
      intro he
      apply h
      rw [hg, ← he]
      rfl
    have h1 : ¬ ((timeUnix i.stat.Atim.Sec i.stat.Atim.Nsec).Equal ts.Atime
        && (FileInfo.ModTime ⟨i.stat, b⟩).Equal ts.Mtime) = true :=
      fun he => hne ((equal_iff i.stat b ts).1 he)
    simp only [h1, Bool.false_eq_true, if_false]
    exact ⟨trivial, trivial⟩
/-! ## The walk keeps the shape of the tree -/

theorem setInode_inode (n : Node) (j : Inode) : (n.setInode j).inode = j := by
  cases n <;> rfl

theorem setInode_self (n : Node) : n.setInode n.inode = n := by
  cases n <;> rfl

theorem walk_lstatErr {σ : Type} (fn : WalkFunc σ) (path : String) (n : Node)
    (s : WalkState σ) : (walk fn path n s).fs.inode.lstatErr = n.inode.lstatErr := by
  cases n with
  | leaf i k =>
    simp only [walk, Node.inode]
    exact invoke_lstatErr _ _ _ _ _
  | dir i readErr a es =>
    cases readErr with
    | some e =>
      simp only [walk, Node.inode]
      exact invoke_lstatErr _ _ _ _ _
    | none =>
      simp only [walk]
      split <;> simp only [Node.inode] <;>
        exact (invoke_lstatErr _ _ _ _ _).trans (touch_lstatErr _ _)

theorem Walk_lstatErr {σ : Type} (fn : WalkFunc σ) (root : String) (n : Node)
    (s : WalkState σ) : (Walk root fn n s).fs.inode.lstatErr = n.inode.lstatErr := by
  unfold Walk
  split
  · simp only [setInode_inode]
    rw [invoke_lstatErr]
  · rw [walk_lstatErr]

/-! ## What a restore walk leaves -/

theorem firstWriteErr_cons (d : Time) (snap : Snapshot) (v : Visit) (vs : List Visit) :
    firstWriteErr d snap (v :: vs)
      = match v.writeErr d snap with
        | none => firstWriteErr d snap vs
        | some e => some e := rfl

theorem restored_cons (d : Time) (snap : Snapshot) (v : Visit) (vs : List Visit) :
    restored d snap (v :: vs)
      = match v.writeErr d snap with
        | none => (v.path, settle d snap v) :: restored d snap vs
        | some _ => (v.path, (v.inode.touch v.moved).stat) :: vs.map Visit.untouched := rfl

theorem firstWriteErr_append (d : Time) (snap : Snapshot) (l1 l2 : List Visit) :
    firstWriteErr d snap (l1 ++ l2)
      = match firstWriteErr d snap l1 with
        | none => firstWriteErr d snap l2
        | some e => some e := by
  induction l1 with
  | nil => rfl
  | cons v vs ih =>
    rw [List.cons_append, firstWriteErr_cons, firstWriteErr_cons]
    cases v.writeErr d snap with
    | none => exact ih
    | some e => rfl

theorem restored_append (d : Time) (snap : Snapshot) (l1 l2 : List Visit) :
    restored d snap (l1 ++ l2)
      = match firstWriteErr d snap l1 with
        | none => restored d snap l1 ++ restored d snap l2
        | some _ => restored d snap l1 ++ l2.map Visit.untouched := by
  induction l1 with
  | nil => rfl
  | cons v vs ih =>
    rw [List.cons_append, restored_cons, restored_cons, firstWriteErr_cons]
    cases v.writeErr d snap with
    | none =>
      simp only [ih]
      cases firstWriteErr d snap vs <;> rfl
    | some e => simp only [List.map_append, List.cons_append]

/-- The walk function of `resetTimestamps` on an entry `lstat` has read: the
error it returns and what the entry holds afterwards. -/
theorem invoke_reset_run (d : Time) (snap : Snapshot) (path : String) (i : Inode)
    (a : Option Timespec) (b : Bool) (s : WalkState (List LogLine)) :
    (invoke (resetTimestampsFn d snap) path (i.touch a) (.ok ⟨i.stat, b⟩) s).err
        = (⟨path, i, a⟩ : Visit).writeErr d snap ∧
    ((⟨path, i, a⟩ : Visit).writeErr d snap = none →
      (invoke (resetTimestampsFn d snap) path (i.touch a) (.ok ⟨i.stat, b⟩) s).fs.stat
        = settle d snap ⟨path, i, a⟩) ∧
    (∀ e, (⟨path, i, a⟩ : Visit).writeErr d snap = some e →
      (invoke (resetTimestampsFn d snap) path (i.touch a) (.ok ⟨i.stat, b⟩) s).fs
        = i.touch a) := by
  by_cases hu : snap.get path = some i.timestamps
  · have hw : (⟨path, i, a⟩ : Visit).writeErr d snap = none := by
      simp only [Visit.writeErr, Visit.judgedUnchanged, hu, if_true]
    rw [invoke_reset_unchanged d snap path i (i.touch a) b s hu, hw]
    refine ⟨rfl, fun _ => ?_, fun e he => by simp at he⟩
    simp only [settle, Visit.judgedUnchanged, hu, if_true]
  · obtain ⟨he, hf⟩ := invoke_reset_changed d snap path i (i.touch a) b s hu
    have hw : (⟨path, i, a⟩ : Visit).writeErr d snap
        = (utimesNanoAt (i.touch a) (toTimespec (target d snap path).Atime)
            (toTimespec (target d snap path).Mtime)).1 := by
      simp only [Visit.writeErr, Visit.judgedUnchanged, hu, if_false]
    rw [he, hf, hw]
    refine ⟨rfl, fun h => ?_, fun e h => utimesNanoAt_failed _ _ _ e h⟩
    obtain ⟨hs, _⟩ := utimesNanoAt_ok _ _ _ h
    rw [hs, touch_sb]
    simp only [settle, Visit.judgedUnchanged, hu, if_false]

mutual
theorem visited_untouched (path : String) :
    ∀ (n : Node), (n.visited path).map (fun q => (q.1, q.2.stat))
      = (n.visits path).map Visit.untouched
  | .leaf i k => rfl
  | .dir i (some e) a es => rfl
  | .dir i none a es => by
    simp only [Node.visited, Node.visits, List.map_cons, visitedEntries_untouched path es]
    rfl
theorem visitedEntries_untouched (path : String) :
    ∀ (es : Entries), (es.visited path).map (fun q => (q.1, q.2.stat))
      = (es.visits path).map Visit.untouched
  | .nil => rfl
  | .cons name n rest => by
    simp only [Entries.visited, Entries.visits, List.map_append,
      visitedEntries_untouched path rest]
    cases n.inode.lstatErr with
    | some e => rfl
    | none => simp only [visited_untouched (Join path name) n]
end

mutual
theorem walk_reset_run (d : Time) (snap : Snapshot) (path : String) :
    ∀ (n : Node) (s : WalkState (List LogLine)),
      (walk (resetTimestampsFn d snap) path n s).err = firstWriteErr d snap (n.visits path) ∧
      ((walk (resetTimestampsFn d snap) path n s).fs.visited path).map
          (fun q => (q.1, q.2.stat))
        = restored d snap (n.visits path)
  | .leaf i k, s => by
    obtain ⟨h1, h2, h3⟩ := invoke_reset_run d snap path i none false s
    simp only [Inode.touch] at h1 h2 h3
    simp only [walk, Node.visited, Node.visits, List.map_cons, List.map_nil,
      firstWriteErr_cons, restored_cons, h1]
    cases hw : (⟨path, i, none⟩ : Visit).writeErr d snap with
    | none => exact ⟨rfl, by rw [h2 hw]; rfl⟩
    | some e => exact ⟨rfl, by rw [h3 e hw]; rfl⟩
  | .dir i (some e) a es, s => by
    simp only [walk, invoke_reset_failed, Node.visited, Node.visits, List.map_nil]
    exact ⟨rfl, rfl⟩
  | .dir i none a es, s => by
    obtain ⟨h1, h2, h3⟩ := invoke_reset_run d snap path i a true s
    simp only [walk, h1, Node.visits, firstWriteErr_cons, restored_cons]
    cases hw : (⟨path, i, a⟩ : Visit).writeErr d snap with
    | some e1 =>
      simp only [Node.visited, List.map_cons, h3 e1 hw, visitedEntries_untouched path es]
      exact ⟨trivial, trivial⟩
    | none =>
      have ih := walkNames_reset_run d snap path es
        (invoke (resetTimestampsFn d snap) path (i.touch a) (.ok ⟨i.stat, true⟩) s).state
      simp only [Node.visited, List.map_cons, h2 hw, ih.1, ih.2]
      exact ⟨trivial, trivial⟩
theorem walkNames_reset_run (d : Time) (snap : Snapshot) (path : String) :
    ∀ (es : Entries) (s : WalkState (List LogLine)),
      (walkNames (resetTimestampsFn d snap) path es s).err
        = firstWriteErr d snap (es.visits path) ∧
      ((walkNames (resetTimestampsFn d snap) path es s).fs.visited path).map
          (fun q => (q.1, q.2.stat))
        = restored d snap (es.visits path)
  | .nil, s => ⟨rfl, rfl⟩
  | .cons name n rest, s => by
    cases hl : n.inode.lstatErr with
    | some e =>
      have ih := walkNames_reset_run d snap path rest
        ⟨s.user ++ [.warnAccess (Join path name) e], s.calls⟩
      simp only [walkNames, hl, invoke_reset_failed, Entries.visited, Entries.visits,
        setInode_self, List.nil_append]
      exact ih
    | none =>
      have ih1 := walk_reset_run d snap (Join path name) n s
      have ih2 := walkNames_reset_run d snap path rest
        (walk (resetTimestampsFn d snap) (Join path name) n s).state
      simp only [walkNames, hl, Entries.visits, firstWriteErr_append, restored_append]
      rw [← ih1.1]
      cases he : (walk (resetTimestampsFn d snap) (Join path name) n s).err with
      | some e1 =>
        simp only [Entries.visited, walk_lstatErr, hl, List.map_append, ih1.2,
          visitedEntries_untouched path rest]
        exact ⟨trivial, trivial⟩
      | none =>
        simp only [Entries.visited, walk_lstatErr, hl, List.map_append, ih1.2, ih2.1, ih2.2]
        exact ⟨trivial, trivial⟩
end

/-- The restore pass is the walk function of `resetTimestamps` called for the
entries the walk hands to it without an error, in order, up to its first
error. -/
theorem resetTimestamps_run (dir : String) (d : Time) (snap : Snapshot) (fs : Node) :
    (resetTimestamps dir d snap fs).err = firstWriteErr d snap (fs.visitsFrom dir) ∧
    ((resetTimestamps dir d snap fs).fs.visitedFrom dir).map (fun q => (q.1, q.2.stat))
      = restored d snap (fs.visitsFrom dir) := by
  unfold Node.visitedFrom Node.visitsFrom
  have hl : (resetTimestamps dir d snap fs).fs.inode.lstatErr = fs.inode.lstatErr :=
    Walk_lstatErr _ _ _ _
  rw [hl]
  cases hf : fs.inode.lstatErr with
  | some e =>
    simp only [resetTimestamps, Walk, hf, invoke_reset_failed]
    exact ⟨rfl, rfl⟩
  | none =>
    simp only [resetTimestamps, Walk, hf]
    exact walk_reset_run d snap dir fs _

theorem firstWriteErr_eq_none (d : Time) (snap : Snapshot) (l : List Visit) :
    firstWriteErr d snap l = none ↔ ∀ v ∈ l, v.writeErr d snap = none := by
  induction l with
  | nil => simp [firstWriteErr]
  | cons v vs ih =>
    rw [firstWriteErr_cons]
    cases hw : v.writeErr d snap with
    | none =>
      simp only [ih, List.mem_cons, forall_eq_or_imp, hw, true_and]
    | some e =>
      simp only [reduceCtorEq, List.mem_cons, forall_eq_or_imp, hw, false_and]

theorem firstWriteErr_eq_some (d : Time) (snap : Snapshot) (l : List Visit) (e : Errno) :
    firstWriteErr d snap l = some e ↔
      ∃ pre v post, l = pre ++ v :: post ∧ (∀ u ∈ pre, u.writeErr d snap = none) ∧
        v.writeErr d snap = some e := by
  induction l with
  | nil => simp [firstWriteErr]
  | cons v vs ih =>
    rw [firstWriteErr_cons]
    cases hw : v.writeErr d snap with
    | none =>
      simp only [ih]
      constructor
      · rintro ⟨pre, u, post, hl, hp, hu⟩
        refine ⟨v :: pre, u, post, by rw [hl]; rfl, ?_, hu⟩
        intro x hx
        rcases List.mem_cons.1 hx with hx | hx
        · rw [hx]; exact hw
        · exact hp x hx
      · rintro ⟨pre, u, post, hl, hp, hu⟩
        cases pre with
        | nil =>
          simp only [List.nil_append, List.cons.injEq] at hl
          rw [← hl.1, hw] at hu
          simp at hu
        | cons x pre =>
          simp only [List.cons_append, List.cons.injEq] at hl
          exact ⟨pre, u, post, hl.2, fun y hy => hp y (List.mem_cons_of_mem _ hy), hu⟩
    | some e1 =>
      simp only [Option.some.injEq]
      constructor
      · intro he
        exact ⟨[], v, vs, rfl, by simp, by rw [hw, he]⟩
      · rintro ⟨pre, u, post, hl, hp, hu⟩
        cases pre with
        | nil =>
          simp only [List.nil_append, List.cons.injEq] at hl
          rw [← hl.1, hw] at hu
          simpa using hu
        | cons x pre =>
          simp only [List.cons_append, List.cons.injEq] at hl
          have := hp x (List.mem_cons_self _ _)
          rw [← hl.1, hw] at this
          simp at this

/-- What the entries hold when the first error is at `v`. -/
theorem restored_split (d : Time) (snap : Snapshot) (pre : List Visit) (v : Visit)
    (post : List Visit) (hp : ∀ u ∈ pre, u.writeErr d snap = none) :
    restored d snap (pre ++ v :: post)
      = pre.map (fun u => (u.path, settle d snap u)) ++ restored d snap (v :: post) := by
  induction pre with
  | nil => rfl
  | cons x pre ih =>
    rw [List.cons_append, restored_cons, hp x (List.mem_cons_self _ _)]
    simp only [List.map_cons, List.cons_append]
    rw [ih (fun u hu => hp u (List.mem_cons_of_mem _ hu))]

theorem restored_of_none (d : Time) (snap : Snapshot) (l : List Visit)
    (h : ∀ u ∈ l, u.writeErr d snap = none) :
    restored d snap l = l.map (fun u => (u.path, settle d snap u)) := by
  induction l with
  | nil => rfl
  | cons x l ih =>
    rw [restored_cons, h x (List.mem_cons_self _ _)]
    simp only [List.map_cons]
    rw [ih (fun u hu => h u (List.mem_cons_of_mem _ hu))]

/-- A write that does not fail was given well-formed times. -/
theorem writeErr_none_WF (d : Time) (snap : Snapshot) (v : Visit)
    (h : v.writeErr d snap = none) (hu : ¬ v.judgedUnchanged snap) :
    (target d snap v.path).Atime.WF ∧ (target d snap v.path).Mtime.WF := by
  simp only [Visit.writeErr, hu, if_false] at h
  obtain ⟨_, h0, h1, h2, h3⟩ := utimesNanoAt_ok _ _ _ h
  exact ⟨⟨h0, h1⟩, ⟨h2, h3⟩⟩

theorem getElem?_of_map_eq {α γ : Type} (f : α → γ) :
    ∀ (xs : List γ) (l : List α) (y : γ) (ys : List γ), l.map f = xs ++ y :: ys →
      ∃ q, l[xs.length]? = some q ∧ f q = y
  | [], [], _, _ => fun h => by simp at h
  | [], q :: _, _, _ => fun h => by
    simp only [List.map_cons, List.nil_append, List.cons.injEq] at h
    exact ⟨q, by simp, h.1⟩
  | _ :: _, [], _, _ => fun h => by simp at h
  | _ :: xs, _ :: l, y, ys => fun h => by
    simp only [List.map_cons, List.cons_append, List.cons.injEq] at h
    obtain ⟨q, hq, hf⟩ := getElem?_of_map_eq f xs l y ys h.2
    exact ⟨q, by simpa using hq, hf⟩

/-- After a restore pass, an entry before which no write fails is in the
result at its place in walk order, holding what `settle` says when its own
write does not fail either, and what the walk's read left when it does. -/
theorem resetTimestamps_reached (dir : String) (d : Time) (snap : Snapshot) (fs : Node)
    (pre : List Visit) (v : Visit) (post : List Visit)
    (hsplit : fs.visitsFrom dir = pre ++ v :: post)
    (hp : ∀ u ∈ pre, u.writeErr d snap = none) :
    ∃ q, ((resetTimestamps dir d snap fs).fs.visitedFrom dir)[pre.length]? = some q ∧
      q.1 = v.path ∧
      (v.writeErr d snap = none → q.2.stat = settle d snap v) ∧
      (∀ e, v.writeErr d snap = some e → q.2.stat = (v.inode.touch v.moved).stat) := by
  have h := (resetTimestamps_run dir d snap fs).2
  rw [hsplit, restored_split d snap pre v post hp, restored_cons] at h
  cases hw : v.writeErr d snap with
  | none =>
    rw [hw] at h
    obtain ⟨q, hq, hf⟩ := getElem?_of_map_eq _ _ _ _ _ h
    rw [List.length_map] at hq
    simp only [Prod.mk.injEq] at hf
    exact ⟨q, hq, hf.1, fun _ => hf.2, fun e he => by simp at he⟩
  | some e1 =>
    rw [hw] at h
    obtain ⟨q, hq, hf⟩ := getElem?_of_map_eq _ _ _ _ _ h
    rw [List.length_map] at hq
    simp only [Prod.mk.injEq] at hf
    exact ⟨q, hq, hf.1, fun he => by simp at he, fun _ _ => hf.2⟩

/-- After a restore pass that returns nil, the entries the walk is handed are
those of the tree, path by path, each holding what `settle` says. -/
theorem resetTimestamps_settle (dir : String) (d : Time) (snap : Snapshot) (fs : Node)
    (h : (resetTimestamps dir d snap fs).err = none) :
    ((resetTimestamps dir d snap fs).fs.visitedFrom dir).map (fun q => (q.1, q.2.stat))
        = (fs.visitsFrom dir).map (fun v => (v.path, settle d snap v)) ∧
    ∀ v ∈ fs.visitsFrom dir, ¬ v.judgedUnchanged snap →
      (target d snap v.path).Atime.WF ∧ (target d snap v.path).Mtime.WF := by
  obtain ⟨h1, h2⟩ := resetTimestamps_run dir d snap fs
  rw [h1, firstWriteErr_eq_none] at h
  exact ⟨by rw [h2, restored_of_none d snap _ h],
    fun v hv hu => writeErr_none_WF d snap v (h v hv) hu⟩

/-- A written entry reads back the timestamps aimed at, when its filesystem
stores them as given. -/
theorem settle_written (d : Time) (snap : Snapshot) (v : Visit) (i : Inode)
    (hi : i.stat = settle d snap v) (hu : ¬ v.judgedUnchanged snap)
    (hw : (target d snap v.path).Atime.WF ∧ (target d snap v.path).Mtime.WF)
    (hh : v.inode.holds (target d snap v.path)) :
    i.timestamps = target d snap v.path := by
  simp only [settle, hu, if_false, hh.1, hh.2] at hi
  simp only [Inode.timestamps, readTimestamps, FileInfo.ModTime, hi]
  rw [timeUnix_toTimespec _ hw.1.1 hw.1.2, timeUnix_toTimespec _ hw.2.1 hw.2.2]

/-- An entry whose write was skipped keeps its modification time, and its
access time when the walk's read does not move it. -/
theorem settle_skipped (d : Time) (snap : Snapshot) (v : Visit) (i : Inode)
    (hi : i.stat = settle d snap v) (hu : v.judgedUnchanged snap) :
    i.timestamps.Mtime = v.inode.timestamps.Mtime ∧
    (v.moved = none → i.timestamps = v.inode.timestamps) := by
  simp only [settle, hu, if_true] at hi
  refine ⟨?_, fun hm => ?_⟩
  · have := touch_Mtime v.inode v.moved
    simp only [Inode.timestamps, readTimestamps, FileInfo.ModTime, hi] at this ⊢
    exact this
  · rw [hm] at hi
    simp only [Inode.timestamps, hi]
    rfl

/-! ## A restore pass over an unchanged tree makes no call -/

theorem map_still_afterRead (l : List (String × Inode)) :
    (l.map still).map Visit.afterRead = l := by
  induction l with
  | nil => rfl
  | cons q l ih =>
    simp only [List.map_cons, ih]
    rfl

mutual
theorem walk_reset_unchanged (d : Time) (snap : Snapshot) (path : String) :
    ∀ (n : Node) (s : WalkState (List LogLine)),
      (∀ v ∈ n.visits path, v.judgedUnchanged snap) →
      (walk (resetTimestampsFn d snap) path n s).err = none ∧
      (walk (resetTimestampsFn d snap) path n s).state.calls = s.calls ∧
      (∀ l ∈ (walk (resetTimestampsFn d snap) path n s).state.user,
        l ∈ s.user ∨ l.isWarning = true) ∧
      (walk (resetTimestampsFn d snap) path n s).fs.listing path
        = (n.census path).map Visit.afterRead
  | .leaf i k, s => by
    intro h
    have hi := h ⟨path, i, none⟩ (by simp [Node.visits])
    simp only [walk, invoke_reset_unchanged d snap path i i false s hi]
    exact ⟨trivial, trivial, fun l hl => Or.inl hl, rfl⟩
  | .dir i (some e) a es, s => by
    intro _
    simp only [walk, invoke_reset_failed]
    refine ⟨trivial, trivial, fun l hl => ?_, ?_⟩
    · rcases List.mem_append.1 hl with hl | hl
      · exact Or.inl hl
      · right
        simp only [List.mem_singleton] at hl
        rw [hl]; rfl
    · simp only [Node.listing, Node.census, List.map_cons, map_still_afterRead]
      rfl
  | .dir i none a es, s => by
    intro h
    have hi := h ⟨path, i, a⟩ (by simp [Node.visits])
    have ih := walkNames_reset_unchanged d snap path es s
      (fun v hv => h v (by simp [Node.visits, hv]))
    simp only [walk, invoke_reset_unchanged d snap path i (i.touch a) true s hi]
    refine ⟨ih.1, ih.2.1, ih.2.2.1, ?_⟩
    simp only [ih.1, Node.listing, Node.census, List.map_cons, ih.2.2.2]
    rfl
theorem walkNames_reset_unchanged (d : Time) (snap : Snapshot) (path : String) :
    ∀ (es : Entries) (s : WalkState (List LogLine)),
      (∀ v ∈ es.visits path, v.judgedUnchanged snap) →
      (walkNames (resetTimestampsFn d snap) path es s).err = none ∧
      (walkNames (resetTimestampsFn d snap) path es s).state.calls = s.calls ∧
      (∀ l ∈ (walkNames (resetTimestampsFn d snap) path es s).state.user,
        l ∈ s.user ∨ l.isWarning = true) ∧
      (walkNames (resetTimestampsFn d snap) path es s).fs.listing path
        = (es.census path).map Visit.afterRead
  | .nil, s => by
    intro _
    simp only [walkNames]
    exact ⟨trivial, trivial, fun l hl => Or.inl hl, rfl⟩
  | .cons name n rest, s => by
    intro h
    cases hl : n.inode.lstatErr with
    | some e =>
      have ih := walkNames_reset_unchanged d snap path rest
        ⟨s.user ++ [.warnAccess (Join path name) e], s.calls⟩
        (fun v hv => h v (by simp [Entries.visits, hv]))
      simp only [walkNames, hl, invoke_reset_failed]
      refine ⟨ih.1, ih.2.1, fun l hm => ?_, ?_⟩
      · rcases ih.2.2.1 l hm with hm | hm
        · rcases List.mem_append.1 hm with hm | hm
          · exact Or.inl hm
          · right
            simp only [List.mem_singleton] at hm
            rw [hm]; rfl
        · exact Or.inr hm
      · simp only [ih.1, Entries.listing, Entries.census, hl, setInode_self, List.map_append,
          map_still_afterRead, ih.2.2.2]
    | none =>
      have ih1 := walk_reset_unchanged d snap (Join path name) n s
        (fun v hv => h v (by simp [Entries.visits, hl, hv]))
      have ih2 := walkNames_reset_unchanged d snap path rest
        (walk (resetTimestampsFn d snap) (Join path name) n s).state
        (fun v hv => h v (by simp [Entries.visits, hv]))
      simp only [walkNames, hl, ih1.1]
      refine ⟨ih2.1, by rw [ih2.2.1, ih1.2.1], fun l hm => ?_, ?_⟩
      · rcases ih2.2.2.1 l hm with hm | hm
        · exact ih1.2.2.1 l hm
        · exact Or.inr hm
      · simp only [ih2.1, Entries.listing, Entries.census, hl, List.map_append, ih1.2.2.2,
          ih2.2.2.2]
end

theorem resetTimestamps_unchanged (dir : String) (d : Time) (snap : Snapshot) (fs : Node)
    (h : ∀ v ∈ fs.visitsFrom dir, v.judgedUnchanged snap) :
    (resetTimestamps dir d snap fs).err = none ∧
    (resetTimestamps dir d snap fs).calls = [] ∧
    (∀ l ∈ (resetTimestamps dir d snap fs).log, l.isWarning = true) ∧
    (resetTimestamps dir d snap fs).fs.listing dir
      = (fs.censusFrom dir).map Visit.afterRead := by
  unfold resetTimestamps Walk Node.censusFrom
  unfold Node.visitsFrom at h
  cases he : fs.inode.lstatErr with
  | some e =>
    simp only [invoke_reset_failed, List.nil_append, List.mem_singleton, setInode_self,
      map_still_afterRead]
    refine ⟨trivial, trivial, fun l hl => ?_, trivial⟩
    rw [hl]; rfl
  | none =>
    simp only [he] at h
    have hw := walk_reset_unchanged d snap dir fs ⟨[], []⟩ h
    refine ⟨hw.1, hw.2.1, fun l hl => ?_, hw.2.2.2⟩
    rcases hw.2.2.1 l hl with h0 | h0
    · simp at h0
    · exact h0


/-! ## The `utimensat` calls of a walk -/

theorem resetTimestampsFn_tolerant (d : Time) (snap : Snapshot) :
    Tolerant (resetTimestampsFn d snap) := by
  intro path arg u e h
  unfold resetTimestampsFn at h
  split at h
  · simp only [Ret.value.injEq] at h
    exact h.symm
  · simp only at h
    split at h
    · simp at h
    · split at h
      · simp only [Ret.value.injEq] at h
        exact h.symm
      · simp at h

theorem invoke_calls_mono {σ : Type} (fn : WalkFunc σ) (path : String) (i : Inode)
    (arg : WalkArg) (s : WalkState σ) (c : UtimesCall) (hc : c ∈ s.calls) :
    c ∈ (invoke fn path i arg s).state.calls := by
  unfold invoke
  split
  · exact hc
  · exact List.mem_append_left _ hc

theorem invoke_trace {σ : Type} (fn : WalkFunc σ) (hfn : Tolerant fn) (path : String)
    (i : Inode) (arg : WalkArg) (s : WalkState σ) (h : GoodTrace s.calls none) :
    GoodTrace (invoke fn path i arg s).state.calls (invoke fn path i arg s).err := by
  unfold invoke
  split
  · rename_i u e he
    have := hfn path arg s.user e (by rw [he])
    subst this
    exact h
  · rename_i u a m _
    simp only
    cases hr : (utimesNanoAt i a m).1 with
    | none =>
      intro c hc
      rcases List.mem_append.1 hc with hc | hc
      · exact h c hc
      · simp only [List.mem_singleton] at hc
        rw [hc]
    | some e =>
      exact ⟨s.calls, _, rfl, rfl, h⟩

theorem WrittenBy.mono {calls calls2 : List UtimesCall} {q : String × Inode}
    (h : WrittenBy calls q) (hm : ∀ c ∈ calls, c ∈ calls2) : WrittenBy calls2 q := by
  obtain ⟨c, hc, h1⟩ := h
  exact ⟨c, hm c hc, h1⟩

mutual
theorem walk_calls_mono {σ : Type} (fn : WalkFunc σ) (path : String) :
    ∀ (n : Node) (s : WalkState σ) (c : UtimesCall), c ∈ s.calls →
      c ∈ (walk fn path n s).state.calls
  | .leaf i k, s, c => by
    intro hc
    simp only [walk]
    exact invoke_calls_mono _ _ _ _ _ c hc
  | .dir i (some e) a es, s, c => by
    intro hc
    simp only [walk]
    exact invoke_calls_mono _ _ _ _ _ c hc
  | .dir i none a es, s, c => by
    intro hc
    simp only [walk]
    have h1 := invoke_calls_mono fn path (i.touch a) (.ok ⟨i.stat, true⟩) s c hc
    split
    · exact h1
    · exact walkNames_calls_mono fn path es _ c h1
theorem walkNames_calls_mono {σ : Type} (fn : WalkFunc σ) (path : String) :
    ∀ (es : Entries) (s : WalkState σ) (c : UtimesCall), c ∈ s.calls →
      c ∈ (walkNames fn path es s).state.calls
  | .nil, s, c => by
    intro hc
    simp only [walkNames]
    exact hc
  | .cons name n rest, s, c => by
    intro hc
    cases hl : n.inode.lstatErr with
    | some e =>
      simp only [walkNames, hl]
      have h1 := invoke_calls_mono fn (Join path name) n.inode (.failed none e) s c hc
      split
      · exact h1
      · exact walkNames_calls_mono fn path rest _ c h1
    | none =>
      simp only [walkNames, hl]
      have h1 := walk_calls_mono fn (Join path name) n s c hc
      split
      · exact h1
      · exact walkNames_calls_mono fn path rest _ c h1
end

mutual
theorem walk_trace {σ : Type} (fn : WalkFunc σ) (hfn : Tolerant fn) (path : String) :
    ∀ (n : Node) (s : WalkState σ), GoodTrace s.calls none →
      GoodTrace (walk fn path n s).state.calls (walk fn path n s).err
  | .leaf i k, s => by
    intro h
    simp only [walk]
    exact invoke_trace fn hfn _ _ _ _ h
  | .dir i (some e) a es, s => by
    intro h
    simp only [walk]
    exact invoke_trace fn hfn _ _ _ _ h
  | .dir i none a es, s => by
    intro h
    simp only [walk]
    have h1 := invoke_trace fn hfn path (i.touch a) (.ok ⟨i.stat, true⟩) s h
    split
    · rename_i e1 he
      rw [he] at h1
      exact h1
    · rename_i he
      rw [he] at h1
      exact walkNames_trace fn hfn path es _ h1
theorem walkNames_trace {σ : Type} (fn : WalkFunc σ) (hfn : Tolerant fn) (path : String) :
    ∀ (es : Entries) (s : WalkState σ), GoodTrace s.calls none →
      GoodTrace (walkNames fn path es s).state.calls (walkNames fn path es s).err
  | .nil, s => by
    intro h
    simp only [walkNames]
    exact h
  | .cons name n rest, s => by
    intro h
    cases hl : n.inode.lstatErr with
    | some e =>
      simp only [walkNames, hl]
      have h1 := invoke_trace fn hfn (Join path name) n.inode (.failed none e) s h
      split
      · rename_i e1 he
        rw [he] at h1
        exact h1
      · rename_i he
        rw [he] at h1
        exact walkNames_trace fn hfn path rest _ h1
    | none =>
      simp only [walkNames, hl]
      have h1 := walk_trace fn hfn (Join path name) n s h
      split
      · rename_i e1 he
        rw [he] at h1
        exact h1
      · rename_i he
        rw [he] at h1
        exact walkNames_trace fn hfn path rest _ h1
end

theorem Walk_trace {σ : Type} (fn : WalkFunc σ) (hfn : Tolerant fn) (root : String)
    (n : Node) (s : WalkState σ) (h : GoodTrace s.calls none) :
    GoodTrace (Walk root fn n s).state.calls (Walk root fn n s).err := by
  unfold Walk
  split
  · exact invoke_trace fn hfn _ _ _ _ h
  · exact walk_trace fn hfn root n s h


/-! ## What a walk does to the entries of the tree -/

theorem forall₂_left {α β : Type} {R : α → β → Prop} {l1 : List α} {l2 : List β}
    (h : List.Forall₂ R l1 l2) (a : α) (ha : a ∈ l1) : ∃ b ∈ l2, R a b := by
  induction h with
  | nil => simp at ha
  | cons hab _ ih =>
    rcases List.mem_cons.1 ha with ha | ha
    · subst ha
      exact ⟨_, List.mem_cons_self _ _, hab⟩
    · obtain ⟨b, hb, hr⟩ := ih ha
      exact ⟨b, List.mem_cons_of_mem _ hb, hr⟩

theorem Kept.weaken {calls calls2 : List UtimesCall} {v : Visit} {q : String × Inode}
    (h : Kept calls v q) (hm : ∀ c ∈ calls, c ∈ calls2) : Kept calls2 v q := by
  obtain ⟨hp, hk⟩ := h
  refine ⟨hp, ?_⟩
  rcases hk with hk | hk | hk
  · exact Or.inl hk
  · exact Or.inr (Or.inl hk)
  · exact Or.inr (Or.inr (hk.mono hm))

theorem kept_still (calls : List UtimesCall) (l : List (String × Inode)) :
    List.Forall₂ (Kept calls) (l.map still) l := by
  induction l with
  | nil => exact List.Forall₂.nil
  | cons q l ih => exact List.Forall₂.cons ⟨rfl, Or.inl rfl⟩ ih

mutual
theorem kept_census (calls : List UtimesCall) (path : String) :
    ∀ (n : Node), List.Forall₂ (Kept calls) (n.census path) (n.listing path)
  | .leaf i k => by
    simp only [Node.census, Node.listing]
    exact List.Forall₂.cons ⟨rfl, Or.inl rfl⟩ List.Forall₂.nil
  | .dir i (some e) a es => by
    simp only [Node.census, Node.listing]
    exact List.Forall₂.cons ⟨rfl, Or.inl rfl⟩ (kept_still calls _)
  | .dir i none a es => by
    simp only [Node.census, Node.listing]
    exact List.Forall₂.cons ⟨rfl, Or.inl rfl⟩ (kept_censusEntries calls path es)
theorem kept_censusEntries (calls : List UtimesCall) (path : String) :
    ∀ (es : Entries), List.Forall₂ (Kept calls) (es.census path) (es.listing path)
  | .nil => by
    simp only [Entries.census, Entries.listing]
    exact List.Forall₂.nil
  | .cons name n rest => by
    simp only [Entries.census, Entries.listing]
    cases n.inode.lstatErr with
    | some e => exact List.rel_append (kept_still calls _) (kept_censusEntries calls path rest)
    | none =>
      exact List.rel_append (kept_census calls (Join path name) n)
        (kept_censusEntries calls path rest)
end

theorem invoke_kept {σ : Type} (fn : WalkFunc σ) (path : String) (j : Inode)
    (arg : WalkArg) (s : WalkState σ) :
    (invoke fn path j arg s).fs = j ∨
      WrittenBy (invoke fn path j arg s).state.calls (path, (invoke fn path j arg s).fs) := by
  unfold invoke
  split
  · exact Or.inl rfl
  · rename_i u a m _
    simp only
    cases hr : (utimesNanoAt j a m).1 with
    | none =>
      right
      refine ⟨⟨path, a, m, none⟩, by simp, rfl, rfl, ?_⟩
      rw [(utimesNanoAt_ok j a m hr).1, utimesNanoAt_sb]
    | some e =>
      left
      exact utimesNanoAt_failed j a m e hr

/-- The listing of an entry whose own inode has been replaced. -/
theorem listing_setInode (path : String) (n : Node) (j : Inode) :
    ∃ l, n.listing path = (path, n.inode) :: l ∧ (n.setInode j).listing path = (path, j) :: l := by
  cases n with
  | leaf i k => exact ⟨[], rfl, rfl⟩
  | dir i r a es => exact ⟨es.listing path, rfl, rfl⟩

mutual
theorem walk_kept {σ : Type} (fn : WalkFunc σ) (path : String) :
    ∀ (n : Node) (s : WalkState σ),
      List.Forall₂ (Kept (walk fn path n s).state.calls) (n.census path)
        ((walk fn path n s).fs.listing path)
  | .leaf i k, s => by
    simp only [walk, Node.census, Node.listing]
    refine List.Forall₂.cons ⟨rfl, ?_⟩ List.Forall₂.nil
    rcases invoke_kept fn path i (.ok ⟨i.stat, false⟩) s with h | h
    · exact Or.inl h
    · exact Or.inr (Or.inr h)
  | .dir i (some e) a es, s => by
    simp only [walk, Node.census, Node.listing]
    refine List.Forall₂.cons ⟨rfl, ?_⟩ (kept_still _ _)
    rcases invoke_kept fn path i (.failed (some ⟨i.stat, true⟩) e) s with h | h
    · exact Or.inl h
    · exact Or.inr (Or.inr h)
  | .dir i none a es, s => by
    have h0 := invoke_kept fn path (i.touch a) (.ok ⟨i.stat, true⟩) s
    simp only [walk]
    split
    · simp only [Node.census, Node.listing]
      refine List.Forall₂.cons ⟨rfl, ?_⟩ (kept_censusEntries _ path es)
      rcases h0 with h | h
      · exact Or.inr (Or.inl h)
      · exact Or.inr (Or.inr h)
    · simp only [Node.census, Node.listing]
      refine List.Forall₂.cons ⟨rfl, ?_⟩ (walkNames_kept fn path es _)
      rcases h0 with h | h
      · exact Or.inr (Or.inl h)
      · exact Or.inr (Or.inr (h.mono (fun c hc => walkNames_calls_mono fn path es _ c hc)))
theorem walkNames_kept {σ : Type} (fn : WalkFunc σ) (path : String) :
    ∀ (es : Entries) (s : WalkState σ),
      List.Forall₂ (Kept (walkNames fn path es s).state.calls) (es.census path)
        ((walkNames fn path es s).fs.listing path)
  | .nil, s => by
    simp only [walkNames, Entries.census, Entries.listing]
    exact List.Forall₂.nil
  | .cons name n rest, s => by
    cases hl : n.inode.lstatErr with
    | some e =>
      have h0 := invoke_kept fn (Join path name) n.inode (.failed none e) s
      obtain ⟨l, hl1, hl2⟩ := listing_setInode (Join path name) n
        (invoke fn (Join path name) n.inode (.failed none e) s).fs
      simp only [walkNames, hl]
      split
      · simp only [Entries.census, Entries.listing, hl, hl1, hl2, List.map_cons]
        refine List.rel_append (List.Forall₂.cons ⟨rfl, ?_⟩ (kept_still _ _))
          (kept_censusEntries _ path rest)
        rcases h0 with h | h
        · exact Or.inl h
        · exact Or.inr (Or.inr h)
      · simp only [Entries.census, Entries.listing, hl, hl1, hl2, List.map_cons]
        refine List.rel_append (List.Forall₂.cons ⟨rfl, ?_⟩ (kept_still _ _))
          (walkNames_kept fn path rest _)
        rcases h0 with h | h
        · exact Or.inl h
        · exact Or.inr (Or.inr (h.mono (fun c hc => walkNames_calls_mono fn path rest _ c hc)))
    | none =>
      have h1 := walk_kept fn (Join path name) n s
      simp only [walkNames, hl]
      split
      · simp only [Entries.census, Entries.listing, hl]
        exact List.rel_append h1 (kept_censusEntries _ path rest)
      · simp only [Entries.census, Entries.listing, hl]
        exact List.rel_append
          (h1.imp (fun v q hk => hk.weaken (fun c hc => walkNames_calls_mono fn path rest _ c hc)))
          (walkNames_kept fn path rest _)
end

/-- Entry by entry, a walk leaves an entry as it was, or with its access time
moved by the walk's read, or written by a successful call. -/
theorem Walk_kept {σ : Type} (fn : WalkFunc σ) (root : String) (n : Node) (s : WalkState σ) :
    List.Forall₂ (Kept (Walk root fn n s).state.calls) (n.censusFrom root)
      ((Walk root fn n s).fs.listing root) := by
  unfold Walk Node.censusFrom
  cases he : n.inode.lstatErr with
  | some e =>
    obtain ⟨l, hl1, hl2⟩ := listing_setInode root n (invoke fn root n.inode (.failed none e) s).fs
    simp only [hl1, hl2, List.map_cons]
    refine List.Forall₂.cons ⟨rfl, ?_⟩ (kept_still _ _)
    rcases invoke_kept fn root n.inode (.failed none e) s with h | h
    · exact Or.inl h
    · exact Or.inr (Or.inr h)
  | none => exact walk_kept fn root n s


/-! ## Facts about the snapshot map -/

theorem Snapshot.get_set (m : Snapshot) (k : String) (v : FileTimestamps) (k2 : String) :
    (m.set k v).get k2 = if k = k2 then some v else m.get k2 := by
  induction m with
  | nil => simp [Snapshot.set, Snapshot.get]
  | cons kv m ih =>
    obtain ⟨k0, v0⟩ := kv
    simp only [Snapshot.set]
    by_cases h0 : k0 = k
    · subst h0
      simp only [if_true, Snapshot.get]
      split <;> rfl
    · simp only [h0, if_false, Snapshot.get, ih]
      by_cases h1 : k0 = k2
      · subst h1
        have : ¬ k = k0 := fun h => h0 h.symm
        simp [this]
      · simp [h1]

theorem Snapshot.keys_set (m : Snapshot) (k : String) (v : FileTimestamps) :
    (m.set k v).keys = if k ∈ m.keys then m.keys else m.keys ++ [k] := by
  induction m with
  | nil => simp [Snapshot.set, Snapshot.keys]
  | cons kv m ih =>
    obtain ⟨k0, v0⟩ := kv
    simp only [Snapshot.keys, Snapshot.set, List.map_cons, List.mem_cons] at ih ⊢
    by_cases h : k0 = k
    · subst h
      simp
    · have h2 : ¬ k = k0 := fun e => h e.symm
      simp only [h, if_false, List.map_cons, ih, h2, false_or]
      split <;> simp

theorem record_get_of_not_mem (l : List (String × Inode)) (m : Snapshot) (p : String)
    (h : p ∉ l.map Prod.fst) : (record m l).get p = m.get p := by
  induction l generalizing m with
  | nil => rfl
  | cons q l ih =>
    simp only [List.map_cons, List.mem_cons, not_or] at h
    simp only [record, List.foldl_cons] at ih ⊢
    rw [ih _ h.2, Snapshot.get_set]
    have : ¬ q.1 = p := fun e => h.1 e.symm
    simp [this]

theorem record_get_of_mem (l : List (String × Inode)) (m : Snapshot)
    (hn : (l.map Prod.fst).Nodup) (p : String) (i : Inode) (h : (p, i) ∈ l) :
    (record m l).get p = some i.timestamps := by
  induction l generalizing m with
  | nil => simp at h
  | cons q l ih =>
    simp only [List.map_cons, List.nodup_cons] at hn
    simp only [record, List.foldl_cons] at ih ⊢
    rcases List.mem_cons.1 h with h | h
    · subst h
      have := record_get_of_not_mem l (m.set p i.timestamps) p hn.1
      simp only [record] at this
      rw [this, Snapshot.get_set]
      simp
    · exact ih _ hn.2 h

theorem record_keys (l : List (String × Inode)) (m : Snapshot)
    (hn : (m.keys ++ l.map Prod.fst).Nodup) :
    (record m l).keys = m.keys ++ l.map Prod.fst := by
  induction l generalizing m with
  | nil => simp [record]
  | cons q l ih =>
    simp only [record, List.foldl_cons] at ih ⊢
    have hq : q.1 ∉ m.keys := by
      intro hmem
      rw [List.nodup_append] at hn
      exact hn.2.2 hmem (by simp)
    have hk : (m.set q.1 q.2.timestamps).keys = m.keys ++ [q.1] := by
      rw [Snapshot.keys_set, if_neg hq]
    rw [ih (m.set q.1 q.2.timestamps) (by rw [hk]; simpa using hn), hk]
    simp

theorem record_append (l1 l2 : List (String × Inode)) (m : Snapshot) :
    record m (l1 ++ l2) = record (record m l1) l2 := by
  simp [record, List.foldl_append]

theorem record_WF (l : List (String × Inode)) (m : Snapshot) (h : m.WF) : (record m l).WF := by
  induction l generalizing m with
  | nil => exact h
  | cons q l ih =>
    simp only [record, List.foldl_cons] at ih ⊢
    apply ih
    intro p ts hp
    rw [Snapshot.get_set] at hp
    split at hp
    · simp only [Option.some.injEq] at hp
      rw [← hp]
      exact ⟨timeUnix_WF _ _, timeUnix_WF _ _⟩
    · exact h p ts hp


/-! ## The scan walk -/

theorem registerDirFn_quiet : Quiet registerDirFn := by
  intro path arg u
  unfold registerDirFn
  split <;> rfl

theorem invoke_quiet {σ : Type} (fn : WalkFunc σ) (h : Quiet fn) (path : String) (i : Inode)
    (arg : WalkArg) (s : WalkState σ) :
    invoke fn path i arg s = ⟨none, i, ⟨(fn path arg s.user).1, s.calls⟩⟩ := by
  unfold invoke
  have := h path arg s.user
  split <;> simp_all

mutual
theorem walk_quiet {σ : Type} (fn : WalkFunc σ) (h : Quiet fn) (path : String) :
    ∀ (n : Node) (s : WalkState σ),
      (walk fn path n s).err = none ∧ (walk fn path n s).state.calls = s.calls
  | .leaf i k, s => by
    simp [walk, invoke_quiet fn h]
  | .dir i (some e) a es, s => by
    simp [walk, invoke_quiet fn h]
  | .dir i none a es, s => by
    have ih := walkNames_quiet fn h path es ⟨(fn path (.ok ⟨i.stat, true⟩) s.user).1, s.calls⟩
    simp [walk, invoke_quiet fn h, ih]
theorem walkNames_quiet {σ : Type} (fn : WalkFunc σ) (h : Quiet fn) (path : String) :
    ∀ (es : Entries) (s : WalkState σ),
      (walkNames fn path es s).err = none ∧ (walkNames fn path es s).state.calls = s.calls
  | .nil, s => by simp [walkNames]
  | .cons name n rest, s => by
    cases hl : n.inode.lstatErr with
    | some e =>
      have ih := walkNames_quiet fn h path rest
        ⟨(fn (Join path name) (.failed none e) s.user).1, s.calls⟩
      simp [walkNames, hl, invoke_quiet fn h, ih]
    | none =>
      have ih1 := walk_quiet fn h (Join path name) n s
      have ih2 := walkNames_quiet fn h path rest (walk fn (Join path name) n s).state
      simp [walkNames, hl, ih1, ih2]
end

theorem invoke_register_ok (path : String) (i j : Inode) (b : Bool) (s : WalkState ScanState) :
    invoke registerDirFn path j (.ok ⟨i.stat, b⟩) s
      = ⟨none, j, ⟨⟨s.user.timestamps.set path i.timestamps, s.user.log⟩, s.calls⟩⟩ := rfl

theorem invoke_register_failed (path : String) (i : Inode) (info : Option FileInfo)
    (e : Errno) (s : WalkState ScanState) :
    invoke registerDirFn path i (.failed info e) s
      = ⟨none, i, ⟨⟨s.user.timestamps, s.user.log ++ [.warnAccess path e]⟩, s.calls⟩⟩ := rfl

mutual
theorem walk_register (path : String) :
    ∀ (n : Node) (s : WalkState ScanState),
      (walk registerDirFn path n s).state.user.timestamps
        = record s.user.timestamps (n.visited path) ∧
      ∀ l ∈ (walk registerDirFn path n s).state.user.log, l ∈ s.user.log ∨ l.isWarning = true
  | .leaf i k, s => by
    simp only [walk, invoke_register_ok, Node.visited, record, List.foldl_cons, List.foldl_nil]
    exact ⟨trivial, fun l hl => Or.inl hl⟩
  | .dir i (some e) a es, s => by
    simp only [walk, invoke_register_failed, Node.visited, record, List.foldl_nil]
    refine ⟨trivial, fun l hl => ?_⟩
    rcases List.mem_append.1 hl with hl | hl
    · exact Or.inl hl
    · right
      simp only [List.mem_singleton] at hl
      rw [hl]; rfl
  | .dir i none a es, s => by
    have ih := walkNames_register path es
      ⟨⟨s.user.timestamps.set path i.timestamps, s.user.log⟩, s.calls⟩
    simp only [walk, invoke_register_ok, Node.visited, record, List.foldl_cons] at ih ⊢
    exact ih
theorem walkNames_register (path : String) :
    ∀ (es : Entries) (s : WalkState ScanState),
      (walkNames registerDirFn path es s).state.user.timestamps
        = record s.user.timestamps (es.visited path) ∧
      ∀ l ∈ (walkNames registerDirFn path es s).state.user.log,
        l ∈ s.user.log ∨ l.isWarning = true
  | .nil, s => by
    simp only [walkNames, Entries.visited, record, List.foldl_nil]
    exact ⟨trivial, fun l hl => Or.inl hl⟩
  | .cons name n rest, s => by
    cases hl : n.inode.lstatErr with
    | some e =>
      have ih := walkNames_register path rest
        ⟨⟨s.user.timestamps, s.user.log ++ [.warnAccess (Join path name) e]⟩, s.calls⟩
      simp only [walkNames, hl, invoke_register_failed, Entries.visited, List.nil_append] at ih ⊢
      refine ⟨ih.1, fun l hm => ?_⟩
      rcases ih.2 l hm with hm | hm
      · rcases List.mem_append.1 hm with hm | hm
        · exact Or.inl hm
        · right
          simp only [List.mem_singleton] at hm
          rw [hm]; rfl
      · exact Or.inr hm
    | none =>
      have ih1 := walk_register (Join path name) n s
      have ih2 := walkNames_register path rest (walk registerDirFn (Join path name) n s).state
      have hq := (walk_quiet registerDirFn registerDirFn_quiet (Join path name) n s).1
      simp only [walkNames, hl, hq, Entries.visited, record_append]
      refine ⟨by rw [ih2.1, ih1.1], fun l hm => ?_⟩
      rcases ih2.2 l hm with hm | hm
      · exact ih1.2 l hm
      · exact Or.inr hm
end

/-- What `registerDir` returns: never an error, the visited entries recorded in
walk order, and a log of access warnings. -/
theorem registerDir_eq (dir : String) (fs : Node) :
    (registerDir dir fs).err = none ∧
    (registerDir dir fs).timestamps = record [] (fs.visitedFrom dir) ∧
    ∀ l ∈ (registerDir dir fs).log, l.isWarning = true := by
  unfold registerDir Walk Node.visitedFrom
  cases he : fs.inode.lstatErr with
  | some e =>
    simp only [invoke_register_failed, record, List.foldl_nil, List.nil_append,
      List.mem_singleton]
    refine ⟨trivial, trivial, fun l hl => ?_⟩
    rw [hl]; rfl
  | none =>
    have h1 := walk_register dir fs ⟨⟨[], []⟩, []⟩
    have h2 := walk_quiet registerDirFn registerDirFn_quiet dir fs ⟨⟨[], []⟩, []⟩
    refine ⟨h2.1, h1.1, fun l hl => ?_⟩
    rcases h1.2 l hl with h | h
    · simp at h
    · exact h


/-! ## Visited and skipped entries -/

mutual
theorem visited_of_accessible (path : String) :
    ∀ (n : Node), n.accessible = true → n.visited path = n.listing path
  | .leaf i k => by
    intro _
    rfl
  | .dir i (some e) a es => by
    intro h
    simp [Node.accessible] at h
  | .dir i none a es => by
    intro h
    simp only [Node.accessible, Bool.and_eq_true] at h
    simp only [Node.visited, Node.listing, visitedEntries_of_accessible path es h.2]
theorem visitedEntries_of_accessible (path : String) :
    ∀ (es : Entries), es.accessible = true → es.visited path = es.listing path
  | .nil => by
    intro _
    rfl
  | .cons name n rest => by
    intro h
    simp only [Entries.accessible, Bool.and_eq_true] at h
    have hl : n.inode.lstatErr = none := by
      cases n with
      | leaf i k => simpa [Node.accessible] using h.1
      | dir i r a es =>
        simp only [Node.accessible, Bool.and_eq_true] at h
        simpa using h.1.1.1
    simp only [Entries.visited, Entries.listing, hl,
      visited_of_accessible (Join path name) n h.1, visitedEntries_of_accessible path rest h.2]
end

theorem visitedFrom_of_accessible (root : String) (n : Node) (h : n.accessible = true) :
    n.visitedFrom root = n.listing root := by
  have hl : n.inode.lstatErr = none := by
    cases n with
    | leaf i k => simpa [Node.accessible] using h
    | dir i r a es =>
      simp only [Node.accessible, Bool.and_eq_true] at h
      simpa using h.1.1
  simp only [Node.visitedFrom, hl]
  exact visited_of_accessible root n h

mutual
theorem listing_perm (path : String) :
    ∀ (n : Node), (n.listing path).Perm (n.visited path ++ n.skipped path)
  | .leaf i k => by
    simp [Node.listing, Node.visited, Node.skipped]
  | .dir i (some e) a es => by
    simp [Node.listing, Node.visited, Node.skipped]
  | .dir i none a es => by
    simp only [Node.listing, Node.visited, Node.skipped, List.cons_append]
    exact List.Perm.cons _ (listingEntries_perm path es)
theorem listingEntries_perm (path : String) :
    ∀ (es : Entries), (es.listing path).Perm (es.visited path ++ es.skipped path)
  | .nil => by
    simp [Entries.listing, Entries.visited, Entries.skipped]
  | .cons name n rest => by
    have ih2 := listingEntries_perm path rest
    cases hl : n.inode.lstatErr with
    | some e =>
      simp only [Entries.listing, Entries.visited, Entries.skipped, hl, List.nil_append]
      refine (List.Perm.append_left _ ih2).trans ?_
      rw [← List.append_assoc, ← List.append_assoc]
      exact List.Perm.append_right _ List.perm_append_comm
    | none =>
      have ih1 := listing_perm (Join path name) n
      simp only [Entries.listing, Entries.visited, Entries.skipped, hl]
      refine (List.Perm.append ih1 ih2).trans ?_
      simp only [List.append_assoc]
      refine List.Perm.append_left _ ?_
      rw [← List.append_assoc, ← List.append_assoc]
      exact List.Perm.append_right _ List.perm_append_comm
end

theorem listingFrom_perm (root : String) (n : Node) :
    (n.listing root).Perm (n.visitedFrom root ++ n.skippedFrom root) := by
  unfold Node.visitedFrom Node.skippedFrom
  cases n.inode.lstatErr with
  | some e => simp
  | none => exact listing_perm root n

/-- With distinct paths, the path of a skipped entry is not the path of a
visited one. -/
theorem skipped_not_visited (root : String) (n : Node)
    (hn : ((n.listing root).map Prod.fst).Nodup) (p : String)
    (hp : p ∈ (n.skippedFrom root).map Prod.fst) :
    p ∉ (n.visitedFrom root).map Prod.fst := by
  have hperm := (listingFrom_perm root n).map Prod.fst
  have hn2 := (List.Perm.nodup_iff hperm).1 hn
  rw [List.map_append, List.nodup_append] at hn2
  intro hv
  exact hn2.2.2 hv hp


/-! ## Absolute paths -/

theorem IsAbs_Join (dir name : String) (h : IsAbs dir = true) : IsAbs (Join dir name) = true := by
  obtain ⟨cs⟩ := dir
  cases cs with
  | nil => simp [IsAbs] at h
  | cons c cs =>
    simp only [IsAbs, beq_iff_eq] at h
    subst h
    have hne : (⟨'/' :: cs⟩ : String) ≠ "" := by
      intro h
      have := congrArg String.data h
      simp at this
    simp only [Join, hne, ne_eq, not_false_eq_true, if_true, Clean, String.data_append,
      List.cons_append, cleanChars, IsAbs, beq_self_eq_true]

mutual
theorem listing_IsAbs (path : String) (h : IsAbs path = true) :
    ∀ (n : Node), ∀ q ∈ n.listing path, IsAbs q.1 = true
  | .leaf i k => by
    intro q hq
    simp only [Node.listing, List.mem_singleton] at hq
    rw [hq]; exact h
  | .dir i r a es => by
    intro q hq
    simp only [Node.listing, List.mem_cons] at hq
    rcases hq with hq | hq
    · rw [hq]; exact h
    · exact listingEntries_IsAbs path h es q hq
theorem listingEntries_IsAbs (path : String) (h : IsAbs path = true) :
    ∀ (es : Entries), ∀ q ∈ es.listing path, IsAbs q.1 = true
  | .nil => by
    intro q hq
    simp [Entries.listing] at hq
  | .cons name n rest => by
    intro q hq
    simp only [Entries.listing, List.mem_append] at hq
    rcases hq with hq | hq
    · exact listing_IsAbs (Join path name) (IsAbs_Join path name h) n q hq
    · exact listingEntries_IsAbs path h rest q hq
end


/-! ## Distinct entries have distinct paths -/

theorem splitSlash_ne_nil (p : List Char) : splitSlash p ≠ [] := by
  cases p with
  | nil => simp [splitSlash]
  | cons c cs =>
    simp only [splitSlash]
    split
    · simp
    · split <;> simp

theorem splitSlash_of_no_slash (n : List Char) (h : '/' ∉ n) : splitSlash n = [n] := by
  induction n with
  | nil => rfl
  | cons c cs ih =>
    simp only [List.mem_cons, not_or] at h
    have hc : ¬ c = '/' := fun e => h.1 e.symm
    simp only [splitSlash, hc, if_false, ih h.2]

theorem splitSlash_cons (c : Char) (cs : List Char) :
    splitSlash (c :: cs) =
      if c = '/' then [] :: splitSlash cs
      else match splitSlash cs with
        | [] => [[c]]
        | w :: ws => (c :: w) :: ws := rfl

theorem splitSlash_append (a n : List Char) (h : '/' ∉ n) :
    splitSlash (a ++ '/' :: n) = splitSlash a ++ [n] := by
  induction a with
  | nil =>
    rw [List.nil_append, splitSlash_cons, if_pos rfl, splitSlash_of_no_slash n h]
    rfl
  | cons c a ih =>
    rw [List.cons_append, splitSlash_cons, splitSlash_cons, ih]
    by_cases hc : c = '/'
    · rw [if_pos hc, if_pos hc]
      rfl
    · rw [if_neg hc, if_neg hc]
      cases hs : splitSlash a with
      | nil => exact absurd hs (splitSlash_ne_nil a)
      | cons w ws => rfl

theorem cleanStep_name (rooted : Bool) (st : List (List Char) × Nat) (n : List Char)
    (h0 : n ≠ []) (h1 : n ≠ ['.']) (h2 : n ≠ ['.', '.']) :
    cleanStep rooted st n = (n :: st.1, st.2) := by
  simp [cleanStep, h0, h1, h2]

theorem joinSlash_cons_cons (w w2 : List Char) (ws : List (List Char)) :
    joinSlash (w :: w2 :: ws) = w ++ '/' :: joinSlash (w2 :: ws) := rfl

theorem cleanChars_eq (c : Char) (cs : List Char) :
    cleanChars (c :: cs) =
      if c = '/' then '/' :: joinSlash (pathElements (c :: cs))
      else match pathElements (c :: cs) with
        | [] => ['.']
        | w :: ws => joinSlash (w :: ws) := by
  by_cases h : c = '/'
  · simp only [cleanChars, pathElements, h, if_true]
  · simp only [cleanChars, pathElements, h, if_false]

theorem pathElements_append (p n : List Char) (hp : p ≠ []) (hs : '/' ∉ n) (h0 : n ≠ [])
    (h1 : n ≠ ['.']) (h2 : n ≠ ['.', '.']) :
    pathElements (p ++ '/' :: n) = pathElements p ++ [n] := by
  cases p with
  | nil => exact absurd rfl hp
  | cons c cs =>
    simp only [List.cons_append, pathElements]
    split
    · rw [splitSlash_append cs n hs, List.foldl_append]
      simp only [List.foldl_cons, List.foldl_nil, cleanStep_name _ _ n h0 h1 h2,
        List.reverse_cons]
    · have := splitSlash_append (c :: cs) n hs
      simp only [List.cons_append] at this
      rw [this, List.foldl_append]
      simp only [List.foldl_cons, List.foldl_nil, cleanStep_name _ _ n h0 h1 h2,
        List.reverse_cons]

theorem pathElements_name (n : List Char) (hs : '/' ∉ n) (h0 : n ≠ [])
    (h1 : n ≠ ['.']) (h2 : n ≠ ['.', '.']) : pathElements n = [n] := by
  cases n with
  | nil => exact absurd rfl h0
  | cons c cs =>
    simp only [List.mem_cons, not_or] at hs
    have hc : ¬ c = '/' := fun e => hs.1 e.symm
    have hs2 : '/' ∉ c :: cs := by simp [List.mem_cons, hs.1, hs.2]
    simp only [pathElements, hc, if_false, splitSlash_of_no_slash (c :: cs) hs2,
      List.foldl_cons, List.foldl_nil, cleanStep_name _ _ (c :: cs) h0 h1 h2,
      List.reverse_cons, List.reverse_nil, List.nil_append]

theorem splitSlash_no_slash (p : List Char) : ∀ w ∈ splitSlash p, '/' ∉ w := by
  induction p with
  | nil => simp [splitSlash]
  | cons c cs ih =>
    intro w hw
    rw [splitSlash_cons] at hw
    by_cases hc : c = '/'
    · rw [if_pos hc] at hw
      rcases List.mem_cons.1 hw with hw | hw
      · rw [hw]; simp
      · exact ih w hw
    · rw [if_neg hc] at hw
      cases hs : splitSlash cs with
      | nil => exact absurd hs (splitSlash_ne_nil cs)
      | cons w0 ws =>
        rw [hs] at hw ih
        rcases List.mem_cons.1 hw with hw | hw
        · rw [hw]
          intro hm
          rcases List.mem_cons.1 hm with hm | hm
          · exact hc hm.symm
          · exact ih w0 (List.mem_cons_self _ _) hm
        · exact ih w (List.mem_cons_of_mem _ hw)

theorem splitSlash_word (w rest : List Char) (h : '/' ∉ w) :
    splitSlash (w ++ '/' :: rest) = w :: splitSlash rest := by
  induction w with
  | nil => rw [List.nil_append, splitSlash_cons, if_pos rfl]
  | cons c w ih =>
    simp only [List.mem_cons, not_or] at h
    have hc : ¬ c = '/' := fun e => h.1 e.symm
    rw [List.cons_append, splitSlash_cons, if_neg hc, ih h.2]

theorem splitSlash_joinSlash (l : List (List Char)) (hne : l ≠ []) (h : ∀ w ∈ l, '/' ∉ w) :
    splitSlash (joinSlash l) = l := by
  induction l with
  | nil => exact absurd rfl hne
  | cons w ws ih =>
    cases ws with
    | nil => exact splitSlash_of_no_slash w (h w (List.mem_cons_self _ _))
    | cons w2 ws2 =>
      rw [joinSlash_cons_cons, splitSlash_word w _ (h w (List.mem_cons_self _ _)),
        ih (by simp) (fun x hx => h x (List.mem_cons_of_mem _ hx))]

/-- The shape of the stack of `filepath.Clean`: names over the `..` elements
that could not be removed, of which a rooted path has none. -/
theorem cleanStep_shape (rooted : Bool) (ns : List (List Char)) (k : Nat) (el : List Char)
    (hel : '/' ∉ el)
    (hns : ∀ w ∈ ns, w ≠ [] ∧ '/' ∉ w ∧ w ≠ ['.'] ∧ w ≠ ['.', '.'])
    (hr : rooted = true → k = 0) :
    ∃ ns2 k2, cleanStep rooted (ns ++ List.replicate k ['.', '.'], k) el
        = (ns2 ++ List.replicate k2 ['.', '.'], k2) ∧
      (∀ w ∈ ns2, w ≠ [] ∧ '/' ∉ w ∧ w ≠ ['.'] ∧ w ≠ ['.', '.']) ∧
      (rooted = true → k2 = 0) := by
  unfold cleanStep
  by_cases h1 : el = [] ∨ el = ['.']
  · rw [if_pos h1]
    exact ⟨ns, k, rfl, hns, hr⟩
  · rw [if_neg h1]
    simp only [not_or] at h1
    by_cases h2 : el = ['.', '.']
    · rw [if_pos h2]
      simp only [List.length_append, List.length_replicate]
      cases ns with
      | nil =>
        simp only [List.length_nil, Nat.zero_add, gt_iff_lt, Nat.lt_irrefl, if_false,
          List.nil_append]
        cases rooted with
        | true =>
          simp only [if_true]
          exact ⟨[], k, rfl, hns, fun _ => hr rfl⟩
        | false =>
          simp only [Bool.false_eq_true, if_false]
          refine ⟨[], k + 1, ?_, by simp, by simp⟩
          rw [h2]
          rfl
      | cons w ws =>
        have : ws.length + 1 + k > k := by omega
        simp only [List.length_cons, this, if_true, List.cons_append, List.tail_cons]
        exact ⟨ws, k, rfl, fun x hx => hns x (List.mem_cons_of_mem _ hx), hr⟩
    · rw [if_neg h2]
      refine ⟨el :: ns, k, rfl, ?_, hr⟩
      intro x hx
      rcases List.mem_cons.1 hx with hx | hx
      · rw [hx]
        exact ⟨h1.1, hel, h1.2, h2⟩
      · exact hns x hx

theorem foldl_cleanStep_shape (rooted : Bool) (els : List (List Char))
    (hels : ∀ w ∈ els, '/' ∉ w) (ns : List (List Char)) (k : Nat)
    (hns : ∀ w ∈ ns, w ≠ [] ∧ '/' ∉ w ∧ w ≠ ['.'] ∧ w ≠ ['.', '.'])
    (hr : rooted = true → k = 0) :
    ∃ ns2 k2, els.foldl (cleanStep rooted) (ns ++ List.replicate k ['.', '.'], k)
        = (ns2 ++ List.replicate k2 ['.', '.'], k2) ∧
      (∀ w ∈ ns2, w ≠ [] ∧ '/' ∉ w ∧ w ≠ ['.'] ∧ w ≠ ['.', '.']) ∧
      (rooted = true → k2 = 0) := by
  induction els generalizing ns k with
  | nil => exact ⟨ns, k, rfl, hns, hr⟩
  | cons el els ih =>
    obtain ⟨ns1, k1, h1, hns1, hr1⟩ :=
      cleanStep_shape rooted ns k el (hels el (List.mem_cons_self _ _)) hns hr
    rw [List.foldl_cons, h1]
    exact ih (fun w hw => hels w (List.mem_cons_of_mem _ hw)) ns1 k1 hns1 hr1

theorem foldl_cleanStep_dotdots (k : Nat) :
    (List.replicate k ['.', '.']).foldl (cleanStep false) ([], 0)
      = (List.replicate k ['.', '.'], k) := by
  induction k with
  | zero => rfl
  | succ k ih =>
    rw [List.replicate_succ', List.foldl_append, ih]
    simp only [List.foldl_cons, List.foldl_nil, cleanStep, List.length_replicate]
    simp only [reduceCtorEq, List.cons_ne_self, or_self, if_false, if_true, gt_iff_lt,
      Nat.lt_irrefl, Bool.false_eq_true]
    rw [← List.replicate_succ, List.replicate_succ']

theorem foldl_cleanStep_names (rooted : Bool) (ns base : List (List Char)) (k : Nat)
    (hns : ∀ w ∈ ns, w ≠ [] ∧ '/' ∉ w ∧ w ≠ ['.'] ∧ w ≠ ['.', '.']) :
    ns.reverse.foldl (cleanStep rooted) (base, k) = (ns ++ base, k) := by
  induction ns with
  | nil => rfl
  | cons w ws ih =>
    have hw := hns w (List.mem_cons_self _ _)
    rw [List.reverse_cons, List.foldl_append, ih (fun x hx => hns x (List.mem_cons_of_mem _ hx))]
    simp only [List.foldl_cons, List.foldl_nil, cleanStep_name _ _ w hw.1 hw.2.2.1 hw.2.2.2,
      List.cons_append]

/-- Running the element loop of `filepath.Clean` over the elements it produced
gives the same elements again. -/
theorem foldl_cleanStep_replay (rooted : Bool) (ns : List (List Char)) (k : Nat)
    (hns : ∀ w ∈ ns, w ≠ [] ∧ '/' ∉ w ∧ w ≠ ['.'] ∧ w ≠ ['.', '.'])
    (hr : rooted = true → k = 0) :
    (ns ++ List.replicate k ['.', '.']).reverse.foldl (cleanStep rooted) ([], 0)
      = (ns ++ List.replicate k ['.', '.'], k) := by
  cases rooted with
  | true =>
    rw [hr rfl]
    simp only [List.replicate_zero, List.append_nil]
    have := foldl_cleanStep_names true ns [] 0 hns
    rw [List.append_nil] at this
    exact this
  | false =>
    rw [List.reverse_append, List.reverse_replicate, List.foldl_append,
      foldl_cleanStep_dotdots]
    exact foldl_cleanStep_names false ns _ k hns

/-- The elements `filepath.Clean` keeps: slash-free, not empty, not `.`, and
the loop over them gives them back. -/
theorem pathElements_shape (rooted : Bool) (p : List Char) :
    let l := ((splitSlash p).foldl (cleanStep rooted) ([], 0)).1.reverse
    (∀ w ∈ l, w ≠ [] ∧ '/' ∉ w ∧ w ≠ ['.']) ∧
    (l.foldl (cleanStep rooted) ([], 0)).1.reverse = l := by
  obtain ⟨ns, k, h, hns, hr⟩ := foldl_cleanStep_shape rooted (splitSlash p)
    (splitSlash_no_slash p) [] 0 (by simp) (fun _ => rfl)
  simp only [List.replicate_zero, List.append_nil] at h
  simp only [h]
  refine ⟨?_, ?_⟩
  · intro w hw
    rw [List.mem_reverse, List.mem_append] at hw
    rcases hw with hw | hw
    · exact ⟨(hns w hw).1, (hns w hw).2.1, (hns w hw).2.2.1⟩
    · rw [List.eq_of_mem_replicate hw]
      decide
  · rw [foldl_cleanStep_replay rooted ns k hns hr]

theorem foldl_cleanStep_nil (rooted : Bool) :
    ((splitSlash []).foldl (cleanStep rooted) ([], 0)).1.reverse = [] := by
  cases rooted <;> rfl

/-- The loop of `filepath.Clean` over the joined elements it produced. -/
theorem foldl_joinSlash (rooted : Bool) (p : List Char) :
    let l := ((splitSlash p).foldl (cleanStep rooted) ([], 0)).1.reverse
    ((splitSlash (joinSlash l)).foldl (cleanStep rooted) ([], 0)).1.reverse = l := by
  intro l
  obtain ⟨h1, h2⟩ := pathElements_shape rooted p
  cases hl : l with
  | nil => exact foldl_cleanStep_nil rooted
  | cons w ws =>
    have h3 : ∀ x ∈ w :: ws, '/' ∉ x := fun x hx => (h1 x (by rw [← hl] at hx; exact hx)).2.1
    rw [splitSlash_joinSlash (w :: ws) (by simp) h3, ← hl]
    exact h2

theorem joinSlash_head (w : List Char) (ws : List (List Char)) (h0 : w ≠ []) (hs : '/' ∉ w) :
    ∃ c cs, joinSlash (w :: ws) = c :: cs ∧ c ≠ '/' := by
  cases w with
  | nil => exact absurd rfl h0
  | cons c cs =>
    have hc : c ≠ '/' := fun e => hs (by rw [e]; exact List.mem_cons_self _ _)
    cases ws with
    | nil => exact ⟨c, cs, rfl, hc⟩
    | cons w2 ws2 => exact ⟨c, _, rfl, hc⟩

/-- The function `filepath.Clean` keeps a path rooted or unrooted, keeps its
elements, and leaves its own results alone. -/
theorem cleanChars_facts (p : List Char) :
    pathElements (cleanChars p) = pathElements p ∧
    cleanChars (cleanChars p) = cleanChars p ∧
    (∀ c cs, cleanChars p = c :: cs → c = '/' → ∃ ds, p = '/' :: ds) ∧
    cleanChars p ≠ [] := by
  cases p with
  | nil => exact ⟨by decide, by decide, by intro c cs h hc; simp [cleanChars] at h; exact absurd hc (by rw [← h.1]; decide), by decide⟩
  | cons c cs =>
    by_cases hc : c = '/'
    · subst hc
      have hcl : cleanChars ('/' :: cs)
          = '/' :: joinSlash ((splitSlash cs).foldl (cleanStep true) ([], 0)).1.reverse := by
        simp only [cleanChars, if_true]
      have hpe : pathElements (cleanChars ('/' :: cs)) = pathElements ('/' :: cs) := by
        rw [hcl]
        simp only [pathElements, if_true]
        exact foldl_joinSlash true cs
      refine ⟨hpe, ?_, fun _ _ _ _ => ⟨cs, rfl⟩, by rw [hcl]; simp⟩
      have h1 := cleanChars_eq '/' cs
      rw [if_pos rfl] at h1
      have h2 : cleanChars (cleanChars ('/' :: cs))
          = '/' :: joinSlash (pathElements (cleanChars ('/' :: cs))) := by
        rw [hcl]
        have := cleanChars_eq '/'
          (joinSlash ((splitSlash cs).foldl (cleanStep true) ([], 0)).1.reverse)
        rw [if_pos rfl] at this
        exact this
      rw [h2, hpe, ← h1]
    · have hcl := cleanChars_eq c cs
      rw [if_neg hc] at hcl
      obtain ⟨hsh, _⟩ := pathElements_shape false (c :: cs)
      have hfj := foldl_joinSlash false (c :: cs)
      have hpdef : pathElements (c :: cs)
          = ((splitSlash (c :: cs)).foldl (cleanStep false) ([], 0)).1.reverse := by
        simp only [pathElements, hc, if_false]
      simp only [← hpdef] at hsh hfj
      cases hl : pathElements (c :: cs) with
      | nil =>
        rw [hl] at hcl
        have hdot : cleanChars (c :: cs) = ['.'] := hcl
        rw [hdot]
        exact ⟨by decide, by decide, by intro c2 cs2 h h2; simp at h; exact absurd h2 (by rw [← h.1]; decide), by decide⟩
      | cons w ws =>
        rw [hl] at hcl hsh hfj
        have hj : cleanChars (c :: cs) = joinSlash (w :: ws) := hcl
        have hw := hsh w (List.mem_cons_self _ _)
        obtain ⟨c2, cs2, hj2, hc2⟩ := joinSlash_head w ws hw.1 hw.2.1
        have hpe : pathElements (cleanChars (c :: cs)) = w :: ws := by
          rw [hj, hj2]
          simp only [pathElements, hc2, if_false]
          rw [← hj2]
          exact hfj
        refine ⟨hpe, ?_, ?_, by rw [hj, hj2]; simp⟩
        · have h3 := cleanChars_eq c2 cs2
          rw [if_neg hc2, ← hj2, ← hj, hpe] at h3
          rw [h3, hj]
        · intro c3 cs3 h3 h4
          rw [hj, hj2] at h3
          exact absurd ((List.cons.inj h3).1.trans h4) hc2

/-- Joining a valid name to a path gives a clean path with one more element. -/
theorem Join_clean (p name : String) (hv : validName name = true) :
    Clean (Join p name) = Join p name ∧
    pathElements (Join p name).data = pathElements p.data ++ [name.data] := by
  simp only [validName, decide_eq_true_eq] at hv
  by_cases hne : p = ""
  · subst hne
    have hn : name ≠ "" := by
      intro h
      rw [h] at hv
      exact hv.1 rfl
    have hj : Join "" name = ⟨cleanChars name.data⟩ := by
      simp only [Join, ne_eq, not_true_eq_false, if_false, hn, not_false_eq_true, if_true, Clean]
    rw [hj]
    refine ⟨by simp only [Clean]; rw [(cleanChars_facts name.data).2.1], ?_⟩
    rw [(cleanChars_facts name.data).1, pathElements_name name.data hv.2.1 hv.1 hv.2.2.1 hv.2.2.2]
    rfl
  · have hj : Join p name = ⟨cleanChars (p.data ++ '/' :: name.data)⟩ := by
      simp only [Join, hne, ne_eq, not_false_eq_true, if_true, Clean, String.data_append,
        List.append_assoc, List.singleton_append]
    have hpd : p.data ≠ [] := by
      intro h
      apply hne
      exact String.ext h
    rw [hj]
    refine ⟨by simp only [Clean]; rw [(cleanChars_facts _).2.1], ?_⟩
    rw [(cleanChars_facts _).1,
      pathElements_append p.data name.data hpd hv.2.1 hv.1 hv.2.2.1 hv.2.2.2]

mutual
theorem listing_distinct (path : String) :
    ∀ (n : Node), n.wellNamed = true →
      (∀ q ∈ n.listing path, ∃ ns, pathElements q.1.data = pathElements path.data ++ ns) ∧
      ((n.listing path).map Prod.fst).Nodup
  | .leaf i k => by
    intro _
    simp only [Node.listing, List.mem_singleton, List.map_cons, List.map_nil,
      List.nodup_cons, List.not_mem_nil, not_false_eq_true, List.nodup_nil, and_self, and_true]
    intro q hq
    exact ⟨[], by rw [hq]; simp⟩
  | .dir i r a es => by
    intro h
    simp only [Node.wellNamed] at h
    obtain ⟨ih1, ih2⟩ := listingEntries_distinct path es h
    simp only [Node.listing, List.mem_cons, List.map_cons, List.nodup_cons]
    refine ⟨?_, ?_, ih2⟩
    · intro q hq
      rcases hq with hq | hq
      · exact ⟨[], by rw [hq]; simp⟩
      · obtain ⟨name, ns, _, he⟩ := ih1 q hq
        exact ⟨name.data :: ns, he⟩
    · intro hm
      obtain ⟨q, hq, hqp⟩ := List.mem_map.1 hm
      obtain ⟨name, ns, _, he⟩ := ih1 q hq
      rw [hqp] at he
      have := congrArg List.length he
      simp at this
theorem listingEntries_distinct (path : String) :
    ∀ (es : Entries), es.wellNamed = true →
      (∀ q ∈ es.listing path, ∃ name ns, name ∈ es.names ∧
        pathElements q.1.data = pathElements path.data ++ name.data :: ns) ∧
      ((es.listing path).map Prod.fst).Nodup
  | .nil => by
    intro _
    simp [Entries.listing]
  | .cons name n rest => by
    intro h
    simp only [Entries.wellNamed, Bool.and_eq_true, decide_eq_true_eq] at h
    obtain ⟨⟨⟨hv, hnew⟩, hn⟩, hrest⟩ := h
    obtain ⟨hjc, hje⟩ := Join_clean path name hv
    obtain ⟨ih1, ih2⟩ := listing_distinct (Join path name) n hn
    obtain ⟨ih3, ih4⟩ := listingEntries_distinct path rest hrest
    have hfirst : ∀ q ∈ n.listing (Join path name), ∃ ns,
        pathElements q.1.data = pathElements path.data ++ name.data :: ns := by
      intro q hq
      obtain ⟨ns, he⟩ := ih1 q hq
      exact ⟨ns, by rw [he, hje]; simp⟩
    simp only [Entries.listing, List.mem_append, List.map_append, Entries.names, List.mem_cons]
    refine ⟨?_, ?_⟩
    · intro q hq
      rcases hq with hq | hq
      · obtain ⟨ns, he⟩ := hfirst q hq
        exact ⟨name, ns, Or.inl rfl, he⟩
      · obtain ⟨name2, ns, hm, he⟩ := ih3 q hq
        exact ⟨name2, ns, Or.inr hm, he⟩
    · rw [List.nodup_append]
      refine ⟨ih2, ih4, ?_⟩
      intro p hp1 hp2
      obtain ⟨q1, hq1, e1⟩ := List.mem_map.1 hp1
      obtain ⟨q2, hq2, e2⟩ := List.mem_map.1 hp2
      obtain ⟨ns1, he1⟩ := hfirst q1 hq1
      obtain ⟨name2, ns2, hm2, he2⟩ := ih3 q2 hq2
      rw [e1] at he1
      rw [e2, he1] at he2
      have h3 := List.append_cancel_left he2
      have h4 : name.data = name2.data := (List.cons.inj h3).1
      have h5 : name = name2 := String.ext h4
      rw [← h5] at hm2
      exact hnew hm2
end

/-- Under any root path, a tree whose names are valid and distinct within each
directory has pairwise distinct paths. -/
theorem listing_nodup (dir : String) (fs : Node) (hfs : fs.wellNamed = true) :
    ((fs.listing dir).map Prod.fst).Nodup :=
  (listing_distinct dir fs hfs).2


/-! ## Relative paths -/

theorem IsAbs_Join_relative (dir name : String) (h : IsAbs dir = false)
    (hv : validName name = true) : IsAbs (Join dir name) = false := by
  simp only [validName, decide_eq_true_eq] at hv
  have key : ∀ y : List Char, (∀ ds, y ≠ '/' :: ds) → IsAbs ⟨cleanChars y⟩ = false := by
    intro y hy
    cases hc : cleanChars y with
    | nil => rfl
    | cons c cs =>
      by_cases hs : c = '/'
      · obtain ⟨ds, hds⟩ := (cleanChars_facts y).2.2.1 c cs hc hs
        exact absurd hds (hy ds)
      · simp only [IsAbs, beq_eq_false_iff_ne, ne_eq]
        exact hs
  by_cases hne : dir = ""
  · subst hne
    have hn : name ≠ "" := by
      intro h2
      rw [h2] at hv
      exact hv.1 rfl
    simp only [Join, ne_eq, not_true_eq_false, if_false, hn, not_false_eq_true, if_true, Clean]
    apply key
    intro ds hds
    apply hv.2.1
    rw [hds]
    exact List.mem_cons_self _ _
  · simp only [Join, hne, ne_eq, not_false_eq_true, if_true, Clean, String.data_append]
    apply key
    intro ds hds
    obtain ⟨cs⟩ := dir
    cases cs with
    | nil => exact hne rfl
    | cons c cs =>
      simp only [List.cons_append, List.cons.injEq] at hds
      simp only [IsAbs, beq_eq_false_iff_ne, ne_eq] at h
      exact h hds.1

mutual
theorem listing_relative (path : String) (h : IsAbs path = false) :
    ∀ (n : Node), n.wellNamed = true → ∀ q ∈ n.listing path, IsAbs q.1 = false
  | .leaf i k => by
    intro _ q hq
    simp only [Node.listing, List.mem_singleton] at hq
    rw [hq]; exact h
  | .dir i r a es => by
    intro hw q hq
    simp only [Node.wellNamed] at hw
    simp only [Node.listing, List.mem_cons] at hq
    rcases hq with hq | hq
    · rw [hq]; exact h
    · exact listingEntries_relative path h es hw q hq
theorem listingEntries_relative (path : String) (h : IsAbs path = false) :
    ∀ (es : Entries), es.wellNamed = true → ∀ q ∈ es.listing path, IsAbs q.1 = false
  | .nil => by
    intro _ q hq
    simp [Entries.listing] at hq
  | .cons name n rest => by
    intro hw q hq
    simp only [Entries.wellNamed, Bool.and_eq_true, decide_eq_true_eq] at hw
    obtain ⟨⟨⟨hv, _⟩, hn⟩, hrest⟩ := hw
    simp only [Entries.listing, List.mem_append] at hq
    rcases hq with hq | hq
    · exact listing_relative (Join path name) (IsAbs_Join_relative path name h hv) n hn q hq
    · exact listingEntries_relative path h rest hrest q hq
end


/-! ## Warnings of the restore walk -/

theorem invoke_reset_ok_log (d : Time) (snap : Snapshot) (path : String) (i : Inode)
    (info : FileInfo) (s : WalkState (List LogLine)) (p : String) (e : Errno)
    (h : LogLine.warnAccess p e ∈ (invoke (resetTimestampsFn d snap) path i (.ok info) s).state.user) :
    LogLine.warnAccess p e ∈ s.user := by
  unfold invoke resetTimestampsFn at h
  simp only at h
  cases hg : snap.get path with
  | none =>
    simp only [hg, List.mem_append, List.mem_singleton, reduceCtorEq, or_false] at h
    exact h
  | some ts =>
    simp only [hg] at h
    split at h
    · rename_i u e1 heq
      split at heq
      · simp only [Prod.mk.injEq] at heq
        rw [← heq.1] at h
        exact h
      · simp at heq
    · rename_i u a m heq
      split at heq
      · simp at heq
      · simp only [Prod.mk.injEq] at heq
        rw [← heq.1] at h
        simp only [List.mem_append, List.mem_singleton, reduceCtorEq, or_false] at h
        exact h

mutual
theorem walk_reset_log (d : Time) (snap : Snapshot) (path : String) :
    ∀ (n : Node) (s : WalkState (List LogLine)) (p : String) (e : Errno),
      LogLine.warnAccess p e ∈ (walk (resetTimestampsFn d snap) path n s).state.user →
      LogLine.warnAccess p e ∈ s.user ∨ (p, e) ∈ n.failures path
  | .leaf i k, s, p, e => by
    intro h
    simp only [walk] at h
    exact Or.inl (invoke_reset_ok_log d snap path _ _ s p e h)
  | .dir i (some e0) a es, s, p, e => by
    intro h
    simp only [walk, invoke_reset_failed, List.mem_append, List.mem_singleton,
      LogLine.warnAccess.injEq] at h
    rcases h with h | h
    · exact Or.inl h
    · right
      simp [Node.failures, h.1, h.2]
  | .dir i none a es, s, p, e => by
    intro h
    simp only [walk] at h
    split at h
    · exact Or.inl (invoke_reset_ok_log d snap path _ _ s p e h)
    · rcases walkNames_reset_log d snap path es _ p e h with h1 | h1
      · exact Or.inl (invoke_reset_ok_log d snap path _ _ s p e h1)
      · exact Or.inr (by simpa [Node.failures] using h1)
theorem walkNames_reset_log (d : Time) (snap : Snapshot) (path : String) :
    ∀ (es : Entries) (s : WalkState (List LogLine)) (p : String) (e : Errno),
      LogLine.warnAccess p e ∈ (walkNames (resetTimestampsFn d snap) path es s).state.user →
      LogLine.warnAccess p e ∈ s.user ∨ (p, e) ∈ es.failures path
  | .nil, s, p, e => by
    intro h
    simp only [walkNames] at h
    exact Or.inl h
  | .cons name n rest, s, p, e => by
    intro h
    cases hl : n.inode.lstatErr with
    | some e0 =>
      simp only [walkNames, hl, invoke_reset_failed] at h
      rcases walkNames_reset_log d snap path rest _ p e h with h1 | h1
      · simp only [List.mem_append, List.mem_singleton, LogLine.warnAccess.injEq] at h1
        rcases h1 with h1 | h1
        · exact Or.inl h1
        · right
          simp [Entries.failures, hl, h1.1, h1.2]
      · right
        simp [Entries.failures, h1]
    | none =>
      simp only [walkNames, hl] at h
      split at h
      · rcases walk_reset_log d snap (Join path name) n s p e h with h1 | h1
        · exact Or.inl h1
        · right
          simp [Entries.failures, hl, h1]
      · rcases walkNames_reset_log d snap path rest _ p e h with h1 | h1
        · rcases walk_reset_log d snap (Join path name) n s p e h1 with h2 | h2
          · exact Or.inl h2
          · right
            simp [Entries.failures, hl, h2]
        · right
          simp [Entries.failures, h1]
end

theorem resetTimestamps_log (dir : String) (d : Time) (snap : Snapshot) (fs : Node)
    (p : String) (e : Errno)
    (h : LogLine.warnAccess p e ∈ (resetTimestamps dir d snap fs).log) :
    (p, e) ∈ fs.failuresFrom dir := by
  unfold resetTimestamps Walk at h
  unfold Node.failuresFrom
  cases he : fs.inode.lstatErr with
  | some e0 =>
    simp only [he, invoke_reset_failed, List.nil_append, List.mem_singleton,
      LogLine.warnAccess.injEq] at h
    simp [h.1, h.2]
  | none =>
    simp only [he] at h
    rcases walk_reset_log d snap dir fs _ p e h with h1 | h1
    · simp at h1
    · exact h1

theorem resetTimestamps_trace (dir : String) (d : Time) (snap : Snapshot) (fs : Node) :
    GoodTrace (resetTimestamps dir d snap fs).calls (resetTimestamps dir d snap fs).err :=
  Walk_trace _ (resetTimestampsFn_tolerant d snap) dir fs ⟨[], []⟩
    (by intro c hc; simp at hc)

/-- The error of a failed call is the error the walk returns. -/
theorem failed_call_error (dir : String) (d : Time) (snap : Snapshot) (fs : Node) :
    ∀ c ∈ (resetTimestamps dir d snap fs).calls, ∀ e, c.result = some e →
      (resetTimestamps dir d snap fs).err = some e := by
  intro c hc e hres
  have ht := resetTimestamps_trace dir d snap fs
  cases herr : (resetTimestamps dir d snap fs).err with
  | none =>
    rw [herr] at ht
    have := ht c hc
    rw [this] at hres
    simp at hres
  | some e1 =>
    rw [herr] at ht
    obtain ⟨cs, c1, hcs, hc1, hall⟩ := ht
    rw [hcs] at hc
    rcases List.mem_append.1 hc with hc | hc
    · have := hall c hc
      rw [this] at hres
      simp at hres
    · simp only [List.mem_singleton] at hc
      subst hc
      rw [hc1] at hres
      simp only [Option.some.injEq] at hres
      rw [hres]


/-! ## The lines a walk logs -/

theorem invoke_user {σ : Type} (fn : WalkFunc σ) (path : String) (i : Inode) (arg : WalkArg)
    (s : WalkState σ) : (invoke fn path i arg s).state.user = (fn path arg s.user).1 := by
  unfold invoke
  split <;> rename_i h <;> rw [h]

mutual
theorem walk_lines (fn : WalkFunc (List LogLine)) (P : LogLine → Prop)
    (hfn : ∀ path arg log, ∀ l ∈ (fn path arg log).1, l ∈ log ∨ P l) (path : String) :
    ∀ (n : Node) (s : WalkState (List LogLine)),
      ∀ l ∈ (walk fn path n s).state.user, l ∈ s.user ∨ P l
  | .leaf i k, s => by
    intro l hl
    simp only [walk, invoke_user] at hl
    exact hfn _ _ _ l hl
  | .dir i (some e) a es, s => by
    intro l hl
    simp only [walk, invoke_user] at hl
    exact hfn _ _ _ l hl
  | .dir i none a es, s => by
    intro l hl
    simp only [walk] at hl
    split at hl
    · simp only [invoke_user] at hl
      exact hfn _ _ _ l hl
    · rcases walkNames_lines fn P hfn path es _ l hl with h | h
      · rw [invoke_user] at h
        exact hfn _ _ _ l h
      · exact Or.inr h
theorem walkNames_lines (fn : WalkFunc (List LogLine)) (P : LogLine → Prop)
    (hfn : ∀ path arg log, ∀ l ∈ (fn path arg log).1, l ∈ log ∨ P l) (path : String) :
    ∀ (es : Entries) (s : WalkState (List LogLine)),
      ∀ l ∈ (walkNames fn path es s).state.user, l ∈ s.user ∨ P l
  | .nil, s => by
    intro l hl
    exact Or.inl hl
  | .cons name n rest, s => by
    intro l hl
    cases hle : n.inode.lstatErr with
    | some e =>
      simp only [walkNames, hle] at hl
      split at hl
      · simp only [invoke_user] at hl
        exact hfn _ _ _ l hl
      · rcases walkNames_lines fn P hfn path rest _ l hl with h | h
        · rw [invoke_user] at h
          exact hfn _ _ _ l h
        · exact Or.inr h
    | none =>
      simp only [walkNames, hle] at hl
      split at hl
      · exact walk_lines fn P hfn (Join path name) n s l hl
      · rcases walkNames_lines fn P hfn path rest _ l hl with h | h
        · exact walk_lines fn P hfn (Join path name) n s l h
        · exact Or.inr h
end

/-- The restore pass logs no line of `log.Fatalf`. -/
theorem resetTimestamps_not_fatal (dir : String) (d : Time) (snap : Snapshot) (fs : Node) :
    ∀ l ∈ (resetTimestamps dir d snap fs).log, l.isFatal = false := by
  have hfn : ∀ path arg log, ∀ l ∈ (resetTimestampsFn d snap path arg log).1,
      l ∈ log ∨ l.isFatal = false := by
    intro path arg log l hl
    unfold resetTimestampsFn at hl
    cases arg with
    | failed info e =>
      simp only [List.mem_append, List.mem_singleton] at hl
      rcases hl with hl | hl
      · exact Or.inl hl
      · right; rw [hl]; rfl
    | ok info =>
      simp only at hl
      split at hl
      · simp only [List.mem_append, List.mem_singleton] at hl
        rcases hl with hl | hl
        · exact Or.inl hl
        · right; rw [hl]; rfl
      · split at hl
        · exact Or.inl hl
        · simp only [List.mem_append, List.mem_singleton] at hl
          rcases hl with hl | hl
          · exact Or.inl hl
          · right; rw [hl]; rfl
  intro l hl
  unfold resetTimestamps Walk at hl
  cases he : fs.inode.lstatErr with
  | some e =>
    simp only [he, invoke_user] at hl
    rcases hfn _ _ _ l hl with h | h
    · simp at h
    · exact h
  | none =>
    simp only [he] at hl
    rcases walk_lines _ _ hfn dir fs _ l hl with h | h
    · simp at h
    · exact h


/-! ## Only a failed write makes the restore walk fail -/

theorem invoke_reset_writable (d : Time) (snap : Snapshot) (hd : d.WF) (hs : snap.WF)
    (path : String) (i : Inode) (arg : WalkArg) (s : WalkState (List LogLine))
    (hi : i.utimesErr = none) :
    (invoke (resetTimestampsFn d snap) path i arg s).err = none := by
  cases arg with
  | failed info e => rfl
  | ok info =>
    unfold invoke resetTimestampsFn
    simp only
    cases hg : snap.get path with
    | none =>
      simp only [utimesNanoAt, hi, toTimespec, Time.Nanosecond]
      rw [if_pos ⟨hd.1, hd.2, hd.1, hd.2⟩]
    | some ts =>
      simp only
      by_cases heq : ((timeUnix info.sys.Atim.Sec info.sys.Atim.Nsec).Equal ts.Atime
          && info.ModTime.Equal ts.Mtime) = true
      · simp only [heq, if_true]
      · have hts := hs path ts hg
        simp only [heq, Bool.false_eq_true, if_false, utimesNanoAt, hi, toTimespec,
          Time.Nanosecond]
        rw [if_pos ⟨hts.1.1, hts.1.2, hts.2.1, hts.2.2⟩]

mutual
theorem walk_reset_writable (d : Time) (snap : Snapshot) (hd : d.WF) (hs : snap.WF)
    (path : String) :
    ∀ (n : Node) (s : WalkState (List LogLine)),
      (∀ q ∈ n.listing path, q.2.utimesErr = none) →
      (walk (resetTimestampsFn d snap) path n s).err = none
  | .leaf i k, s => by
    intro h
    simp only [walk]
    exact invoke_reset_writable d snap hd hs path i _ s (h (path, i) (by simp [Node.listing]))
  | .dir i (some e) a es, s => by
    intro _
    rfl
  | .dir i none a es, s => by
    intro h
    have h0 := invoke_reset_writable d snap hd hs path (i.touch a) (.ok ⟨i.stat, true⟩) s
      (by rw [touch_utimesErr]; exact h (path, i) (by simp [Node.listing]))
    simp only [walk, h0]
    exact walkNames_reset_writable d snap hd hs path es _
      (fun q hq => h q (by simp [Node.listing, hq]))
theorem walkNames_reset_writable (d : Time) (snap : Snapshot) (hd : d.WF) (hs : snap.WF)
    (path : String) :
    ∀ (es : Entries) (s : WalkState (List LogLine)),
      (∀ q ∈ es.listing path, q.2.utimesErr = none) →
      (walkNames (resetTimestampsFn d snap) path es s).err = none
  | .nil, s => by
    intro _
    rfl
  | .cons name n rest, s => by
    intro h
    cases hl : n.inode.lstatErr with
    | some e =>
      simp only [walkNames, hl, invoke_reset_failed]
      exact walkNames_reset_writable d snap hd hs path rest _
        (fun q hq => h q (by simp [Entries.listing, hq]))
    | none =>
      have h1 := walk_reset_writable d snap hd hs (Join path name) n s
        (fun q hq => h q (by simp [Entries.listing, hq]))
      simp only [walkNames, hl, h1]
      exact walkNames_reset_writable d snap hd hs path rest _
        (fun q hq => h q (by simp [Entries.listing, hq]))
end

/-- Where no timestamp write can fail, `resetTimestamps` returns nil, whatever
entries are inaccessible. -/
theorem resetTimestamps_writable (dir : String) (d : Time) (snap : Snapshot) (fs : Node)
    (hd : d.WF) (hs : snap.WF) (h : ∀ q ∈ fs.listing dir, q.2.utimesErr = none) :
    (resetTimestamps dir d snap fs).err = none := by
  unfold resetTimestamps Walk
  cases he : fs.inode.lstatErr with
  | some e => rfl
  | none => exact walk_reset_writable d snap hd hs dir fs _ h

/-- The snapshot of `registerDir` holds well-formed times. -/
theorem registerDir_WF (dir : String) (fs : Node) : (registerDir dir fs).timestamps.WF := by
  rw [(registerDir_eq dir fs).2.1]
  apply record_WF
  intro p ts h
  simp [Snapshot.get] at h


/-! ## `strconv.ParseInt` reads decimal 64-bit integers -/

theorem le_digitsValue (cs : List Char) (n : Nat) : n ≤ digitsValue cs n := by
  induction cs generalizing n with
  | nil => exact Nat.le_refl _
  | cons c cs ih =>
    simp only [digitsValue]
    have := ih (n * 10 + (c.toNat - 48))
    omega

theorem parseUintLoop_ok (cs : List Char) (n : Nat) (hd : allDigits cs = true)
    (hv : digitsValue cs n < 18446744073709551616) :
    parseUintLoop cs n = .ok (digitsValue cs n) := by
  induction cs generalizing n with
  | nil => rfl
  | cons c cs ih =>
    simp only [allDigits, Bool.and_eq_true, decide_eq_true_eq] at hd
    simp only [digitsValue] at hv ⊢
    have hle := le_digitsValue cs (n * 10 + (c.toNat - 48))
    have h1 : ¬ n ≥ 1844674407370955162 := by omega
    have h2 : n * 10 % 18446744073709551616 = n * 10 := Nat.mod_eq_of_lt (by omega)
    have h3 : (n * 10 + (c.toNat - 48)) % 18446744073709551616 = n * 10 + (c.toNat - 48) :=
      Nat.mod_eq_of_lt (by omega)
    simp only [parseUintLoop, hd.1, and_self, if_true, h1, if_false, h2, h3]
    rw [if_neg (by omega)]
    exact ih _ hd.2 hv

theorem parseUintLoop_range (cs : List Char) (n : Nat) (hd : allDigits cs = true)
    (hn : n < 18446744073709551616) (hv : 18446744073709551616 ≤ digitsValue cs n) :
    parseUintLoop cs n = .error .outOfRange := by
  induction cs generalizing n with
  | nil =>
    simp only [digitsValue] at hv
    omega
  | cons c cs ih =>
    simp only [allDigits, Bool.and_eq_true, decide_eq_true_eq] at hd
    simp only [digitsValue] at hv
    simp only [parseUintLoop, hd.1, and_self, if_true]
    by_cases h1 : n ≥ 1844674407370955162
    · rw [if_pos h1]
    · rw [if_neg h1]
      have h2 : n * 10 % 18446744073709551616 = n * 10 := Nat.mod_eq_of_lt (by omega)
      simp only [h2]
      by_cases h3 : n * 10 + (c.toNat - 48) < 18446744073709551616
      · have h4 : (n * 10 + (c.toNat - 48)) % 18446744073709551616 = n * 10 + (c.toNat - 48) :=
          Nat.mod_eq_of_lt h3
        simp only [h4]
        rw [if_neg (by omega)]
        exact ih _ hd.2 h3 hv
      · rw [if_pos]
        left
        omega

theorem parseUintLoop_invalid (cs : List Char) (n : Nat) (hd : allDigits cs = false) :
    ∃ e, parseUintLoop cs n = .error e := by
  induction cs generalizing n with
  | nil => simp [allDigits] at hd
  | cons c cs ih =>
    simp only [parseUintLoop]
    by_cases hc : 48 ≤ c.toNat ∧ c.toNat ≤ 57
    · simp only [allDigits, hc, and_self, decide_True, Bool.true_and] at hd
      simp only [hc, and_self, if_true]
      split
      · exact ⟨_, rfl⟩
      · split
        · exact ⟨_, rfl⟩
        · exact ih _ hd
    · rw [if_neg hc]
      exact ⟨_, rfl⟩

/-- The call `ParseUint(s, 10, 64)` against the specification's wording. -/
theorem ParseUint_eq (cs : List Char) :
    (cs ≠ [] ∧ allDigits cs = true ∧ digitsValue cs 0 < 18446744073709551616 ∧
      ParseUint cs = .ok (digitsValue cs 0)) ∨
    (cs ≠ [] ∧ allDigits cs = true ∧ 18446744073709551616 ≤ digitsValue cs 0 ∧
      ParseUint cs = .error .outOfRange) ∨
    ((cs = [] ∨ allDigits cs = false) ∧ ∃ e, ParseUint cs = .error e) := by
  cases cs with
  | nil => exact Or.inr (Or.inr ⟨Or.inl rfl, _, rfl⟩)
  | cons c cs =>
    simp only [ParseUint]
    cases hd : allDigits (c :: cs) with
    | false => exact Or.inr (Or.inr ⟨Or.inr rfl, parseUintLoop_invalid _ 0 hd⟩)
    | true =>
      by_cases hv : digitsValue (c :: cs) 0 < 18446744073709551616
      · exact Or.inl ⟨by simp, rfl, hv, parseUintLoop_ok _ 0 hd hv⟩
      · exact Or.inr (Or.inl ⟨by simp, rfl, by omega,
          parseUintLoop_range _ 0 hd (by norm_num) (by omega)⟩)

/-- The call `strconv.ParseInt(s, 10, 64)` succeeds with `n` exactly when `s` is
a base-10 signed 64-bit integer of value `n`. -/
theorem ParseInt_eq (s : String) (n : Int) :
    ParseInt s = .ok n ↔ decimalInt64 s = some n := by
  unfold ParseInt decimalInt64
  cases hs : s.data with
  | nil => simp
  | cons c cs =>
    simp only
    generalize hdig : (if c = '+' ∨ c = '-' then cs else c :: cs) = digits
    rcases ParseUint_eq digits with ⟨hne, hd, hv, hp⟩ | ⟨hne, hd, hv, hp⟩ | ⟨hbad, e, hp⟩
    · simp only [hp, hne, hd, ne_eq, not_false_eq_true, and_self, if_true]
      by_cases hneg : c = '-'
      · simp only [hneg, not_true_eq_false, false_and, if_false, true_and, if_true]
        by_cases hr : digitsValue digits 0 > 9223372036854775808
        · rw [if_pos hr, if_neg (by omega)]
          simp
        · rw [if_neg hr, if_pos (by omega)]
          simp
      · simp only [hneg, not_false_eq_true, true_and, false_and, if_false]
        by_cases hr : digitsValue digits 0 ≥ 9223372036854775808
        · rw [if_pos hr, if_neg (by omega)]
          simp
        · rw [if_neg hr, if_pos (by omega)]
          simp
    · simp only [hp, hne, hd, ne_eq, not_false_eq_true, and_self, if_true]
      by_cases hneg : c = '-'
      · simp only [hneg, if_true]
        rw [if_neg (by omega)]
        simp
      · simp only [hneg, if_false]
        rw [if_neg (by omega)]
        simp
    · have hno : ¬ (digits ≠ [] ∧ allDigits digits = true) := by
        rintro ⟨h1, h2⟩
        rcases hbad with h | h
        · exact h1 h
        · rw [h2] at h
          simp at h
      rw [if_neg hno, hp]
      cases e <;> simp


/-! ## The restore pass, entry by entry -/

theorem forall₂_of_map_eq {α β γ : Type} (f : α → γ) (g : β → γ) :
    ∀ (l1 : List α) (l2 : List β), l1.map f = l2.map g →
      List.Forall₂ (fun a b => f a = g b) l1 l2
  | [], [] => fun _ => List.Forall₂.nil
  | [], _ :: _ => fun h => by simp at h
  | _ :: _, [] => fun h => by simp at h
  | a :: l1, b :: l2 => fun h => by
    simp only [List.map_cons, List.cons.injEq] at h
    exact List.Forall₂.cons h.1 (forall₂_of_map_eq f g l1 l2 h.2)

theorem forall₂_mem {α β : Type} {R : α → β → Prop} {l1 : List α} {l2 : List β}
    (h : List.Forall₂ R l1 l2) : List.Forall₂ (fun a b => a ∈ l1 ∧ R a b) l1 l2 := by
  induction h with
  | nil => exact List.Forall₂.nil
  | cons hab _ ih =>
    exact List.Forall₂.cons ⟨List.mem_cons_self _ _, hab⟩
      (ih.imp (fun a b hr => ⟨List.mem_cons_of_mem _ hr.1, hr.2⟩))

/-- After a restore pass that returns nil, the entries the walk is handed are
those of the tree, entry by entry, each holding what `settle` says; the
timestamps written are well formed. -/
theorem resetTimestamps_entries (dir : String) (d : Time) (snap : Snapshot) (fs : Node)
    (h : (resetTimestamps dir d snap fs).err = none) :
    List.Forall₂
      (fun v q => q.1 = v.path ∧ q.2.stat = settle d snap v ∧
        (¬ v.judgedUnchanged snap →
          (target d snap v.path).Atime.WF ∧ (target d snap v.path).Mtime.WF))
      (fs.visitsFrom dir) ((resetTimestamps dir d snap fs).fs.visitedFrom dir) := by
  obtain ⟨h1, h2⟩ := resetTimestamps_settle dir d snap fs h
  have h3 := forall₂_mem (forall₂_of_map_eq (fun v => (v.path, settle d snap v))
    (fun q : String × Inode => (q.1, q.2.stat)) _ _ h1.symm)
  refine h3.imp (fun v q hr => ?_)
  obtain ⟨hv, he⟩ := hr
  simp only [Prod.mk.injEq] at he
  exact ⟨he.1.symm, he.2.symm, h2 v hv⟩

/-- An entry of the snapshot for which the walk function of `resetTimestamps`
has returned nil. -/
theorem settle_pinned (d : Time) (snap : Snapshot) (v : Visit) (i : Inode)
    (hi : i.stat = settle d snap v)
    (hw : ¬ v.judgedUnchanged snap →
      (target d snap v.path).Atime.WF ∧ (target d snap v.path).Mtime.WF)
    (ts : FileTimestamps) (hs : snap.get v.path = some ts) :
    (v.inode.timestamps = ts →
      i.timestamps.Mtime = ts.Mtime ∧ (v.moved = none → i.timestamps = ts)) ∧
    (v.inode.timestamps ≠ ts →
      i.stat = ⟨v.inode.sb.truncate (toTimespec ts.Atime),
        v.inode.sb.truncate (toTimespec ts.Mtime)⟩ ∧
      (v.inode.holds ts → i.timestamps = ts)) := by
  refine ⟨fun he => ?_, fun hne => ?_⟩
  · have hu : v.judgedUnchanged snap := by
      unfold Visit.judgedUnchanged
      rw [hs, he]
    obtain ⟨h1, h2⟩ := settle_skipped d snap v i hi hu
    rw [he] at h1 h2
    exact ⟨h1, h2⟩
  · have hu : ¬ v.judgedUnchanged snap := by
      unfold Visit.judgedUnchanged
      rw [hs]
      intro h
      simp only [Option.some.injEq] at h
      exact hne h.symm
    have ht : target d snap v.path = ts := by simp only [target, hs]
    refine ⟨?_, fun hh => ?_⟩
    · have h2 := hi
      simp only [settle, hu, if_false, ht] at h2
      exact h2
    · have := settle_written d snap v i hi hu (hw hu) (by rw [ht]; exact hh)
      rw [this, ht]

/-- An entry the snapshot does not have, for which the walk function of
`resetTimestamps` has returned nil. -/
theorem settle_new (d : Time) (snap : Snapshot) (v : Visit) (i : Inode)
    (hi : i.stat = settle d snap v)
    (hw : ¬ v.judgedUnchanged snap →
      (target d snap v.path).Atime.WF ∧ (target d snap v.path).Mtime.WF)
    (hs : snap.get v.path = none) :
    i.stat = ⟨v.inode.sb.truncate (toTimespec d), v.inode.sb.truncate (toTimespec d)⟩ ∧
    (v.inode.holds ⟨d, d⟩ → i.timestamps = ⟨d, d⟩) := by
  have hu : ¬ v.judgedUnchanged snap := by
    unfold Visit.judgedUnchanged
    rw [hs]
    simp
  have ht : target d snap v.path = ⟨d, d⟩ := by simp only [target, hs]
  refine ⟨?_, fun hh => ?_⟩
  · simp only [settle, hu, if_false, ht] at hi
    exact hi
  · have := settle_written d snap v i hi hu (hw hu) (by rw [ht]; exact hh)
    rw [this, ht]

/-- An entry that can be brought to the timestamps aimed at holds them once the
walk function of `resetTimestamps` has returned nil for it. -/
theorem settle_pinnable (d : Time) (snap : Snapshot) (v : Visit) (i : Inode)
    (hi : i.stat = settle d snap v)
    (hw : ¬ v.judgedUnchanged snap →
      (target d snap v.path).Atime.WF ∧ (target d snap v.path).Mtime.WF)
    (hp : v.pinnable d snap) : i.timestamps = target d snap v.path := by
  by_cases hu : v.judgedUnchanged snap
  · have h1 := (settle_skipped d snap v i hi hu).2 (hp.2 hu)
    have h2 : snap.get v.path = some v.inode.timestamps := hu
    rw [h1]
    simp only [target, h2]
  · exact settle_written d snap v i hi hu (hw hu) hp.1


/-! ## The restore pass: claims C1 to C4 -/

/-- C1 as stated fails in four ways, each on the tree of `TestRegisterDir`
restored from its own snapshot after a command.  A directory the command made
unreadable is in the snapshot, still exists, and is left with the command's
timestamps while `resetTimestamps` returns nil.  When the write on `subdir`
fails, `resetTimestamps` returns its error and `test.txt`, which comes later,
keeps the command's modification time.  On the unchanged tree, the walk's own
read moves the access time of `subdir` and no write follows.  And a `test.txt`
that now lives on ext3 reads back its modification time without the
nanoseconds of the snapshot. -/
theorem pinning_exceptions :
    (exSnapshot.get "/tmp/t/subdir" = some (exInode 101 101).timestamps ∧
      exSnapshot.get "/tmp/t/test.txt" = some (exInode 102 102).timestamps) ∧
    ((resetTimestamps "/tmp/t" ⟨0, 0⟩ exSnapshot exUnreadable).err = none ∧
      ("/tmp/t/subdir", exInode 400 400) ∈
        (resetTimestamps "/tmp/t" ⟨0, 0⟩ exSnapshot exUnreadable).fs.listing "/tmp/t" ∧
      (exInode 400 400).timestamps ≠ (exInode 101 101).timestamps) ∧
    ((resetTimestamps "/tmp/t" ⟨0, 0⟩ exSnapshot exDenied).err = some 1 ∧
      ("/tmp/t/test.txt", exInode 102 200) ∈
        (resetTimestamps "/tmp/t" ⟨0, 0⟩ exSnapshot exDenied).fs.listing "/tmp/t" ∧
      (exInode 102 200).timestamps ≠ (exInode 102 102).timestamps) ∧
    ((resetTimestamps "/tmp/t" ⟨0, 0⟩ exSnapshot exBefore).err = none ∧
      ("/tmp/t/subdir", exInode 900 101) ∈
        (resetTimestamps "/tmp/t" ⟨0, 0⟩ exSnapshot exBefore).fs.listing "/tmp/t" ∧
      (exInode 900 101).timestamps ≠ (exInode 101 101).timestamps) ∧
    ((resetTimestamps "/tmp/t" ⟨0, 0⟩ exSnapshot exCoarse).err = none ∧
      ("/tmp/t/test.txt", (⟨⟨⟨102, 0⟩, ⟨102, 0⟩⟩, none, none, ext3⟩ : Inode)) ∈
        (resetTimestamps "/tmp/t" ⟨0, 0⟩ exSnapshot exCoarse).fs.listing "/tmp/t" ∧
      (⟨⟨⟨102, 0⟩, ⟨102, 0⟩⟩, none, none, ext3⟩ : Inode).timestamps
        ≠ (exInode 102 102).timestamps) ∧
    ¬ (∀ q ∈ (resetTimestamps "/tmp/t" ⟨0, 0⟩ exSnapshot exBefore).fs.listing "/tmp/t",
        exSnapshot.get q.1 = none ∨ exSnapshot.get q.1 = some q.2.timestamps) := by
  decide

/-- C1, pinning invariant (amended): for every snapshot, fallback timestamp and
post-command tree, `resetTimestamps` returns nil exactly when the walk function
returns nil for every entry it is handed without an error, that is, when no
timestamp write it makes fails; it does so when no timestamp write can fail
and fallback and snapshot hold well-formed times (as a snapshot of
`registerDir` does).  And for every entry `v` the walk function is handed
without an error, such that no write fails for `v` or for an entry handed to it
before `v`, the result has at the place of `v` in walk order an entry with the
path of `v`, and if the snapshot has that path: when `lstat` finds a pair other
than the snapshot's, the entry holds the snapshot's pair as its filesystem
stores it (seconds clamped to its range, nanoseconds cut to its granularity),
so that where the filesystem stores the pair as given the entry ends with
exactly the snapshot's pair, both fields, whatever pair it had and whatever its
content; when `lstat` finds the snapshot's pair, the entry keeps its
modification time, and keeps the whole pair when the walk's own read does not
move its access time. -/
theorem pinning_invariant (dir : String) (d : Time) (snap : Snapshot) (fs : Node) :
    ((resetTimestamps dir d snap fs).err = none ↔
      ∀ v ∈ fs.visitsFrom dir, v.writeErr d snap = none) ∧
    ((∀ q ∈ fs.listing dir, q.2.utimesErr = none) → d.WF → snap.WF →
      (resetTimestamps dir d snap fs).err = none) ∧
    (∀ pre v post, fs.visitsFrom dir = pre ++ v :: post →
      (∀ u ∈ pre, u.writeErr d snap = none) → v.writeErr d snap = none →
      ∃ q, ((resetTimestamps dir d snap fs).fs.visitedFrom dir)[pre.length]? = some q ∧
        q.1 = v.path ∧
        ∀ ts, snap.get v.path = some ts →
          (v.inode.timestamps ≠ ts →
            q.2.stat = ⟨v.inode.sb.truncate (toTimespec ts.Atime),
              v.inode.sb.truncate (toTimespec ts.Mtime)⟩ ∧
            (v.inode.holds ts → q.2.timestamps = ts)) ∧
          (v.inode.timestamps = ts →
            q.2.timestamps.Mtime = ts.Mtime ∧ (v.moved = none → q.2.timestamps = ts))) := by
  refine ⟨?_, fun hw hd hs => resetTimestamps_writable dir d snap fs hd hs hw, ?_⟩
  · rw [(resetTimestamps_run dir d snap fs).1]
    exact firstWriteErr_eq_none d snap _
  · intro pre v post hsplit hpre hv
    obtain ⟨q, hq, hp, hs, _⟩ := resetTimestamps_reached dir d snap fs pre v post hsplit hpre
    refine ⟨q, hq, hp, fun ts hts => ?_⟩
    obtain ⟨h1, h2⟩ := settle_pinned d snap v q.2 (hs hv)
      (fun hu => writeErr_none_WF d snap v hv hu) ts hts
    exact ⟨h2, h1⟩

/-- The pinning invariant on the tree `exAfter`, restored from the snapshot of
`exBefore`: the directory `subdir`, whose access time alone had moved, is back
at its recorded pair; and on `exDenied`, where the write on `subdir` fails, the
root before it is in the result with the snapshot's modification time. -/
theorem pinning_invariant_witness :
    (∀ q ∈ exAfter.listing "/tmp/t", q.2.utimesErr = none) ∧
    (resetTimestamps "/tmp/t" ⟨0, 0⟩ exSnapshot exAfter).err = none ∧
    exAfter.visitsFrom "/tmp/t"
      = [⟨"/tmp/t", exInode 100 200, some exNow⟩, ⟨"/tmp/t/new.txt", exInode 200 200, none⟩]
        ++ ⟨"/tmp/t/subdir", exInode 150 101, some exNow⟩
          :: [⟨"/tmp/t/test.txt", exInode 102 200, none⟩] ∧
    exSnapshot.get "/tmp/t/subdir" = some (exInode 101 101).timestamps ∧
    (∃ q, ((resetTimestamps "/tmp/t" ⟨0, 0⟩ exSnapshot exAfter).fs.visitedFrom "/tmp/t")[2]?
        = some q ∧
      q.1 = "/tmp/t/subdir" ∧ q.2.timestamps = (exInode 101 101).timestamps) ∧
    ("/tmp/t/subdir", exInode 101 101) ∈
      (resetTimestamps "/tmp/t" ⟨0, 0⟩ exSnapshot exAfter).fs.visitedFrom "/tmp/t" ∧
    ((resetTimestamps "/tmp/t" ⟨0, 0⟩ exSnapshot exDenied).err = some 1 ∧
      ∃ q, ((resetTimestamps "/tmp/t" ⟨0, 0⟩ exSnapshot exDenied).fs.visitedFrom "/tmp/t")[0]?
          = some q ∧
        q.1 = "/tmp/t" ∧ q.2.timestamps.Mtime = (exInode 100 100).timestamps.Mtime) :=
  ⟨by decide,
    (pinning_invariant "/tmp/t" ⟨0, 0⟩ exSnapshot exAfter).2.1
      (by decide) (by decide) (registerDir_WF "/tmp/t" exBefore),
    by decide, by decide,
    by
      obtain ⟨q, hq, hp, hr⟩ := (pinning_invariant "/tmp/t" ⟨0, 0⟩ exSnapshot exAfter).2.2
        [⟨"/tmp/t", exInode 100 200, some exNow⟩, ⟨"/tmp/t/new.txt", exInode 200 200, none⟩]
        ⟨"/tmp/t/subdir", exInode 150 101, some exNow⟩
        [⟨"/tmp/t/test.txt", exInode 102 200, none⟩] (by decide) (by decide) (by decide)
      exact ⟨q, hq, hp,
        ((hr (exInode 101 101).timestamps (by decide)).1 (by decide)).2 (by decide)⟩,
    by decide,
    by decide,
    by
      obtain ⟨q, hq, hp, hr⟩ := (pinning_invariant "/tmp/t" ⟨0, 0⟩ exSnapshot exDenied).2.2
        [] ⟨"/tmp/t", exInode 100 100, some exNow⟩
        [⟨"/tmp/t/subdir", ⟨⟨⟨150, 0⟩, ⟨101, 500⟩⟩, none, some 1, ext4⟩, some exNow⟩,
          ⟨"/tmp/t/test.txt", exInode 102 200, none⟩]
        (by decide) (by decide) (by decide)
      exact ⟨q, hq, hp, ((hr (exInode 100 100).timestamps (by decide)).2 (by decide)).1⟩⟩

/-- C2 as stated fails in two ways.  In a directory where the command created
`a.txt`, whose timestamps cannot be written, `a.txt` is visited, has no entry
in the snapshot, and keeps the command's timestamps, not the fallback.  And
with `SOURCE_DATE_EPOCH=1099511627776` the new file of
`TestResetTimestampsNewFile`, on ext4, ends at 15032385535 seconds, the
largest time ext4 stores. -/
theorem new_file_not_at_fallback :
    ((registerDir "/tmp/t" exEmpty).timestamps.get "/tmp/t/a.txt" = none ∧
      (⟨"/tmp/t/a.txt", ⟨⟨⟨200, 0⟩, ⟨200, 0⟩⟩, none, some 1, ext4⟩, none⟩ : Visit) ∈
        exWriteFails.visitsFrom "/tmp/t" ∧
      (resetTimestamps "/tmp/t" ⟨0, 0⟩ (registerDir "/tmp/t" exEmpty).timestamps
        exWriteFails).err = some 1 ∧
      ("/tmp/t/a.txt", (⟨⟨⟨200, 0⟩, ⟨200, 0⟩⟩, none, some 1, ext4⟩ : Inode)) ∈
        (resetTimestamps "/tmp/t" ⟨0, 0⟩ (registerDir "/tmp/t" exEmpty).timestamps
          exWriteFails).fs.listing "/tmp/t") ∧
    ((registerDir "/tmp/t" exEmpty).timestamps.get "/tmp/t/new.txt" = none ∧
      defaultTimestamp (Getenv (some "1099511627776")) = ⟨1099511627776, 0⟩ ∧
      (resetTimestamps "/tmp/t" ⟨1099511627776, 0⟩ (registerDir "/tmp/t" exEmpty).timestamps
        exNewFile).err = none ∧
      ("/tmp/t/new.txt", (⟨⟨⟨15032385535, 0⟩, ⟨15032385535, 0⟩⟩, none, none, ext4⟩ : Inode)) ∈
        (resetTimestamps "/tmp/t" ⟨1099511627776, 0⟩ (registerDir "/tmp/t" exEmpty).timestamps
          exNewFile).fs.visitedFrom "/tmp/t" ∧
      (⟨⟨⟨15032385535, 0⟩, ⟨15032385535, 0⟩⟩, none, none, ext4⟩ : Inode).timestamps.Mtime
        ≠ ⟨1099511627776, 0⟩) := by
  decide

/-- C2, new-file fallback (amended): for every snapshot, fallback timestamp `d`
and post-command tree, `resetTimestamps` returns nil exactly when no timestamp
write it makes fails, as it does when no timestamp write can fail and `d` and
the snapshot hold well-formed times.  And for every entry `v` the walk function
is handed without an error, such that no write fails for `v` or for an entry
handed to it before `v`, the result has at the place of `v` in walk order an
entry with the path of `v`, and if that path has no entry in the snapshot, the
entry holds, as access time and as modification time, `d` as the entry's
filesystem stores it (seconds clamped to its range, nanoseconds cut to its
granularity): exactly `d` for both when the filesystem stores `d` as given. -/
theorem new_file_fallback (dir : String) (d : Time) (snap : Snapshot) (fs : Node) :
    ((resetTimestamps dir d snap fs).err = none ↔
      ∀ v ∈ fs.visitsFrom dir, v.writeErr d snap = none) ∧
    ((∀ q ∈ fs.listing dir, q.2.utimesErr = none) → d.WF → snap.WF →
      (resetTimestamps dir d snap fs).err = none) ∧
    (∀ pre v post, fs.visitsFrom dir = pre ++ v :: post →
      (∀ u ∈ pre, u.writeErr d snap = none) → v.writeErr d snap = none →
      ∃ q, ((resetTimestamps dir d snap fs).fs.visitedFrom dir)[pre.length]? = some q ∧
        q.1 = v.path ∧
        (snap.get v.path = none →
          q.2.stat = ⟨v.inode.sb.truncate (toTimespec d), v.inode.sb.truncate (toTimespec d)⟩ ∧
          (v.inode.holds ⟨d, d⟩ → q.2.timestamps.Atime = d ∧ q.2.timestamps.Mtime = d))) := by
  refine ⟨?_, fun hw hd hs => resetTimestamps_writable dir d snap fs hd hs hw, ?_⟩
  · rw [(resetTimestamps_run dir d snap fs).1]
    exact firstWriteErr_eq_none d snap _
  · intro pre v post hsplit hpre hv
    obtain ⟨q, hq, hp, hs, _⟩ := resetTimestamps_reached dir d snap fs pre v post hsplit hpre
    refine ⟨q, hq, hp, fun hnone => ?_⟩
    obtain ⟨h1, h2⟩ := settle_new d snap v q.2 (hs hv)
      (fun hu => writeErr_none_WF d snap v hv hu) hnone
    refine ⟨h1, fun hh => ?_⟩
    rw [h2 hh]
    exact ⟨rfl, rfl⟩

/-- The new-file fallback on `TestResetTimestampsNewFile`: `new.txt`, created
after the scan, ends at `time.Unix(1234567890, 0)`. -/
theorem new_file_fallback_witness :
    (∀ q ∈ exNewFile.listing "/tmp/t", q.2.utimesErr = none) ∧
    (resetTimestamps "/tmp/t" (timeUnix 1234567890 0) (registerDir "/tmp/t" exEmpty).timestamps
      exNewFile).err = none ∧
    exNewFile.visitsFrom "/tmp/t"
      = [⟨"/tmp/t", exInode 100 200, some exNow⟩]
        ++ ⟨"/tmp/t/new.txt", exInode 200 200, none⟩ :: [] ∧
    (registerDir "/tmp/t" exEmpty).timestamps.get "/tmp/t/new.txt" = none ∧
    (∃ q, ((resetTimestamps "/tmp/t" (timeUnix 1234567890 0)
        (registerDir "/tmp/t" exEmpty).timestamps exNewFile).fs.visitedFrom "/tmp/t")[1]?
        = some q ∧
      q.1 = "/tmp/t/new.txt" ∧ q.2.timestamps.Atime = timeUnix 1234567890 0 ∧
        q.2.timestamps.Mtime = timeUnix 1234567890 0) ∧
    ("/tmp/t/new.txt", (⟨⟨⟨1234567890, 0⟩, ⟨1234567890, 0⟩⟩, none, none, ext4⟩ : Inode)) ∈
      (resetTimestamps "/tmp/t" (timeUnix 1234567890 0)
        (registerDir "/tmp/t" exEmpty).timestamps exNewFile).fs.visitedFrom "/tmp/t" :=
  ⟨by decide,
    (new_file_fallback "/tmp/t" (timeUnix 1234567890 0)
      (registerDir "/tmp/t" exEmpty).timestamps exNewFile).2.1
      (by decide) (timeUnix_WF _ _) (registerDir_WF "/tmp/t" exEmpty),
    by decide, by decide,
    by
      obtain ⟨q, hq, hp, hr⟩ := (new_file_fallback "/tmp/t" (timeUnix 1234567890 0)
          (registerDir "/tmp/t" exEmpty).timestamps exNewFile).2.2
        [⟨"/tmp/t", exInode 100 200, some exNow⟩] ⟨"/tmp/t/new.txt", exInode 200 200, none⟩ []
        (by decide) (by decide) (by decide)
      exact ⟨q, hq, hp, (hr (by decide)).2 (by decide)⟩,
    by decide⟩

/-- C3 as stated fails in four ways, each for two trees with the same paths,
restored from the snapshot of `exBefore`.  Where `subdir` has the snapshot's
pair, the walk's read moves its access time and no write follows, while a
`subdir` with another pair is written: 900 against 101.  Where `subdir` cannot
be written in either tree and has the snapshot's pair in one of them only, the
write is attempted in the other tree only, `resetTimestamps` stops there with
its error, and `test.txt` is restored in one tree only.  Where `subdir` is
unreadable in one tree only, it is restored in the other tree only.  And a new
file ends at the fallback on btrfs and at 15032385535 on ext4. -/
theorem two_runs_differ :
    ((exAfter.listing "/tmp/t").map Prod.fst = (exAfter3.listing "/tmp/t").map Prod.fst ∧
      (resetTimestamps "/tmp/t" ⟨0, 0⟩ exSnapshot exAfter).err = none ∧
      (resetTimestamps "/tmp/t" ⟨0, 0⟩ exSnapshot exAfter3).err = none ∧
      ("/tmp/t/subdir", exInode 101 101) ∈
        (resetTimestamps "/tmp/t" ⟨0, 0⟩ exSnapshot exAfter).fs.listing "/tmp/t" ∧
      ("/tmp/t/subdir", exInode 900 101) ∈
        (resetTimestamps "/tmp/t" ⟨0, 0⟩ exSnapshot exAfter3).fs.listing "/tmp/t") ∧
    ((exDenied.listing "/tmp/t").map (fun q => (q.1, q.2.lstatErr, q.2.utimesErr))
        = (exDenied2.listing "/tmp/t").map (fun q => (q.1, q.2.lstatErr, q.2.utimesErr)) ∧
      (resetTimestamps "/tmp/t" ⟨0, 0⟩ exSnapshot exDenied).err = some 1 ∧
      (resetTimestamps "/tmp/t" ⟨0, 0⟩ exSnapshot exDenied2).err = none ∧
      ("/tmp/t/test.txt", exInode 102 200) ∈
        (resetTimestamps "/tmp/t" ⟨0, 0⟩ exSnapshot exDenied).fs.listing "/tmp/t" ∧
      ("/tmp/t/test.txt", exInode 102 102) ∈
        (resetTimestamps "/tmp/t" ⟨0, 0⟩ exSnapshot exDenied2).fs.listing "/tmp/t") ∧
    ((exRewritten.listing "/tmp/t").map Prod.fst
        = (exUnreadable.listing "/tmp/t").map Prod.fst ∧
      (resetTimestamps "/tmp/t" ⟨0, 0⟩ exSnapshot exRewritten).err = none ∧
      (resetTimestamps "/tmp/t" ⟨0, 0⟩ exSnapshot exUnreadable).err = none ∧
      ("/tmp/t/subdir", exInode 101 101) ∈
        (resetTimestamps "/tmp/t" ⟨0, 0⟩ exSnapshot exRewritten).fs.listing "/tmp/t" ∧
      ("/tmp/t/subdir", exInode 400 400) ∈
        (resetTimestamps "/tmp/t" ⟨0, 0⟩ exSnapshot exUnreadable).fs.listing "/tmp/t") ∧
    ((exAfter.listing "/tmp/t").map Prod.fst = (exAfter4.listing "/tmp/t").map Prod.fst ∧
      (resetTimestamps "/tmp/t" ⟨1099511627776, 0⟩ exSnapshot exAfter).err = none ∧
      (resetTimestamps "/tmp/t" ⟨1099511627776, 0⟩ exSnapshot exAfter4).err = none ∧
      ("/tmp/t/new.txt", (⟨⟨⟨15032385535, 0⟩, ⟨15032385535, 0⟩⟩, none, none, ext4⟩ : Inode)) ∈
        (resetTimestamps "/tmp/t" ⟨1099511627776, 0⟩ exSnapshot exAfter).fs.listing "/tmp/t" ∧
      ("/tmp/t/new.txt",
          (⟨⟨⟨1099511627776, 0⟩, ⟨1099511627776, 0⟩⟩, none, none, btrfs⟩ : Inode)) ∈
        (resetTimestamps "/tmp/t" ⟨1099511627776, 0⟩ exSnapshot exAfter4).fs.listing
          "/tmp/t") := by
  refine ⟨by decide, by decide, by decide, by decide⟩

/-- C3, two-run determinism (amended): for every snapshot and fallback
timestamp, `resetTimestamps` returns nil on every tree on which no timestamp
write can fail (fallback and snapshot holding well-formed times).  On every
tree, for every entry `v` the walk function is handed without an error, such
that no write fails for `v` or for an entry handed to it before `v`, and that
can be brought to the timestamps aimed at (its filesystem stores them as given,
and the walk's own read does not move the access time of an entry found with
the snapshot's pair), the result has at the place of `v` in walk order an entry
with the path of `v` and the pair `target`, a function of the snapshot, the
fallback timestamp and the path alone.  So two trees on which
`resetTimestamps` returns nil, in which the walk function is handed the same
paths, every such entry one that can be brought to the timestamps aimed at,
end with the same pair path by path, whatever timestamps and contents they
had. -/
theorem two_run_determinism (dir : String) (d : Time) (snap : Snapshot) (fs1 fs2 : Node) :
    (∀ fs : Node, (∀ q ∈ fs.listing dir, q.2.utimesErr = none) → d.WF → snap.WF →
      (resetTimestamps dir d snap fs).err = none) ∧
    (∀ (fs : Node) pre v post, fs.visitsFrom dir = pre ++ v :: post →
      (∀ u ∈ pre, u.writeErr d snap = none) → v.writeErr d snap = none →
      v.pinnable d snap →
      ∃ q, ((resetTimestamps dir d snap fs).fs.visitedFrom dir)[pre.length]? = some q ∧
        q.1 = v.path ∧ q.2.timestamps = target d snap v.path) ∧
    ((resetTimestamps dir d snap fs1).err = none →
      (resetTimestamps dir d snap fs2).err = none →
      (fs1.visitsFrom dir).map Visit.path = (fs2.visitsFrom dir).map Visit.path →
      (∀ v ∈ fs1.visitsFrom dir, v.pinnable d snap) →
      (∀ v ∈ fs2.visitsFrom dir, v.pinnable d snap) →
      ((resetTimestamps dir d snap fs1).fs.visitedFrom dir).map (fun q => (q.1, q.2.timestamps))
        = ((resetTimestamps dir d snap fs2).fs.visitedFrom dir).map
            (fun q => (q.1, q.2.timestamps))) := by
  have one : ∀ fs : Node, (resetTimestamps dir d snap fs).err = none →
      List.Forall₂
        (fun v q => q.1 = v.path ∧
          (v.pinnable d snap → q.2.timestamps = target d snap v.path))
        (fs.visitsFrom dir) ((resetTimestamps dir d snap fs).fs.visitedFrom dir) := by
    intro fs hret
    refine (resetTimestamps_entries dir d snap fs hret).imp (fun v q hr => ?_)
    exact ⟨hr.1, fun hp => settle_pinnable d snap v q.2 hr.2.1 hr.2.2 hp⟩
  have all : ∀ (l1 : List Visit) (l2 : List (String × Inode)),
      List.Forall₂
        (fun v q => q.1 = v.path ∧
          (v.pinnable d snap → q.2.timestamps = target d snap v.path)) l1 l2 →
      (∀ v ∈ l1, v.pinnable d snap) →
      l2.map (fun q => (q.1, q.2.timestamps))
        = (l1.map Visit.path).map (fun p => (p, target d snap p)) := by
    intro l1 l2 h
    induction h with
    | nil => intro _; rfl
    | cons hab _ ih =>
      intro hp
      simp only [List.map_cons, List.cons.injEq, Prod.mk.injEq]
      exact ⟨⟨hab.1, hab.2 (hp _ (List.mem_cons_self _ _))⟩,
        ih (fun v hv => hp v (List.mem_cons_of_mem _ hv))⟩
  refine ⟨fun fs hw hd hs => resetTimestamps_writable dir d snap fs hd hs hw, ?_, ?_⟩
  · intro fs pre v post hsplit hpre hv hpin
    obtain ⟨q, hq, hp, hs, _⟩ := resetTimestamps_reached dir d snap fs pre v post hsplit hpre
    exact ⟨q, hq, hp, settle_pinnable d snap v q.2 (hs hv)
      (fun hu => writeErr_none_WF d snap v hv hu) hpin⟩
  · intro h1 h2 hpaths hp1 hp2
    rw [all _ _ (one fs1 h1) hp1, all _ _ (one fs2 h2) hp2, hpaths]

/-- Two runs on `exAfter` and `exAfter2`, which have the same paths and
different timestamps and contents, end with the same timestamps. -/
theorem two_run_determinism_witness :
    (exAfter.listing "/tmp/t").map (fun q => (q.1, q.2.timestamps))
      ≠ (exAfter2.listing "/tmp/t").map (fun q => (q.1, q.2.timestamps)) ∧
    (resetTimestamps "/tmp/t" ⟨0, 0⟩ exSnapshot exAfter).err = none ∧
    (resetTimestamps "/tmp/t" ⟨0, 0⟩ exSnapshot exAfter2).err = none ∧
    (exAfter.visitsFrom "/tmp/t").map Visit.path
      = (exAfter2.visitsFrom "/tmp/t").map Visit.path ∧
    (∀ v ∈ exAfter.visitsFrom "/tmp/t", v.pinnable ⟨0, 0⟩ exSnapshot) ∧
    (∀ v ∈ exAfter2.visitsFrom "/tmp/t", v.pinnable ⟨0, 0⟩ exSnapshot) ∧
    ((resetTimestamps "/tmp/t" ⟨0, 0⟩ exSnapshot exAfter).fs.visitedFrom "/tmp/t").map
        (fun q => (q.1, q.2.timestamps))
      = ((resetTimestamps "/tmp/t" ⟨0, 0⟩ exSnapshot exAfter2).fs.visitedFrom "/tmp/t").map
        (fun q => (q.1, q.2.timestamps)) ∧
    (∃ q, ((resetTimestamps "/tmp/t" ⟨0, 0⟩ exSnapshot exAfter2).fs.visitedFrom "/tmp/t")[0]?
        = some q ∧
      q.1 = "/tmp/t" ∧ q.2.timestamps = target ⟨0, 0⟩ exSnapshot "/tmp/t") :=
  ⟨by decide,
    (two_run_determinism "/tmp/t" ⟨0, 0⟩ exSnapshot exAfter exAfter2).1 exAfter
      (by decide) (by decide) (registerDir_WF "/tmp/t" exBefore),
    (two_run_determinism "/tmp/t" ⟨0, 0⟩ exSnapshot exAfter exAfter2).1 exAfter2
      (by decide) (by decide) (registerDir_WF "/tmp/t" exBefore),
    by decide, by decide, by decide,
    (two_run_determinism "/tmp/t" ⟨0, 0⟩ exSnapshot exAfter exAfter2).2.2
      (by decide) (by decide) (by decide) (by decide) (by decide),
    (two_run_determinism "/tmp/t" ⟨0, 0⟩ exSnapshot exAfter exAfter2).2.1 exAfter2
      [] ⟨"/tmp/t", exInode 300 301, some exNow⟩
      [⟨"/tmp/t/new.txt", exInode 302 303, none⟩,
        ⟨"/tmp/t/subdir", exInode 180 101, some exNow⟩,
        ⟨"/tmp/t/test.txt", exInode 304 305, none⟩]
      (by decide) (by decide) (by decide) (by decide)⟩

/-- C4 as stated fails: on the tree of `TestRegisterDir`, unchanged since its
snapshot, `resetTimestamps` makes no write and returns nil, and the walk's own
reads leave the root and `subdir` with a moved access time, not with the one of
the scan. -/
theorem noop_moves_atime :
    (∀ q ∈ exBefore.listing "/tmp/t", exSnapshot.get q.1 = some q.2.timestamps) ∧
    (resetTimestamps "/tmp/t" ⟨0, 0⟩ exSnapshot exBefore).calls = [] ∧
    (resetTimestamps "/tmp/t" ⟨0, 0⟩ exSnapshot exBefore).err = none ∧
    (resetTimestamps "/tmp/t" ⟨0, 0⟩ exSnapshot exBefore).fs.listing "/tmp/t"
      = [("/tmp/t", exInode 900 100), ("/tmp/t/subdir", exInode 900 101),
          ("/tmp/t/test.txt", exInode 102 102)] ∧
    (exInode 900 100).timestamps.Atime ≠ (exInode 100 100).timestamps.Atime ∧
    ¬ (∀ q ∈ (resetTimestamps "/tmp/t" ⟨0, 0⟩ exSnapshot exBefore).fs.listing "/tmp/t",
        exSnapshot.get q.1 = some q.2.timestamps) := by
  decide

/-- C4, no-op stability (amended): if every entry the walk function is handed
without an error is in the snapshot with the pair `lstat` finds,
`resetTimestamps` makes no `utimensat` call, logs no "found new file" and no
"fixing timestamp" line, returns nil, and leaves every entry of the tree
exactly as it was, except that a directory the walk has read holds the access
time that read gave it. -/
theorem noop_stability (dir : String) (d : Time) (snap : Snapshot) (fs : Node)
    (h : ∀ v ∈ fs.visitsFrom dir, snap.get v.path = some v.inode.timestamps) :
    (resetTimestamps dir d snap fs).calls = [] ∧
    (∀ p, LogLine.foundNewFile p ∉ (resetTimestamps dir d snap fs).log ∧
      LogLine.fixingTimestamp p ∉ (resetTimestamps dir d snap fs).log) ∧
    (resetTimestamps dir d snap fs).err = none ∧
    (resetTimestamps dir d snap fs).fs.listing dir
      = (fs.censusFrom dir).map (fun v => (v.path, v.inode.touch v.moved)) := by
  obtain ⟨herr, hcalls, hlog, hfs⟩ := resetTimestamps_unchanged dir d snap fs h
  refine ⟨hcalls, fun p => ⟨fun hm => ?_, fun hm => ?_⟩, herr, hfs⟩
  · exact absurd (hlog _ hm) (by simp [LogLine.isWarning])
  · exact absurd (hlog _ hm) (by simp [LogLine.isWarning])

/-- A restore pass over the unchanged tree `exBefore`: no call, `test.txt`
exactly as it was, the two directories with the access time of the walk's
read. -/
theorem noop_stability_witness :
    (∀ v ∈ exBefore.visitsFrom "/tmp/t", exSnapshot.get v.path = some v.inode.timestamps) ∧
    (resetTimestamps "/tmp/t" ⟨0, 0⟩ exSnapshot exBefore).calls = [] ∧
    (resetTimestamps "/tmp/t" ⟨0, 0⟩ exSnapshot exBefore).err = none ∧
    (resetTimestamps "/tmp/t" ⟨0, 0⟩ exSnapshot exBefore).fs.listing "/tmp/t"
      = [("/tmp/t", (exInode 100 100).touch (some exNow)),
          ("/tmp/t/subdir", (exInode 101 101).touch (some exNow)),
          ("/tmp/t/test.txt", exInode 102 102)] :=
  ⟨by decide,
    (noop_stability "/tmp/t" ⟨0, 0⟩ exSnapshot exBefore (by decide)).1,
    (noop_stability "/tmp/t" ⟨0, 0⟩ exSnapshot exBefore (by decide)).2.2.1,
    (noop_stability "/tmp/t" ⟨0, 0⟩ exSnapshot exBefore (by decide)).2.2.2.trans (by decide)⟩


/-! ## The fallback timestamp: claim C5 -/

theorem defaultTimestamp_ok (s : String) (n : Int) (h : ParseInt s = .ok n) :
    defaultTimestamp s = timeUnix n 0 := by
  unfold defaultTimestamp
  by_cases hs : s = ""
  · subst hs
    simp [ParseInt] at h
  · rw [if_pos hs, h]

theorem defaultTimestamp_error (s : String) (h : ∀ n, ParseInt s ≠ .ok n) :
    defaultTimestamp s = timeUnix 0 0 := by
  unfold defaultTimestamp
  split
  · cases hp : ParseInt s with
    | ok n => exact absurd hp (h n)
    | error e => rfl
  · rfl

/-- C5, fallback resolution: the fallback timestamp `main` computes from
`SOURCE_DATE_EPOCH` is the Unix epoch (zero seconds, zero nanoseconds) when the
variable is unset or empty or is not a base-10 signed 64-bit integer, and is
`n` seconds after the epoch with zero nanoseconds when the variable is such an
integer of value `n`; `1609459200` gives 1609459200 seconds after the epoch. -/
theorem fallback_resolution (env : Option String) :
    ((env = none ∨ env = some "") → defaultTimestamp (Getenv env) = ⟨0, 0⟩) ∧
    (∀ s, env = some s → decimalInt64 s = none → defaultTimestamp (Getenv env) = ⟨0, 0⟩) ∧
    (∀ s n, env = some s → decimalInt64 s = some n →
      defaultTimestamp (Getenv env) = timeUnix n 0 ∧
      (defaultTimestamp (Getenv env)).Unix = n ∧
      (defaultTimestamp (Getenv env)).Nanosecond = 0) ∧
    defaultTimestamp (Getenv (some "1609459200")) = ⟨1609459200, 0⟩ := by
  refine ⟨?_, ?_, ?_, by decide⟩
  · rintro (h | h) <;> subst h <;> rfl
  · intro s hs hnone
    subst hs
    simp only [Getenv, Option.getD_some]
    rw [defaultTimestamp_error s]
    · rfl
    · intro n hn
      rw [(ParseInt_eq s n).1 hn] at hnone
      simp at hnone
  · intro s n hs hsome
    subst hs
    simp only [Getenv, Option.getD_some]
    rw [defaultTimestamp_ok s n ((ParseInt_eq s n).2 hsome)]
    exact ⟨rfl, rfl, rfl⟩

/-- The fallback timestamp for `1609459200`, for a value that is no integer, and
for an unset variable. -/
theorem fallback_resolution_witness :
    decimalInt64 "1609459200" = some 1609459200 ∧
    decimalInt64 "tomorrow" = none ∧
    defaultTimestamp (Getenv (some "1609459200")) = timeUnix 1609459200 0 ∧
    defaultTimestamp (Getenv (some "tomorrow")) = ⟨0, 0⟩ ∧
    defaultTimestamp (Getenv none) = ⟨0, 0⟩ :=
  ⟨by decide, by decide,
    ((fallback_resolution (some "1609459200")).2.2.1 "1609459200" 1609459200 rfl
      (by decide)).1,
    (fallback_resolution (some "tomorrow")).2.1 "tomorrow" rfl (by decide),
    (fallback_resolution none).1 (Or.inl rfl)⟩


/-! ## The pipeline of `main`: claim C6 -/

/-- C6, a failing command aborts the pipeline: whenever `executeCommand`
returns an error, `main` ends with status 1 after the fatal line
"Command failed", `resetTimestamps` is not called, no `utimensat` call is made
and the filesystem is the one the command left (the command having run on the
tree as the scan left it); `resetTimestamps` is called only after `registerDir`
and an `executeCommand` that returned nil. -/
theorem command_failure_aborts (changeDir : Bool) (args : List String) (w : World) :
    (∀ e, StageCall.executeCommand (some e) ∈ (main changeDir args w).stages →
      (main changeDir args w).exit = 1 ∧
      StageCall.resetTimestamps ∉ (main changeDir args w).stages ∧
      (main changeDir args w).calls = [] ∧
      LogLine.resetting ∉ (main changeDir args w).log ∧
      LogLine.fatalCommand e ∈ (main changeDir args w).log) ∧
    (∀ dir c0 cs e, args = dir :: c0 :: cs → osStat w.fs = .ok true →
      (executeCommand w (c0 :: cs) (if changeDir then dir else "")
        (registerDir dir w.fs).fs).2 = some e →
      (main changeDir args w).fs
        = (executeCommand w (c0 :: cs) (if changeDir then dir else "")
            (registerDir dir w.fs).fs).1 ∧
      (main changeDir args w).exit = 1 ∧
      (main changeDir args w).stages = [.registerDir, .executeCommand (some e)]) ∧
    (StageCall.resetTimestamps ∈ (main changeDir args w).stages →
      (main changeDir args w).stages
        = [.registerDir, .executeCommand none, .resetTimestamps]) := by
  refine ⟨?_, ?_, ?_⟩
  · intro e he
    have hwarn : ∀ dir, ∀ l ∈ (registerDir dir w.fs).log, l.isWarning = true :=
      fun dir => (registerDir_eq dir w.fs).2.2
    unfold main at he ⊢
    split at he
    · rename_i dir c0 cs
      simp only at he ⊢
      split at he
      · simp at he
      · simp at he
      · split at he
        · simp at he
        · split at he
          · simp only [List.mem_cons, StageCall.executeCommand.injEq, Option.some.injEq,
              List.mem_singleton, reduceCtorEq, false_or, List.not_mem_nil, or_false] at he
            subst he
            refine ⟨rfl, by simp, rfl, ?_, by simp⟩
            intro hm
            simp only [List.mem_append, List.mem_cons, List.mem_singleton, reduceCtorEq,
              List.not_mem_nil, or_false, false_or] at hm
            have := hwarn dir _ hm
            simp [LogLine.isWarning] at this
          · split at he <;> simp at he
    · simp at he
  · intro dir c0 cs e hargs hstat hrun
    subst hargs
    have hscan := (registerDir_eq dir w.fs).1
    simp only [main, hstat, hscan, hrun]
    exact ⟨trivial, trivial, trivial⟩
  · intro he
    unfold main at he ⊢
    split at he
    · simp only at he ⊢
      split at he
      · simp at he
      · simp at he
      · split at he
        · simp at he
        · split at he
          · simp at he
          · split <;> rfl
    · simp at he

/-- A run of `main` whose command fails after rewriting the tree, and a run
whose command succeeds. -/
theorem command_failure_aborts_witness :
    (osStat exFailingWorld.fs = .ok true ∧
      (executeCommand exFailingWorld ["make"] ""
        (registerDir "/tmp/t" exFailingWorld.fs).fs).2 = some 1 ∧
      (main false ["/tmp/t", "make"] exFailingWorld).fs = exAfter ∧
      (main false ["/tmp/t", "make"] exFailingWorld).exit = 1 ∧
      (main false ["/tmp/t", "make"] exFailingWorld).stages
        = [.registerDir, .executeCommand (some 1)]) ∧
    (StageCall.resetTimestamps ∈ (main false ["/tmp/t", "make"] exWorld).stages ∧
      (main false ["/tmp/t", "make"] exWorld).stages
        = [.registerDir, .executeCommand none, .resetTimestamps]) :=
  ⟨⟨rfl, rfl,
    (command_failure_aborts false ["/tmp/t", "make"] exFailingWorld).2.1
      "/tmp/t" "make" [] 1 rfl rfl rfl⟩,
    by decide,
    (command_failure_aborts false ["/tmp/t", "make"] exWorld).2.2 (by decide)⟩


/-! ## The scan: claim C7 -/

/-- C7 as stated fails on a relative root: the tree of `TestRegisterDir`
scanned as `proj` gives three keys, none of them an absolute path. -/
theorem snapshot_keys_relative :
    exBefore.accessible = true ∧
    (registerDir "proj" exBefore).err = none ∧
    (registerDir "proj" exBefore).timestamps.keys = ["proj", "proj/subdir", "proj/test.txt"] ∧
    (∀ k ∈ (registerDir "proj" exBefore).timestamps.keys, IsAbs k = false) ∧
    ¬ (∀ k ∈ (registerDir "proj" exBefore).timestamps.keys, IsAbs k = true) := by
  decide

/-- C7, snapshot completeness (amended): for every root path and every tree
with `N` entries, all accessible, whose names are those a directory can hold
(not empty, without a slash, not `.` or `..`, no name twice in a directory),
`registerDir` returns nil and a snapshot with exactly `N` keys, pairwise
distinct: the paths of the entries in walk order, as the walk forms them (the
root path as given, joined with the names below it), each mapped to the
entry's own pair of access and modification time; the keys are absolute paths
when the root path is absolute, and relative paths when it is not. -/
theorem snapshot_completeness (dir : String) (fs : Node) (hacc : fs.accessible = true)
    (hnames : fs.wellNamed = true) :
    (registerDir dir fs).err = none ∧
    (registerDir dir fs).timestamps.length = (fs.listing dir).length ∧
    (registerDir dir fs).timestamps.keys = (fs.listing dir).map Prod.fst ∧
    (registerDir dir fs).timestamps.keys.Nodup ∧
    (∀ q ∈ fs.listing dir, (registerDir dir fs).timestamps.get q.1 = some q.2.timestamps) ∧
    (IsAbs dir = true → ∀ k ∈ (registerDir dir fs).timestamps.keys, IsAbs k = true) ∧
    (IsAbs dir = false → ∀ k ∈ (registerDir dir fs).timestamps.keys, IsAbs k = false) := by
  have hn := listing_nodup dir fs hnames
  obtain ⟨herr, hts, _⟩ := registerDir_eq dir fs
  rw [visitedFrom_of_accessible dir fs hacc] at hts
  have hkeys : (registerDir dir fs).timestamps.keys = (fs.listing dir).map Prod.fst := by
    rw [hts, record_keys _ _ (by simpa [Snapshot.keys] using hn)]
    simp [Snapshot.keys]
  refine ⟨herr, ?_, hkeys, by rw [hkeys]; exact hn, ?_, ?_, ?_⟩
  · have := congrArg List.length hkeys
    simpa [Snapshot.keys] using this
  · intro q hq
    rw [hts]
    exact record_get_of_mem _ _ hn q.1 q.2 hq
  · intro habs k hk
    rw [hkeys] at hk
    obtain ⟨q, hq, rfl⟩ := List.mem_map.1 hk
    exact listing_IsAbs dir habs fs q hq
  · intro hrel k hk
    rw [hkeys] at hk
    obtain ⟨q, hq, rfl⟩ := List.mem_map.1 hk
    exact listing_relative dir hrel fs hnames q hq

/-- The snapshot of `TestRegisterDir`: three keys, one of them `test.txt`; and
the same tree scanned as `proj/`, a relative root path that is not clean. -/
theorem snapshot_completeness_witness :
    exBefore.accessible = true ∧
    exBefore.wellNamed = true ∧
    (registerDir "/tmp/t" exBefore).timestamps.length = 3 ∧
    (registerDir "/tmp/t" exBefore).timestamps.get "/tmp/t/test.txt"
      = some (exInode 102 102).timestamps ∧
    (∀ k ∈ (registerDir "/tmp/t" exBefore).timestamps.keys, IsAbs k = true) ∧
    (registerDir "proj/" exBefore).timestamps.keys = ["proj/", "proj/subdir", "proj/test.txt"] ∧
    (registerDir "proj/" exBefore).timestamps.keys.Nodup ∧
    (∀ k ∈ (registerDir "proj/" exBefore).timestamps.keys, IsAbs k = false) :=
  ⟨by decide, by decide,
    (snapshot_completeness "/tmp/t" exBefore (by decide) (by decide)).2.1,
    (snapshot_completeness "/tmp/t" exBefore (by decide) (by decide)).2.2.2.2.1
      ("/tmp/t/test.txt", exInode 102 102) (by decide),
    (snapshot_completeness "/tmp/t" exBefore (by decide) (by decide)).2.2.2.2.2.1 (by decide),
    (snapshot_completeness "proj/" exBefore (by decide) (by decide)).2.2.1,
    (snapshot_completeness "proj/" exBefore (by decide) (by decide)).2.2.2.1,
    (snapshot_completeness "proj/" exBefore (by decide) (by decide)).2.2.2.2.2.2 (by decide)⟩


/-! ## A failing timestamp write: claim C8 -/

/-- C8 as stated fails: in a directory where the command created `a.txt`, whose
timestamps cannot be written, and `b.txt`, `resetTimestamps` returns the error
of the write on `a.txt`, logs no warning, makes no further call, and leaves
`b.txt`, which the walk would visit next and which is not in the snapshot, with
the timestamps the command gave it, not with the fallback timestamp; `main`
then ends with status 1. -/
theorem write_failure_not_tolerated :
    (resetTimestamps "/tmp/t" ⟨0, 0⟩ (registerDir "/tmp/t" exEmpty).timestamps
      exWriteFails).err = some 1 ∧
    (resetTimestamps "/tmp/t" ⟨0, 0⟩ (registerDir "/tmp/t" exEmpty).timestamps
      exWriteFails).log = [.foundNewFile "/tmp/t/a.txt"] ∧
    (resetTimestamps "/tmp/t" ⟨0, 0⟩ (registerDir "/tmp/t" exEmpty).timestamps
      exWriteFails).calls = [⟨"/tmp/t/a.txt", ⟨0, 0⟩, ⟨0, 0⟩, some 1⟩] ∧
    (exWriteFails.visitedFrom "/tmp/t").map Prod.fst
      = ["/tmp/t", "/tmp/t/a.txt", "/tmp/t/b.txt"] ∧
    (registerDir "/tmp/t" exEmpty).timestamps.get "/tmp/t/b.txt" = none ∧
    ("/tmp/t/b.txt", exInode 300 300) ∈
      (resetTimestamps "/tmp/t" ⟨0, 0⟩ (registerDir "/tmp/t" exEmpty).timestamps
        exWriteFails).fs.listing "/tmp/t" ∧
    (exInode 300 300).timestamps ≠ ⟨⟨0, 0⟩, ⟨0, 0⟩⟩ ∧
    (main false ["/tmp/t", "make"] exDeniedWorld).exit = 1 ∧
    (main false ["/tmp/t", "make"] exDeniedWorld).log
      = [.scanning, .found 1, .executing ["make"], .resetting,
          .foundNewFile "/tmp/t/a.txt", .fatalReset 1] := by
  decide

/-- C8, failure of a timestamp write (amended): when a `utimensat` call of
`resetTimestamps` fails, `resetTimestamps` returns that call's error and the
call is the last one made, every call before it having succeeded, so nothing
is written after it.  When `resetTimestamps` returns an error, the walk has
stopped at the first entry, in walk order, for which the write fails: the error
is that of the write, the entries handed to the walk function before it hold
what the walk function leaves them with (`settle`), the entry itself holds what
it had with its access time as the walk's read left it, and every entry after
it holds what it had.  A warning is logged only for an access failure, never
for the failed write.  And every entry of the tree is afterwards, entry by
entry, as it was, or as it was with its access time moved by the walk's own
read of it, or holds the timestamps of a successful call on its path as its
filesystem stores them. -/
theorem write_failure_aborts (dir : String) (d : Time) (snap : Snapshot) (fs : Node) :
    (∀ c ∈ (resetTimestamps dir d snap fs).calls, ∀ e, c.result = some e →
      (resetTimestamps dir d snap fs).err = some e ∧
      ∃ cs, (resetTimestamps dir d snap fs).calls = cs ++ [c] ∧ ∀ c0 ∈ cs, c0.result = none) ∧
    (∀ e, (resetTimestamps dir d snap fs).err = some e →
      (∃ c ∈ (resetTimestamps dir d snap fs).calls, c.result = some e) ∧
      ∃ pre v post, fs.visitsFrom dir = pre ++ v :: post ∧
        (∀ u ∈ pre, u.writeErr d snap = none) ∧ v.writeErr d snap = some e ∧
        ((resetTimestamps dir d snap fs).fs.visitedFrom dir).map (fun q => (q.1, q.2.stat))
          = pre.map (fun u => (u.path, settle d snap u))
            ++ (v.path, (v.inode.touch v.moved).stat)
              :: post.map (fun u => (u.path, u.inode.stat))) ∧
    (∀ p e, LogLine.warnAccess p e ∈ (resetTimestamps dir d snap fs).log →
      (p, e) ∈ fs.failuresFrom dir) ∧
    List.Forall₂
      (fun v q => q.1 = v.path ∧
        (q.2 = v.inode ∨ q.2 = v.inode.touch v.moved ∨
          ∃ c ∈ (resetTimestamps dir d snap fs).calls, c.path = q.1 ∧ c.result = none ∧
            q.2.stat = ⟨q.2.sb.truncate c.atime, q.2.sb.truncate c.mtime⟩))
      (fs.censusFrom dir) ((resetTimestamps dir d snap fs).fs.listing dir) := by
  refine ⟨?_, ?_, ?_, ?_⟩
  · intro c hc e hres
    have ht := resetTimestamps_trace dir d snap fs
    cases herr : (resetTimestamps dir d snap fs).err with
    | none =>
      rw [herr] at ht
      have := ht c hc
      rw [this] at hres
      simp at hres
    | some e1 =>
      rw [herr] at ht
      obtain ⟨cs, c1, hcs, hc1, hall⟩ := ht
      rw [hcs] at hc
      rcases List.mem_append.1 hc with hc | hc
      · have := hall c hc
        rw [this] at hres
        simp at hres
      · simp only [List.mem_singleton] at hc
        subst hc
        rw [hc1] at hres
        simp only [Option.some.injEq] at hres
        subst hres
        exact ⟨rfl, cs, hcs, hall⟩
  · intro e herr
    refine ⟨?_, ?_⟩
    · have ht := resetTimestamps_trace dir d snap fs
      rw [herr] at ht
      obtain ⟨cs, c, hcs, hc, _⟩ := ht
      exact ⟨c, by rw [hcs]; simp, hc⟩
    · obtain ⟨h1, h2⟩ := resetTimestamps_run dir d snap fs
      rw [h1] at herr
      obtain ⟨pre, v, post, hsplit, hpre, hv⟩ := (firstWriteErr_eq_some d snap _ e).1 herr
      refine ⟨pre, v, post, hsplit, hpre, hv, ?_⟩
      rw [h2, hsplit, restored_split d snap pre v post hpre, restored_cons, hv]
      rfl
  · intro p e h
    exact resetTimestamps_log dir d snap fs p e h
  · exact Walk_kept (resetTimestampsFn d snap) dir fs ⟨[], []⟩

/-- The failed write on `a.txt` is the error `resetTimestamps` returns, and
`b.txt`, which comes after it, holds what it had. -/
theorem write_failure_aborts_witness :
    (⟨"/tmp/t/a.txt", ⟨0, 0⟩, ⟨0, 0⟩, some 1⟩ : UtimesCall) ∈
      (resetTimestamps "/tmp/t" ⟨0, 0⟩ (registerDir "/tmp/t" exEmpty).timestamps
        exWriteFails).calls ∧
    (resetTimestamps "/tmp/t" ⟨0, 0⟩ (registerDir "/tmp/t" exEmpty).timestamps
      exWriteFails).err = some 1 ∧
    (∃ c ∈ (resetTimestamps "/tmp/t" ⟨0, 0⟩ (registerDir "/tmp/t" exEmpty).timestamps
        exWriteFails).calls, c.result = some 1) ∧
    ((resetTimestamps "/tmp/t" ⟨0, 0⟩ (registerDir "/tmp/t" exEmpty).timestamps
        exWriteFails).fs.visitedFrom "/tmp/t").map (fun q => (q.1, q.2.stat))
      = [("/tmp/t", (exInode 900 100).stat),
          ("/tmp/t/a.txt", ⟨⟨200, 0⟩, ⟨200, 0⟩⟩),
          ("/tmp/t/b.txt", (exInode 300 300).stat)] :=
  ⟨by decide,
    ((write_failure_aborts "/tmp/t" ⟨0, 0⟩ (registerDir "/tmp/t" exEmpty).timestamps
      exWriteFails).1 ⟨"/tmp/t/a.txt", ⟨0, 0⟩, ⟨0, 0⟩, some 1⟩ (by decide) 1 rfl).1,
    ((write_failure_aborts "/tmp/t" ⟨0, 0⟩ (registerDir "/tmp/t" exEmpty).timestamps
      exWriteFails).2.1 1 (by decide)).1,
    by decide⟩


/-! ## Inaccessible entries: claim C9 -/

/-- C9 as stated fails in its last clause.  The scan of `exBlocked` skips
`gone`; when `gone` is back and accessible during the restore walk but its
timestamps cannot be written, `resetTimestamps` returns the error of the write
and `gone` keeps the timestamps it has, not the fallback; and with the
fallback 1099511627776 a writable `gone`, on ext4, ends at 15032385535
seconds. -/
theorem skipped_path_not_reset :
    "/tmp/t/gone" ∈ (exBlocked.skippedFrom "/tmp/t").map Prod.fst ∧
    (registerDir "/tmp/t" exBlocked).err = none ∧
    (registerDir "/tmp/t" exBlocked).timestamps.get "/tmp/t/gone" = none ∧
    ("/tmp/t/gone" ∈ (exBlockedDenied.visitedFrom "/tmp/t").map Prod.fst ∧
      (resetTimestamps "/tmp/t" ⟨0, 0⟩ (registerDir "/tmp/t" exBlocked).timestamps
        exBlockedDenied).err = some 1 ∧
      ("/tmp/t/gone", (⟨⟨⟨130, 0⟩, ⟨130, 500⟩⟩, none, some 1, ext4⟩ : Inode)) ∈
        (resetTimestamps "/tmp/t" ⟨0, 0⟩ (registerDir "/tmp/t" exBlocked).timestamps
          exBlockedDenied).fs.listing "/tmp/t" ∧
      (⟨⟨⟨130, 0⟩, ⟨130, 500⟩⟩, none, some 1, ext4⟩ : Inode).timestamps ≠ ⟨⟨0, 0⟩, ⟨0, 0⟩⟩) ∧
    ("/tmp/t/gone" ∈ (exBlockedLater.visitedFrom "/tmp/t").map Prod.fst ∧
      (resetTimestamps "/tmp/t" ⟨1099511627776, 0⟩ (registerDir "/tmp/t" exBlocked).timestamps
        exBlockedLater).err = none ∧
      ("/tmp/t/gone", (⟨⟨⟨15032385535, 0⟩, ⟨15032385535, 0⟩⟩, none, none, ext4⟩ : Inode)) ∈
        (resetTimestamps "/tmp/t" ⟨1099511627776, 0⟩ (registerDir "/tmp/t" exBlocked).timestamps
          exBlockedLater).fs.listing "/tmp/t" ∧
      (⟨⟨⟨15032385535, 0⟩, ⟨15032385535, 0⟩⟩, none, none, ext4⟩ : Inode).timestamps
        ≠ ⟨⟨1099511627776, 0⟩, ⟨1099511627776, 0⟩⟩) := by
  refine ⟨by decide, by decide, by decide, by decide, by decide⟩

/-- C9, scan tolerance of inaccessible entries (amended): for every tree whose
names are those a directory can hold (not empty, without a slash, not `.` or
`..`, no name twice in a directory), whatever entries fail `lstat` or cannot be
read, `registerDir` returns nil and logs only access warnings; every entry the
walk skips is absent from the snapshot, every entry it visits (also after a
skipped one) is present with its own timestamps.  In a later restore pass with
fallback `d`, `resetTimestamps` returns nil when no timestamp write can fail
and `d` is well formed; and for every entry `v` the restore walk hands to its
function without an error, at a path the scan skipped, such that no write
fails for `v` or for an entry handed to the function before `v`, the result
has at the place of `v` in walk order an entry with that path, holding `d` as
access and as modification time as the entry's filesystem stores it: exactly
the pair of `d` when the filesystem stores `d` as given. -/
theorem scan_tolerance (dir : String) (fs : Node) (hnames : fs.wellNamed = true) :
    (registerDir dir fs).err = none ∧
    (∀ l ∈ (registerDir dir fs).log, l.isWarning = true) ∧
    (∀ q ∈ fs.skippedFrom dir, (registerDir dir fs).timestamps.get q.1 = none) ∧
    (∀ q ∈ fs.visitedFrom dir, (registerDir dir fs).timestamps.get q.1 = some q.2.timestamps) ∧
    (∀ (d : Time) (later : Node),
      ((∀ q ∈ later.listing dir, q.2.utimesErr = none) → d.WF →
        (resetTimestamps dir d (registerDir dir fs).timestamps later).err = none) ∧
      (∀ pre v post, later.visitsFrom dir = pre ++ v :: post →
        (∀ u ∈ pre, u.writeErr d (registerDir dir fs).timestamps = none) →
        v.writeErr d (registerDir dir fs).timestamps = none →
        ∀ q ∈ fs.skippedFrom dir, v.path = q.1 →
          ∃ r, ((resetTimestamps dir d (registerDir dir fs).timestamps
              later).fs.visitedFrom dir)[pre.length]? = some r ∧
            r.1 = q.1 ∧
            r.2.stat
              = ⟨v.inode.sb.truncate (toTimespec d), v.inode.sb.truncate (toTimespec d)⟩ ∧
            (v.inode.holds ⟨d, d⟩ → r.2.timestamps = ⟨d, d⟩))) := by
  have hn := listing_nodup dir fs hnames
  obtain ⟨herr, hts, hlog⟩ := registerDir_eq dir fs
  have hperm := (listingFrom_perm dir fs).map Prod.fst
  have hn2 := (List.Perm.nodup_iff hperm).1 hn
  rw [List.map_append] at hn2
  have hskip : ∀ q ∈ fs.skippedFrom dir, (registerDir dir fs).timestamps.get q.1 = none := by
    intro q hq
    rw [hts, record_get_of_not_mem]
    · rfl
    · exact skipped_not_visited dir fs hn q.1 (List.mem_map_of_mem _ hq)
  refine ⟨herr, hlog, hskip, ?_, ?_⟩
  · intro q hq
    rw [hts]
    exact record_get_of_mem _ _ (List.Nodup.of_append_left hn2) q.1 q.2 hq
  · intro d later
    refine ⟨fun hw hd =>
      resetTimestamps_writable dir d _ later hd (registerDir_WF dir fs) hw, ?_⟩
    intro pre v post hsplit hpre hv q hq hp
    obtain ⟨r, hr, hr1, hr2, _⟩ :=
      resetTimestamps_reached dir d _ later pre v post hsplit hpre
    have hs : (registerDir dir fs).timestamps.get v.path = none := by
      rw [hp]
      exact hskip q hq
    obtain ⟨h1, h2⟩ := settle_new d _ v r.2 (hr2 hv)
      (fun hu => writeErr_none_WF d _ v hv hu) hs
    exact ⟨r, hr, hr1.trans hp, h1, h2⟩

/-- The scan of `exBlocked` skips `gone`, `locked` and `locked/x`, records
`z.txt`, and the later restore pass over `exBlockedLater` returns nil and sets
`gone` to the fallback timestamp. -/
theorem scan_tolerance_witness :
    exBlocked.wellNamed = true ∧
    (exBlocked.skippedFrom "/tmp/t").map Prod.fst
      = ["/tmp/t/gone", "/tmp/t/locked", "/tmp/t/locked/x"] ∧
    (registerDir "/tmp/t" exBlocked).timestamps.get "/tmp/t/locked" = none ∧
    (registerDir "/tmp/t" exBlocked).timestamps.get "/tmp/t/z.txt"
      = some (exInode 120 120).timestamps ∧
    (∀ q ∈ exBlockedLater.listing "/tmp/t", q.2.utimesErr = none) ∧
    (resetTimestamps "/tmp/t" ⟨7, 0⟩ (registerDir "/tmp/t" exBlocked).timestamps
      exBlockedLater).err = none ∧
    (∃ r, ((resetTimestamps "/tmp/t" ⟨7, 0⟩ (registerDir "/tmp/t" exBlocked).timestamps
        exBlockedLater).fs.visitedFrom "/tmp/t")[1]? = some r ∧
      r.1 = "/tmp/t/gone" ∧ r.2.timestamps = ⟨⟨7, 0⟩, ⟨7, 0⟩⟩) ∧
    ("/tmp/t/gone", (⟨⟨⟨7, 0⟩, ⟨7, 0⟩⟩, none, none, ext4⟩ : Inode)) ∈
      (resetTimestamps "/tmp/t" ⟨7, 0⟩ (registerDir "/tmp/t" exBlocked).timestamps
        exBlockedLater).fs.visitedFrom "/tmp/t" :=
  ⟨by decide, by decide,
    (scan_tolerance "/tmp/t" exBlocked (by decide)).2.2.1
      ("/tmp/t/locked", exInode 110 110) (by decide),
    (scan_tolerance "/tmp/t" exBlocked (by decide)).2.2.2.1
      ("/tmp/t/z.txt", exInode 120 120) (by decide),
    by decide,
    ((scan_tolerance "/tmp/t" exBlocked (by decide)).2.2.2.2 ⟨7, 0⟩ exBlockedLater).1
      (by decide) (by decide),
    by
      obtain ⟨r, hr, hp, _, hh⟩ :=
        ((scan_tolerance "/tmp/t" exBlocked (by decide)).2.2.2.2 ⟨7, 0⟩ exBlockedLater).2
          [⟨"/tmp/t", exInode 100 100, some exNow⟩] ⟨"/tmp/t/gone", exInode 130 130, none⟩
          [⟨"/tmp/t/locked", exInode 110 110, some exNow⟩,
            ⟨"/tmp/t/locked/x", exInode 111 111, none⟩,
            ⟨"/tmp/t/z.txt", exInode 120 120, none⟩]
          (by decide) (by decide) (by decide)
          ("/tmp/t/gone", ⟨⟨⟨0, 0⟩, ⟨0, 0⟩⟩, some 2, none, ext4⟩) (by decide) rfl
      exact ⟨r, hr, hp, hh (by decide)⟩,
    by decide⟩


/-! ## Errors of the two walks: claim C10 -/

theorem isFatal_of_isWarning (l : LogLine) (h : l.isWarning = true) : l.isFatal = false := by
  cases l <;> first | rfl | simp [LogLine.isWarning] at h

/-- C10 as stated fails: on a root that `lstat` cannot access, `registerDir`
returns an empty snapshot and a nil error and `resetTimestamps` returns nil;
and when the command removes the target directory, `main` ends with status 0
and no fatal line. -/
theorem root_failure_not_fatal :
    exMissing.inode.lstatErr = some 2 ∧
    (registerDir "/tmp/t" exMissing).err = none ∧
    (registerDir "/tmp/t" exMissing).timestamps = [] ∧
    (registerDir "/tmp/t" exMissing).log = [.warnAccess "/tmp/t" 2] ∧
    (resetTimestamps "/tmp/t" ⟨0, 0⟩ exSnapshot exMissing).err = none ∧
    (main false ["/tmp/t", "rm"] exVanishingWorld).exit = 0 ∧
    (main false ["/tmp/t", "rm"] exVanishingWorld).log
      = [.scanning, .found 3, .executing ["rm"], .resetting, .warnAccess "/tmp/t" 2] := by
  decide

/-- C10, errors of the two walks (amended): `registerDir` never returns an
error; when the root cannot be accessed at the start of a walk, `registerDir`
returns an empty snapshot and `resetTimestamps` returns nil without a write,
each after one access warning and leaving the tree as it is;
`resetTimestamps` returns an error exactly when a timestamp write fails, so
that where no write can fail it returns nil whatever entries are inaccessible:
an access error at or below the root never produces an error.  In `main`, the
fatal line of the scan is never logged; when the command returns nil and
leaves a target that `lstat` cannot access, `main` makes no write, logs the
access warning and no fatal line, and ends with status 0; a target that
`os.Stat` cannot access before the scan ends `main` with status 1 through its
own check ("is not a valid directory"), before any walk. -/
theorem walk_errors (dir : String) (d : Time) (snap : Snapshot) (fs : Node)
    (changeDir : Bool) (args : List String) (w : World) :
    (registerDir dir fs).err = none ∧
    (∀ e, fs.inode.lstatErr = some e →
      (registerDir dir fs).timestamps = [] ∧
      (registerDir dir fs).log = [.warnAccess dir e] ∧
      (registerDir dir fs).fs = fs ∧
      (resetTimestamps dir d snap fs).err = none ∧
      (resetTimestamps dir d snap fs).calls = [] ∧
      (resetTimestamps dir d snap fs).fs = fs ∧
      (resetTimestamps dir d snap fs).log = [.warnAccess dir e]) ∧
    (∀ e, (resetTimestamps dir d snap fs).err = some e ↔
      ∃ c ∈ (resetTimestamps dir d snap fs).calls, c.result = some e) ∧
    ((∀ q ∈ fs.listing dir, q.2.utimesErr = none) → d.WF → snap.WF →
      (resetTimestamps dir d snap fs).err = none) ∧
    (∀ e, LogLine.fatalScan e ∉ (main changeDir args w).log) ∧
    (∀ root c0 cs e, args = root :: c0 :: cs → osStat w.fs = .ok true →
      (executeCommand w (c0 :: cs) (if changeDir then root else "")
        (registerDir root w.fs).fs).2 = none →
      (executeCommand w (c0 :: cs) (if changeDir then root else "")
        (registerDir root w.fs).fs).1.inode.lstatErr = some e →
      (main changeDir args w).exit = 0 ∧
      (main changeDir args w).calls = [] ∧
      LogLine.warnAccess root e ∈ (main changeDir args w).log ∧
      ∀ l ∈ (main changeDir args w).log, l.isFatal = false) ∧
    (∀ root c0 cs e, args = root :: c0 :: cs → osStat w.fs = .error e →
      (main changeDir args w).exit = 1 ∧
      (main changeDir args w).stages = [] ∧
      (main changeDir args w).log = [.fatalNotDirectory root]) := by
  have hroot : ∀ (dir : String) (d : Time) (snap : Snapshot) (fs : Node) (e : Errno),
      fs.inode.lstatErr = some e →
      (resetTimestamps dir d snap fs).err = none ∧
      (resetTimestamps dir d snap fs).calls = [] ∧
      (resetTimestamps dir d snap fs).fs = fs ∧
      (resetTimestamps dir d snap fs).log = [.warnAccess dir e] := by
    intro dir d snap fs e he
    simp only [resetTimestamps, Walk, he, invoke_reset_failed, setInode_self, List.nil_append]
    exact ⟨trivial, trivial, trivial, trivial⟩
  refine ⟨(registerDir_eq dir fs).1, ?_, ?_,
    fun h hd hs => resetTimestamps_writable dir d snap fs hd hs h, ?_, ?_, ?_⟩
  · intro e he
    refine ⟨?_, ?_, ?_, hroot dir d snap fs e he⟩
    · simp only [registerDir, Walk, he, invoke_register_failed]
    · simp only [registerDir, Walk, he, invoke_register_failed, List.nil_append]
    · simp only [registerDir, Walk, he, invoke_register_failed, setInode_self]
  · intro e
    have ht := resetTimestamps_trace dir d snap fs
    constructor
    · intro herr
      rw [herr] at ht
      obtain ⟨cs, c, hcs, hc, _⟩ := ht
      exact ⟨c, by rw [hcs]; simp, hc⟩
    · rintro ⟨c, hc, hres⟩
      exact ((failed_call_error dir d snap fs) c hc e hres)
  · intro e hm
    have hscan : ∀ root, (registerDir root w.fs).err = none ∧
        ∀ l ∈ (registerDir root w.fs).log, l.isFatal = false :=
      fun root => ⟨(registerDir_eq root w.fs).1,
        fun l hl => isFatal_of_isWarning l ((registerDir_eq root w.fs).2.2 l hl)⟩
    have hreset := resetTimestamps_not_fatal
    unfold main at hm
    split at hm
    · rename_i root c0 cs
      simp only at hm
      split at hm
      · simp at hm
      · simp at hm
      · rw [(hscan root).1] at hm
        simp only at hm
        split at hm
        · simp only [List.cons_append, List.mem_cons, reduceCtorEq, List.mem_append,
            List.mem_singleton, List.not_mem_nil, or_false, false_or] at hm
          have := (hscan root).2 _ hm
          simp [LogLine.isFatal] at this
        · split at hm
          · simp only [List.cons_append, List.mem_cons, reduceCtorEq, List.mem_append,
              List.mem_singleton, List.not_mem_nil, or_false, false_or] at hm
            rcases hm with hm | hm
            · have := (hscan root).2 _ hm
              simp [LogLine.isFatal] at this
            · have := hreset _ _ _ _ _ hm
              simp [LogLine.isFatal] at this
          · simp only [List.cons_append, List.mem_cons, reduceCtorEq, List.mem_append,
              List.mem_singleton, List.not_mem_nil, or_false, false_or] at hm
            rcases hm with hm | hm
            · have := (hscan root).2 _ hm
              simp [LogLine.isFatal] at this
            · have := hreset _ _ _ _ _ hm
              simp [LogLine.isFatal] at this
    · simp at hm
  · intro root c0 cs e hargs hstat hrun hgone
    subst hargs
    have hscan := (registerDir_eq root w.fs).1
    obtain ⟨h1, h2, _, h4⟩ := hroot root (defaultTimestamp (Getenv w.sourceDateEpoch))
      (registerDir root w.fs).timestamps _ e hgone
    simp only [main, hstat, hscan, hrun, h1, h2, h4]
    refine ⟨trivial, trivial, by simp, ?_⟩
    intro l hl
    simp only [List.cons_append, List.mem_cons, List.mem_append, List.mem_singleton,
      List.not_mem_nil, or_false, or_assoc] at hl
    rcases hl with hl | hl | hl | hl | hl | hl
    · rw [hl]; rfl
    · exact isFatal_of_isWarning l ((registerDir_eq root w.fs).2.2 l hl)
    · rw [hl]; rfl
    · rw [hl]; rfl
    · rw [hl]; rfl
    · rw [hl]; rfl
  · intro root c0 cs e hargs hstat
    subst hargs
    simp only [main, hstat]
    exact ⟨trivial, trivial, trivial⟩

/-- Both walks on a missing root, a restore pass over a tree with inaccessible
entries, and `main` with a command that removes the target. -/
theorem walk_errors_witness :
    exMissing.inode.lstatErr = some 2 ∧
    (registerDir "/tmp/t" exMissing).timestamps = [] ∧
    (resetTimestamps "/tmp/t" ⟨0, 0⟩ [] exMissing).err = none ∧
    (∀ q ∈ exBlocked.listing "/tmp/t", q.2.utimesErr = none) ∧
    (resetTimestamps "/tmp/t" ⟨0, 0⟩ [] exBlocked).err = none ∧
    osStat exVanishingWorld.fs = .ok true ∧
    (main false ["/tmp/t", "rm"] exVanishingWorld).exit = 0 ∧
    (osStat exMissing = .error 2 ∧
      (main false ["/tmp/t", "rm"] ⟨exMissing, none, exVanishingWorld.run⟩).exit = 1) :=
  ⟨rfl,
    ((walk_errors "/tmp/t" ⟨0, 0⟩ [] exMissing false [] exWorld).2.1 2 rfl).1,
    ((walk_errors "/tmp/t" ⟨0, 0⟩ [] exMissing false [] exWorld).2.1 2 rfl).2.2.2.1,
    by decide,
    (walk_errors "/tmp/t" ⟨0, 0⟩ [] exBlocked false [] exWorld).2.2.2.1 (by decide) (by decide)
      (by intro p ts h; simp [Snapshot.get] at h),
    rfl,
    ((walk_errors "/tmp/t" ⟨0, 0⟩ [] exMissing false ["/tmp/t", "rm"]
      exVanishingWorld).2.2.2.2.2.1 "/tmp/t" "rm" [] 2 rfl rfl rfl rfl).1,
    rfl,
    ((walk_errors "/tmp/t" ⟨0, 0⟩ [] exMissing false ["/tmp/t", "rm"]
      ⟨exMissing, none, exVanishingWorld.run⟩).2.2.2.2.2.2 "/tmp/t" "rm" [] 2 rfl rfl).1⟩


end Stampdalf
